import Mathlib

/-!
# PRoot `execve.c`: a shallow embedding and its properties

The development embeds `src/execve.c` (the translation of the `execve`
system call of a traced process) as executable definitions and proves
properties of them.

Conventions of the embedding

* A byte is a `Nat`; a C string is the list of its bytes up to, and not
  including, the terminating NUL (`Str`).
* A `char *` that is either `NULL` or points to a heap string is a `Ptr`;
  the heap array `char *argv[]` is the list of its allocated slots (`Argv`).
* A C function returning a status and mutating state returns an `Outcome`:
  either `ret status state`, or `undefined` when the C code would read or
  write outside an allocation or fail an `assert`.
* The two loops without a bound of their own (the first loop of `get_argv`
  and the shebang loop of `translate_execve`) take a number of iterations
  allowed, `fuel`, and yield `none` when it does not suffice.
* `word_t` values are natural numbers below `2 ^ (8 * W)`, where `W` is
  `sizeof(word_t)`; arithmetic on them wraps.  C `int` counters and results
  are unbounded integers; `errno` values are natural numbers.
* Everything the file does not define (the path translator, the host
  filesystem, the allocator, the architecture) is a field of `Env`; the
  helpers of `child_mem.c` and `syscall.c` and the `ptrace` requests are
  modelled from the specification, and say so.
-/

namespace Execve

/-- Content of a C string: its bytes before the terminating NUL. -/
abbrev Str := List Nat

/-- A `char *`: `none` is `NULL`, `some s` points to a heap copy of `s`. -/
abbrev Ptr := Option Str

/-- The allocated slots of a heap array of `char *`. -/
abbrev Argv := List Ptr

def PATH_MAX : Nat := 4096

def ARG_MAX : Nat := 131072

def ENOENT : Int := 2

def ENOMEM : Int := 12

def EACCES : Int := 13

def EFAULT : Int := 14

def ENAMETOOLONG : Int := 36

/-- Bytes of a string literal, for concrete inputs. -/
def bytes (s : String) : List Nat := s.toList.map Char.toNat

/-- An open file descriptor as `read(2)` sees it: the bytes still to be read
and what a read at the end of them does (`none`: returns 0, end of file;
`some e`: fails with `errno = e`). -/
structure OpenFile where
  data : List Nat
  fail : Option Nat
deriving DecidableEq

/-- Result of a C function: the returned status with the state it leaves, or
undefined behaviour. -/
inductive Outcome (σ : Type) where
  | ret : Int → σ → Outcome σ
  | undefined : Outcome σ
deriving DecidableEq

/-- The state an outcome carries, `d` when the behaviour is undefined. -/
def Outcome.state {σ : Type} (d : σ) : Outcome σ → σ
  | .ret _ s => s
  | .undefined => d

/-- What `execve.c` takes from the rest of the program and from the host. -/
structure Env where
  /-- `sizeof(word_t)` of the traced architecture (`arch.h`). -/
  W : Nat
  /-- The static `runner` buffer as a C string; empty when no runner is set. -/
  runner : Str
  /-- Whether the `n`-th call of `realloc`/`calloc` succeeds. -/
  alloc_ok : Nat → Bool
  /-- Content of the slots a growing `realloc` leaves uninitialised. -/
  junk : Ptr
  /-- `translate_path(pid, out, AT_FDCWD, guest, REGULAR)`: status and host path. -/
  translate_path : Str → Int × Str
  /-- `open(host, O_RDONLY)`: the descriptor, or the `errno` of the failure. -/
  open_file : Str → Except Nat OpenFile
  /-- `access(host, mode)`. -/
  access : Str → Nat → Int
  /-- Status of `get_sysarg_path` for the path held by the argument. -/
  get_sysarg_path_status : Str → Int
  /-- Status of `set_sysarg_path` for the path to store. -/
  set_sysarg_path_status : Str → Int

/-! ## `substitute_argv0` -/

/-- The loop `for (i = 0; argv[i] != NULL; i++)`: index of the first `NULL`
slot, `none` when the scan leaves the allocation. -/
def argv_count : Argv → Option Nat
  | [] => none
  | none :: _ => some 0
  | some _ :: rest => (argv_count rest).map (· + 1)

/-- The call `realloc(argv, size * sizeof(char *))` when it succeeds: the first
`size` slots are kept, new slots are uninitialised. -/
def realloc (argv : Argv) (size : Nat) (junk : Ptr) : Argv :=
  argv.take size ++ List.replicate (size - argv.length) junk

/-- The call `memmove(a + dst, a + src, cnt * sizeof(char *))`; `none` when a
slot outside the allocation is touched. -/
def memmove (a : Argv) (dst src cnt : Nat) : Option Argv :=
  if src + cnt ≤ a.length ∧ dst + cnt ≤ a.length then
    some (a.take dst ++ (a.drop src).take cnt ++ a.drop (dst + cnt))
  else none

/-- The loop of `substitute_argv0` that allocates and copies the new entries,
from index `i` on, `n` being the number of allocations made so far. -/
def fill_new_args (env : Env) : Nat → Argv → Nat → List Str → Int × Nat × Argv
  | n, a, _, [] => (0, n, a)
  | n, a, i, s :: rest =>
    if env.alloc_ok n then fill_new_args env (n + 1) (a.set i (some s)) (i + 1) rest
    else (-ENOMEM, n + 1, a.set i none)

/-- `substitute_argv0(&argv, nb_new_args, ...)`, the variable arguments being
`new_args`.  The state is the number of allocations made and the array. -/
def substitute_argv0 (env : Env) (n : Nat) (argv : Argv) (new_args : List Str) :
    Outcome (Nat × Argv) :=
  match argv_count argv with
  | none => .undefined
  | some i =>
    if env.alloc_ok n then
      match realloc argv (new_args.length + i) env.junk with
      | [] => .undefined
      | _ :: tl =>
        match memmove (none :: tl) new_args.length 1 i with
        | none => .undefined
        | some moved =>
          match fill_new_args env (n + 1) moved 0 new_args with
          | (status, n1, a) => .ret status (n1, a)
    else .ret (-ENOMEM) (n + 1, argv)

/-- The slots of a NULL-terminated array holding exactly the given entries. -/
def argv_of (l : List Str) : Argv := l.map some ++ [none]

/-! ## `expand_shebang` -/

def SPACE : Nat := 32

def TAB : Nat := 9

def LF : Nat := 10

def CR : Nat := 13

/-- A space or a tab. -/
abbrev blank (b : Nat) : Prop := b = SPACE ∨ b = TAB

/-- An end of line: a newline or a carriage return. -/
abbrev eol (b : Nat) : Prop := b = LF ∨ b = CR

/-- The C string held by a buffer whose first bytes are `buf`: the bytes
before the first NUL. -/
def cstr (buf : List Nat) : Str := buf.takeWhile (· ≠ 0)

/-- Status of a `read(2)` that finds no byte left: 0 at end of file, `-errno`
on a failure. -/
def read_end (fail : Option Nat) : Int :=
  match fail with
  | none => 0
  | some e => -(e : Int)

/-- State at the label `end` of `expand_shebang`: `status` and the bytes
written so far, from index 0, to `interpreter[]` and to `argument[]`. -/
structure Shebang where
  status : Int
  interpreter : List Nat
  argument : List Nat
deriving DecidableEq

/-- The loop `for (i--; i > 0 && (argument[i] == ' ' || argument[i] == '\t'); i--)
argument[i] = '\0'`, started at index `j`. -/
def strip_trailing (arg : List Nat) : Nat → List Nat
  | 0 => arg
  | j + 1 =>
    if arg.getD (j + 1) 0 = SPACE ∨ arg.getD (j + 1) 0 = TAB then
      strip_trailing (arg.set (j + 1) 0) j
    else arg

/-- The loop after the label `argument`: `arg` holds `argument[0 .. i-1]`,
`tmp` is the byte read last and `rest` the bytes not yet read. -/
def slurp_argument (interp : List Nat) : Nat → List Nat → Nat → List Nat → Shebang
  | i, arg, tmp, rest =>
    if i < ARG_MAX then
      if tmp = LF ∨ tmp = CR then ⟨2, interp, strip_trailing (arg ++ [0]) (i - 1)⟩
      else
        match rest with
        | [] => ⟨0, interp, arg ++ [tmp]⟩
        | b :: r => slurp_argument interp (i + 1) (arg ++ [tmp]) b r
    else ⟨1, interp, arg.set 0 0⟩

/-- The loop that slurps the interpreter path: `buf` holds
`interpreter[0 .. i-1]`, `tmp` is the byte read last and `rest` the bytes not
yet read. -/
def slurp_interpreter (fail : Option Nat) : Nat → List Nat → Nat → List Nat → Shebang
  | i, buf, tmp, rest =>
    if i < PATH_MAX then
      if tmp = SPACE ∨ tmp = TAB then
        match rest with
        | [] => ⟨read_end fail, buf ++ [0], []⟩
        | b :: r => slurp_interpreter fail (i + 1) (buf ++ [0]) b r
      else if tmp = LF ∨ tmp = CR then ⟨1, buf ++ [0], []⟩
      else if 1 < i ∧ buf.getD (i - 1) 1 = 0 then slurp_argument buf 0 [] tmp rest
      else
        match rest with
        | [] => ⟨read_end fail, buf ++ [tmp], []⟩
        | b :: r => slurp_interpreter fail (i + 1) (buf ++ [tmp]) b r
    else ⟨-ENAMETOOLONG, buf, []⟩

/-- The loop `do read(fd, &tmp, 1) while (tmp == ' ' || tmp == '\t')`: the
status to leave with, or the byte read last and the bytes not yet read. -/
def skip_leading (fail : Option Nat) : List Nat → Int ⊕ (Nat × List Nat)
  | [] => .inl (read_end fail)
  | b :: r => if b = SPACE ∨ b = TAB then skip_leading fail r else .inr (b, r)

/-- The part of `expand_shebang` between `open` and the label `end`. -/
def read_shebang (fd : OpenFile) : Shebang :=
  match fd.data with
  | [] => ⟨read_end fd.fail, [], []⟩
  | [c] => ⟨0, [c], []⟩
  | c0 :: c1 :: rest =>
    if c0 ≠ 35 ∨ c1 ≠ 33 then ⟨0, [c0, c1], []⟩
    else
      match skip_leading fd.fail rest with
      | .inl status => ⟨status, [c0, c1], []⟩
      | .inr (tmp, r) => slurp_interpreter fd.fail 0 [] tmp r

/-- `expand_shebang(pid, filename, &argv)`.  The state is the number of
allocations made, the buffer `filename` and the array. -/
def expand_shebang (env : Env) (n : Nat) (filename : Str) (argv : Argv) :
    Outcome (Nat × Str × Argv) :=
  match env.translate_path filename with
  | (status, path) =>
    if status < 0 then .ret status (n, filename, argv)
    else
      match env.open_file path with
      | .error e => .ret (-(e : Int)) (n, filename, argv)
      | .ok fd =>
        match read_shebang fd with
        | ⟨status, interpreter, argument⟩ =>
          if status ≤ 0 then .ret status (n, filename, argv)
          else
            let substituted :=
              if status = 1 then substitute_argv0 env n argv [cstr interpreter, filename]
              else if status = 2 then
                substitute_argv0 env n argv [cstr interpreter, cstr argument, filename]
              else .undefined
            match substituted with
            | .undefined => .undefined
            | .ret status (n1, a) =>
              if status < 0 then .ret status (n1, filename, a)
              else .ret 1 (n1, cstr interpreter, a)

/-! ## The traced process -/

/-- The traced process as the supervisor sees it while the process is stopped.
`written` logs the addresses of the bytes written so far, last first. -/
structure Tracee where
  /-- The byte at each address. -/
  mem : Nat → Nat
  /-- Whether `PTRACE_PEEKDATA`/`PTRACE_POKEDATA` reach the address. -/
  mapped : Nat → Bool
  /-- Whether `PTRACE_PEEKUSER` of the stack pointer succeeds. -/
  peekuser_ok : Bool
  /-- Whether `PTRACE_POKEUSER` of the stack pointer succeeds. -/
  pokeuser_ok : Bool
  /-- The path the first argument of the system call names. -/
  sysarg1 : Str
  /-- The second argument of the system call. -/
  sysarg2 : Nat
  /-- The stack pointer register. -/
  sp : Nat
  written : List Nat

/-- Number of values of `word_t`. -/
def word_mod (W : Nat) : Nat := 2 ^ (8 * W)

/-- Subtraction in `word_t`. -/
def wsub (W a b : Nat) : Nat := (a + word_mod W - b % word_mod W) % word_mod W

/-- Addition in `word_t`. -/
def wadd (W a b : Nat) : Nat := (a + b) % word_mod W

/-- Whether the `len` addresses from `a` on are all mapped. -/
def range_mapped (t : Tracee) (a len : Nat) : Bool :=
  (List.range len).all fun k => t.mapped (a + k)

/-- The word of `k` bytes stored at `a`, least significant byte first. -/
def load_word (mem : Nat → Nat) (a : Nat) : Nat → Nat
  | 0 => 0
  | k + 1 => mem a % 256 + 256 * load_word mem (a + 1) k

/-- The `k` bytes of the word `v`, least significant first. -/
def word_bytes (v : Nat) : Nat → List Nat
  | 0 => []
  | k + 1 => v % 256 :: word_bytes (v / 256) k

/-- Memory after the bytes `bs` are stored from address `a` on. -/
def store_bytes (mem : Nat → Nat) (a : Nat) (bs : List Nat) : Nat → Nat :=
  fun x => if a ≤ x then bs.getD (x - a) (mem x) else mem x

/-- Modelled from the spec: the tracee-memory gateway's "peek one word at
address" (`ptrace(PTRACE_PEEKDATA, ...)`, whose implementation is the kernel's);
`none` when `errno` is set. -/
def peek_data (W : Nat) (t : Tracee) (a : Nat) : Option Nat :=
  if range_mapped t a W then some (load_word t.mem a W) else none

/-- Modelled from the spec: the tracee-memory gateway's "poke one word at
address" (`ptrace(PTRACE_POKEDATA, ...)`); `none` when the call fails. -/
def poke_data (W : Nat) (t : Tracee) (a v : Nat) : Option Tracee :=
  if range_mapped t a W then
    some { t with mem := store_bytes t.mem a (word_bytes v W),
                  written := ((List.range W).map (a + ·)).reverse ++ t.written }
  else none

/-- Modelled from the spec: the tracee-memory gateway's "copy a byte range into
the tracee" (`copy_to_child` of `child_mem.c`, which is not in the sources at
hand).  Bytes are written in ascending order; the first unmapped address stops
the copy with `-EFAULT` and what was written stays written. -/
def copy_to_child (t : Tracee) : Nat → List Nat → Int × Tracee
  | _, [] => (0, t)
  | a, b :: bs =>
    if t.mapped a then
      copy_to_child { t with mem := store_bytes t.mem a [b], written := a :: t.written }
        (a + 1) bs
    else (-EFAULT, t)

/-- Modelled from the spec: the tracee-memory gateway's "read bounded
NUL-terminated string" (`get_child_string` of `child_mem.c`, which is not in
the sources at hand).  At most `max_size` bytes are read from `src` on; the
status is the number of bytes of the string with its terminator, `max_size`
when no terminator was met, `-EFAULT` when an unmapped address is read.  `acc`
holds the bytes copied so far. -/
def get_child_string (t : Tracee) : Nat → Nat → List Nat → Int × List Nat
  | 0, _, acc => (acc.length, acc)
  | max_size + 1, src, acc =>
    if t.mapped src then
      if t.mem src = 0 then (acc.length + 1, acc)
      else get_child_string t max_size (src + 1) (acc ++ [t.mem src])
    else (-EFAULT, acc)

/-- Modelled from the spec: `get_sysarg_path(pid, out path, which) -> 0 | -errno`
of `syscall.c`, which is not in the sources at hand: the guest path the first
argument of the system call names. -/
def get_sysarg_path (env : Env) (t : Tracee) : Int × Str :=
  (env.get_sysarg_path_status t.sysarg1, t.sysarg1)

/-- Modelled from the spec: number of bytes of "tracee-stack scratch space" a
path rewrite claims below the stack pointer: the path with its terminator, and
no more than lies below the stack pointer. -/
def scratch_size (t : Tracee) (path : Str) : Nat := min (path.length + 1) t.sp

/-- Modelled from the spec: `set_sysarg_path(pid, path, which) -> 0 | -errno`
of `syscall.c`, which is not in the sources at hand: "write `host_path` back
into syscall-arg-1".  The spec has path rewrites "claim tracee-stack scratch
space" below the stack pointer, and the comment in `set_argv` names
`set_sysarg_path` as the later call the update of the stack pointer protects
the new argv from.  The status is the environment's; when it is not negative
the path and its terminator are copied right below the stack pointer, the stack
pointer moves down to the copy and the first argument names the path.  Bytes
at and above the stack pointer are not touched. -/
def set_sysarg_path (env : Env) (t : Tracee) (path : Str) : Int × Tracee :=
  if env.set_sysarg_path_status path < 0 then (env.set_sysarg_path_status path, t)
  else
    (env.set_sysarg_path_status path,
      { t with mem := store_bytes t.mem (t.sp - scratch_size t path)
                 ((path ++ [0]).take (scratch_size t path)),
               written := ((List.range (scratch_size t path)).map
                 (t.sp - scratch_size t path + ·)).reverse ++ t.written,
               sysarg1 := path,
               sp := t.sp - scratch_size t path })

/-! ## `get_argv` -/

/-- The strings an array holds before its first `NULL` slot, `none` when a scan
for that slot leaves the allocation. -/
def argv_entries : Argv → Option (List Str)
  | [] => none
  | none :: _ => some []
  | some s :: rest => (argv_entries rest).map (s :: ·)

/-- The first loop of `get_argv`, entered with index `i`: the number of entries
or the status of the failure; `none` when `fuel` iterations do not reach the
end of the table. -/
def count_child_argv (env : Env) (t : Tracee) (child_argv : Nat) :
    Nat → Nat → Option (Except Int Nat)
  | 0, _ => none
  | fuel + 1, i =>
    match peek_data env.W t (wadd env.W child_argv (i * env.W)) with
    | none => some (.error (-EFAULT))
    | some argp => if argp = 0 then some (.ok i) else count_child_argv env t child_argv fuel (i + 1)

/-- The second loop of `get_argv`, with `todo` entries left from index `i` on. -/
def slurp_child_argv (env : Env) (t : Tracee) (child_argv : Nat) :
    Nat → Nat → Nat → Argv → Outcome (Nat × Argv)
  | 0, _, n, argv => .ret 0 (n, argv)
  | todo + 1, i, n, argv =>
    match peek_data env.W t (wadd env.W child_argv (i * env.W)) with
    | none => .ret (-EFAULT) (n, argv)
    | some argp =>
      if argp = 0 then .undefined
      else
        match get_child_string t ARG_MAX argp [] with
        | (status, arg) =>
          if status < 0 then .ret status (n, argv)
          else if status ≥ ARG_MAX then .ret (-ENAMETOOLONG) (n, argv)
          else if env.alloc_ok n then
            slurp_child_argv env t child_argv todo (i + 1) (n + 1) (argv.set i (some (cstr arg)))
          else .ret (-ENOMEM) (n + 1, argv.set i none)

/-- `get_argv(pid, &argv)`.  The state is the number of allocations made and
the array; `none` when the first loop does not end within `fuel` iterations. -/
def get_argv (env : Env) (fuel n : Nat) (t : Tracee) : Option (Outcome (Nat × Argv)) :=
  match count_child_argv env t t.sysarg2 fuel 0 with
  | none => none
  | some (.error status) => some (.ret status (n, []))
  | some (.ok nb_argv) =>
    if env.alloc_ok n then
      some (slurp_child_argv env t t.sysarg2 nb_argv 0 (n + 1)
        ((List.replicate (nb_argv + 1) none).set nb_argv none))
    else some (.ret (-ENOMEM) (n + 1, []))

/-! ## `set_argv` -/

/-- The first loop of `set_argv` over the entries left: status, tracee, `argp`
and the `child_args` filled so far. -/
def push_strings (env : Env) : List Str → Tracee → Nat → List Nat → Int × Tracee × Nat × List Nat
  | [], t, argp, child_args => (0, t, argp, child_args)
  | s :: rest, t, argp, child_args =>
    match copy_to_child t (wsub env.W argp (s.length + 1)) (s ++ [0]) with
    | (status, t1) =>
      if status < 0 then (status, t1, wsub env.W argp (s.length + 1), child_args)
      else push_strings env rest t1 (wsub env.W argp (s.length + 1))
        (child_args ++ [wsub env.W argp (s.length + 1)])

/-- The second loop of `set_argv` over `child_args[nb_argv - 1], ...,
child_args[0]`: status, tracee and `child_argv`. -/
def push_pointers (env : Env) : List Nat → Tracee → Nat → Int × Tracee × Nat
  | [], t, child_argv => (0, t, child_argv)
  | v :: rest, t, child_argv =>
    match poke_data env.W t (wsub env.W child_argv env.W) v with
    | none => (-EFAULT, t, wsub env.W child_argv env.W)
    | some t1 => push_pointers env rest t1 (wsub env.W child_argv env.W)

/-- `INT_MAX` of `limits.h`, `int` having 32 bits on the supported targets. -/
def INT_MAX : Nat := 2147483647

/-- `set_argv(pid, argv)`.  The state is the number of allocations made and
the tracee.  The status of a success is `previous_sp - child_argv` as computed
in `word_t`; returned as `int` it is that number as long as it does not exceed
`INT_MAX`. -/
def set_argv (env : Env) (n : Nat) (t : Tracee) (argv : Argv) : Outcome (Nat × Tracee) :=
  match argv_entries argv with
  | none => .undefined
  | some entries =>
    if env.alloc_ok n then
      if t.peekuser_ok then
        match push_strings env entries t t.sp [] with
        | (status, t1, argp, child_args) =>
          if status < 0 then .ret status (n + 1, t1)
          else
            match push_pointers env (child_args ++ [0]).reverse t1 argp with
            | (status, t2, child_argv) =>
              if status < 0 then .ret status (n + 1, t2)
              else if t2.pokeuser_ok then
                .ret (wsub env.W t.sp child_argv) (n + 1, { t2 with sysarg2 := child_argv, sp := child_argv })
              else .ret (-EFAULT) (n + 1, { t2 with sysarg2 := child_argv })
      else .ret (-EFAULT) (n + 1, t)
    else .ret (-ENOMEM) (n + 1, t)

/-! ## Layout of an argument vector in the tracee -/

/-- Number of bytes the strings of an argument vector take with their
terminators. -/
def strings_size (l : List Str) : Nat := (l.map fun s => s.length + 1).sum

/-- Number of bytes `set_argv` takes below the stack pointer for the entries
`l`: the strings with their terminators and a table of `l.length + 1` words. -/
def argv_size (W : Nat) (l : List Str) : Nat := strings_size l + (l.length + 1) * W

/-- The bytes of the strings `set_argv` copies, in ascending order of address:
the last string comes first. -/
def strings_image : List Str → List Nat
  | [] => []
  | s :: rest => strings_image rest ++ (s ++ [0])

/-- The addresses `set_argv` gives the strings when `argp` starts at the given
value and nothing wraps. -/
def string_addrs : Nat → List Str → List Nat
  | _, [] => []
  | argp, s :: rest => (argp - (s.length + 1)) :: string_addrs (argp - (s.length + 1)) rest

/-- The bytes `bs` are stored, in mapped memory, from address `a` on. -/
def bytes_at (t : Tracee) (a : Nat) (bs : List Nat) : Prop :=
  ∀ j, j < bs.length → t.mem (a + j) = bs.getD j 0 ∧ t.mapped (a + j) = true

/-- The words `vs` are stored, in mapped memory, from address `a` on. -/
def table_at (W : Nat) (t : Tracee) : Nat → List Nat → Prop
  | _, [] => True
  | a, v :: vs => peek_data W t a = some v ∧ table_at W t (a + W) vs

/-! ## `translate_execve` -/

def F_OK : Nat := 0

def X_OK : Nat := 1

def R_OK : Nat := 4

/-- The loop `do nb_shebang++, status = expand_shebang(...) while (status > 0)`,
entered with the value `nb_shebang` has before the increment; `none` when it
does not end within `fuel` iterations. -/
def shebang_loop (env : Env) : Nat → Int → Nat → Str → Argv →
    Option (Outcome (Int × Nat × Str × Argv))
  | 0, _, _, _, _ => none
  | fuel + 1, nb_shebang, n, path, argv =>
    match expand_shebang env n path argv with
    | .undefined => some .undefined
    | .ret status (n1, path1, argv1) =>
      if status > 0 then shebang_loop env fuel (nb_shebang + 1) n1 path1 argv1
      else some (.ret status (nb_shebang + 1, n1, path1, argv1))

/-- The label `end` of `translate_execve`: the entries of `argv` are freed up
to the first `NULL`, then the status or `size + status` is returned. -/
def translate_end (status size : Int) (n : Nat) (argv : Argv) (t : Tracee) :
    Outcome (Nat × Tracee) :=
  match argv_entries argv with
  | none => .undefined
  | some _ => if status < 0 then .ret status (n, t) else .ret (size + status) (n, t)

/-- The part of `translate_execve` from "Rebuild argv[]" on. -/
def translate_commit (env : Env) (nb_shebang : Int) (n : Nat) (path2 : Str) (argv : Argv)
    (t : Tracee) : Outcome (Nat × Tracee) :=
  if nb_shebang ≠ 0 ∨ env.runner ≠ [] then
    match set_argv env n t argv with
    | .undefined => .undefined
    | .ret size (n1, t1) =>
      if size < 0 then translate_end size size n1 argv t1
      else
        match set_sysarg_path env t1 path2 with
        | (status, t2) => translate_end status size n1 argv t2
  else
    match set_sysarg_path env t path2 with
    | (status, t2) => translate_end status 0 n argv t2

/-- The part of `translate_execve` after the shebang loop. -/
def translate_finish (env : Env) (nb_shebang status : Int) (n : Nat) (path : Str) (argv : Argv)
    (t : Tracee) : Outcome (Nat × Tracee) :=
  if status < 0 then translate_end status 0 n argv t
  else
    match env.translate_path path with
    | (status, path2) =>
      if status < 0 then translate_end status 0 n argv t
      else if env.runner ≠ [] then
        if env.access path2 F_OK < 0 then translate_end (-ENOENT) 0 n argv t
        else if env.access path2 R_OK < 0 then translate_end (-EACCES) 0 n argv t
        else if env.access path2 X_OK < 0 then translate_end (-EACCES) 0 n argv t
        else
          match substitute_argv0 env n argv [env.runner, path] with
          | .undefined => .undefined
          | .ret _ (n1, argv1) =>
            if env.access path2 X_OK < 0 then translate_end (env.access path2 X_OK) 0 n1 argv1 t
            else translate_commit env nb_shebang n1 env.runner argv1 t
      else translate_commit env nb_shebang n path2 argv t

/-- `translate_execve(pid)`.  The state is the number of allocations made and
the tracee; `none` when a loop does not end within `fuel` iterations. -/
def translate_execve (env : Env) (fuel n : Nat) (t : Tracee) : Option (Outcome (Nat × Tracee)) :=
  match get_sysarg_path env t with
  | (status, path) =>
    if status < 0 then some (.ret status (n, t))
    else
      match get_argv env fuel n t with
      | none => none
      | some .undefined => some .undefined
      | some (.ret status (n1, argv)) =>
        if status < 0 then some (.ret status (n1, t))
        else
          match shebang_loop env fuel (-1) n1 path argv with
          | none => none
          | some .undefined => some .undefined
          | some (.ret status (nb_shebang, n2, path1, argv1)) =>
            some (translate_finish env nb_shebang status n2 path1 argv1 t)

/-- The first `d` iterations of the loop
`do nb_shebang++, status = expand_shebang(...) while (status > 0)`: the number
of allocations, the guest path and the array after `d` calls of
`expand_shebang` that each returned a value `> 0`; `none` when one of these
calls does not return such a value. -/
def expand_times (env : Env) : Nat → Nat → Str → Argv → Option (Nat × Str × Argv)
  | 0, n, path, argv => some (n, path, argv)
  | d + 1, n, path, argv =>
    match expand_shebang env n path argv with
    | .undefined => none
    | .ret status (n1, path1, argv1) =>
      if status > 0 then expand_times env d n1 path1 argv1 else none

/-! ## Concrete inputs -/

/-- A host in which guest paths translate to themselves under `/tmp/new_root`,
the listed files exist and every allocation succeeds. -/
def demo_env (runner : Str) (files : List (Str × List Nat)) : Env where
  W := 8
  runner := runner
  alloc_ok := fun _ => true
  junk := none
  translate_path := fun p => (0, bytes "/tmp/new_root" ++ p)
  open_file := fun h =>
    match files.lookup h with
    | some d => .ok ⟨d, none⟩
    | none => .error 2
  access := fun h _ => if (files.lookup h).isSome then 0 else -1
  get_sysarg_path_status := fun _ => 0
  set_sysarg_path_status := fun _ => 0

/-- Addresses of strings laid out one after the other from `a` on. -/
def demo_addrs : Nat → List Str → List Nat
  | _, [] => []
  | a, s :: rest => a :: demo_addrs (a + s.length + 1) rest

/-- A stopped tracee about to call `execve(path, argv, envp)`: the strings of
`argv` are at address 4096, the pointer table is at address 8192, the stack
pointer is 65536 and all memory is mapped. -/
def demo_tracee (path : Str) (argv : List Str) : Tracee where
  mem := store_bytes (store_bytes (fun _ => 0) 4096 (argv.flatMap (· ++ [0]))) 8192
    ((demo_addrs 4096 argv ++ [0]).flatMap (word_bytes · 8))
  mapped := fun _ => true
  peekuser_ok := true
  pokeuser_ok := true
  sysarg1 := path
  sysarg2 := 8192
  sp := 65536
  written := []

/-- A script of 5002 bytes: `#!`, then `a b` and 4997 times `c`, with no end
of line. -/
def blank_in_long_line : List Nat := [35, 33] ++ ([97, 32, 98] ++ List.replicate 4997 99)

/-- A script of 5002 bytes: `#!` and 5000 times `a`, with no end of line. -/
def long_line : List Nat := [35, 33] ++ List.replicate 5000 97

/-- The nested scripts of the scenario: `/a` runs under `/b`, `/b` under
`/c arg`, and `/c` is a binary; no runner is set. -/
def nested_env : Env :=
  demo_env [] [(bytes "/tmp/new_root/a", bytes "#!/b\n"),
    (bytes "/tmp/new_root/b", bytes "#!/c arg\n"), (bytes "/tmp/new_root/c", bytes "\x7fELF")]

/-- The tracee of the scenario, calling `execve("/a", ["a", "x"], envp)`. -/
def nested_tracee : Tracee := demo_tracee (bytes "/a") [bytes "a", bytes "x"]

/-- The tracee a terminated `translate_execve` leaves, `t` otherwise. -/
def final_tracee (t : Tracee) (r : Option (Outcome (Nat × Tracee))) : Tracee :=
  match r with
  | some (.ret _ (_, t1)) => t1
  | _ => t

/-- The guest path `expand_shebang` makes the next one when the file at
`filename` is a script: the interpreter its first line names. -/
def shebang_interpreter (env : Env) (filename : Str) : Option Str :=
  match env.translate_path filename with
  | (status, path) =>
    if status < 0 then none
    else
      match env.open_file path with
      | .error _ => none
      | .ok fd =>
        if (read_shebang fd).status ≤ 0 then none
        else some (cstr (read_shebang fd).interpreter)

/-- A guest whose script `/a` names itself as its interpreter. -/
def loop_env : Env := demo_env [] [(bytes "/tmp/new_root/a", bytes "#!/a\n")]

/-- A guest with the script `/a`, whose interpreter `/b` does not exist; guest
paths are their own host paths. -/
def chain_env : Env :=
  { demo_env [] [] with
    translate_path := fun p => (0, p)
    open_file := fun h => if h = bytes "/a" then .ok ⟨bytes "#!/b\n", none⟩ else .error 2 }

/-- Number of scripts in front of a guest path of `chain_env`. -/
def chain_rank (p : Str) : Nat := if p = bytes "/a" then 1 else 0

/-- A host with the runner `qemu-arm` configured in which the binary
`/bin/foo` exists and is readable but is not executable. -/
def noexec_env : Env :=
  { demo_env (bytes "/tmp/new_root/usr/bin/qemu-arm")
      [(bytes "/tmp/new_root/bin/foo", bytes "\x7fELF")] with
    access := fun _ mode => if mode = X_OK then -1 else 0 }

/-- An interpreter path of `PATH_MAX - 1` bytes. -/
def longest_path : List Nat := List.replicate 4095 97

/-- An argument of `ARG_MAX` bytes. -/
def long_argument : List Nat := 97 :: List.replicate 131071 97

/-- A host in which only the first allocation succeeds. -/
def one_alloc_env : Env :=
  { demo_env [] [] with alloc_ok := fun k => decide (k < 1) }

/-- A guest with the script `/bin/foo.sh`, whose interpreter `/bin/sh` is a
binary; no runner is set. -/
def script_env : Env :=
  demo_env [] [(bytes "/tmp/new_root/bin/foo.sh", bytes "#!/bin/sh\n"),
    (bytes "/tmp/new_root/bin/sh", bytes "\x7fELF")]

/-- A host with the runner `qemu-arm` configured and the binary `/bin/foo`,
in which the third allocation fails and the others succeed. -/
def splice_fails_env : Env :=
  { demo_env (bytes "/usr/bin/qemu-arm") [(bytes "/tmp/new_root/bin/foo", bytes "\x7fELF")] with
    alloc_ok := fun k => decide (k ≠ 2) }

/-- The tracee `t1` comes from `t` by writes to addresses `a` with
`lo <= a < hi` only: the log of writes grew by such addresses and the bytes at
all other addresses are the same. -/
def writes_within (t t1 : Tracee) (lo hi : Nat) : Prop :=
  (∃ wr : List Nat, t1.written = wr ++ t.written ∧ ∀ x ∈ wr, lo ≤ x ∧ x < hi)
    ∧ ∀ x, x < lo ∨ hi ≤ x → t1.mem x = t.mem x

/-- A tracee like `demo_tracee` in which the address 65520 is not mapped. -/
def hole_tracee (path : Str) (argv : List Str) : Tracee :=
  { demo_tracee path argv with mapped := fun x => decide (x ≠ 65520) }

/-! ## Properties of `substitute_argv0` and `expand_shebang` -/

theorem argv_count_terminated (l : List Str) (extra : Argv) :
    argv_count (l.map some ++ none :: extra) = some l.length := by
  induction l with
  | nil => rfl
  | cons s l ih => simp [argv_count, ih]

theorem take_succ_set {α : Type} (a : List α) (i : Nat) (x : α) (hi : i < a.length) :
    (a.set i x).take (i + 1) = a.take i ++ [x] := by
  induction a generalizing i with
  | nil => simp at hi
  | cons y ys ih =>
    cases i with
    | zero => simp
    | succ j => simp at hi; simp [ih j hi]

theorem drop_succ_set {α : Type} (a : List α) (i k : Nat) (x : α) :
    (a.set i x).drop (i + 1 + k) = a.drop (i + 1 + k) := by
  induction a generalizing i with
  | nil => simp
  | cons y ys ih =>
    cases i with
    | zero => simp [Nat.add_comm]
    | succ j =>
      have : j + 1 + 1 + k = (j + 1 + k) + 1 := by omega
      simp only [List.set_cons_succ, this, List.drop_succ_cons]
      exact ih j

theorem fill_new_args_ok (env : Env) (halloc : ∀ m, env.alloc_ok m = true) (new_args : List Str) :
    ∀ (n : Nat) (a : Argv) (i : Nat), i + new_args.length ≤ a.length →
      fill_new_args env n a i new_args
        = (0, n + new_args.length, a.take i ++ new_args.map some ++ a.drop (i + new_args.length)) := by
  induction new_args with
  | nil => intro n a i _; simp [fill_new_args]
  | cons s rest ih =>
    intro n a i h
    simp only [List.length_cons] at h
    have hlen : i + 1 + rest.length ≤ (a.set i (some s)).length := by
      simp only [List.length_set]; omega
    have hi : i < a.length := by omega
    simp only [fill_new_args, halloc, if_true, ih (n + 1) (a.set i (some s)) (i + 1) hlen,
      List.length_cons, List.map_cons, take_succ_set a i _ hi, drop_succ_set]
    have e1 : n + 1 + rest.length = n + (rest.length + 1) := by omega
    have e2 : i + 1 + rest.length = i + (rest.length + 1) := by omega
    rw [e1, e2]
    simp

theorem fill_new_args_cases (env : Env) (new_args : List Str) :
    ∀ (n : Nat) (a : Argv) (i : Nat), i + new_args.length ≤ a.length →
      fill_new_args env n a i new_args
          = (0, n + new_args.length,
              a.take i ++ new_args.map some ++ a.drop (i + new_args.length))
        ∨ ∃ n1 a1, fill_new_args env n a i new_args = (-ENOMEM, n1, a1) := by
  induction new_args with
  | nil => intro n a i _; left; simp [fill_new_args]
  | cons s rest ih =>
    intro n a i h
    simp only [List.length_cons] at h
    by_cases ha : env.alloc_ok n = true
    · have hlen : i + 1 + rest.length ≤ (a.set i (some s)).length := by
        simp only [List.length_set]; omega
      have hi : i < a.length := by omega
      rcases ih (n + 1) (a.set i (some s)) (i + 1) hlen with h1 | ⟨n1, a1, h1⟩
      · left
        simp only [fill_new_args, ha, if_true, h1, List.length_cons, List.map_cons,
          take_succ_set a i _ hi, drop_succ_set]
        have e1 : n + 1 + rest.length = n + (rest.length + 1) := by omega
        have e2 : i + 1 + rest.length = i + (rest.length + 1) := by omega
        rw [e1, e2]
        simp
      · right
        exact ⟨n1, a1, by simp only [fill_new_args, ha, if_true, h1]⟩
    · right
      exact ⟨n + 1, a.set i none, by simp only [fill_new_args, ha]; rfl⟩

theorem substitute_argv0_moved (env : Env) (n : Nat) (a0 : Str) (as new_args : List Str)
    (extra : Argv) (hk : 1 ≤ new_args.length) (halloc : env.alloc_ok n = true) :
    ∃ moved : Argv, moved.length = new_args.length + (as.length + 1)
      ∧ moved.drop new_args.length = as.map some ++ [none]
      ∧ substitute_argv0 env n (some a0 :: (as.map some ++ none :: extra)) new_args
          = (match fill_new_args env (n + 1) moved 0 new_args with
            | (status, n1, a) => .ret status (n1, a)) := by
  show ∃ moved : Argv, _ ∧ _ ∧
    substitute_argv0 env n ((a0 :: as).map some ++ none :: extra) new_args = _
  obtain ⟨rest, hrest, hlen⟩ : ∃ rest : Argv,
      realloc ((a0 :: as).map some ++ none :: extra) (new_args.length + (a0 :: as).length) env.junk
        = some a0 :: (as.map some ++ none :: rest) ∧ rest.length = new_args.length - 1 := by
    refine ⟨List.take (new_args.length - 1) extra ++
      List.replicate (new_args.length + (as.length + 1) - (as.length + 1 + 1 + extra.length)) env.junk, ?_, ?_⟩
    · simp only [realloc, List.map_cons, List.cons_append, List.length_cons, List.length_append,
        List.length_map]
      have e : new_args.length + (as.length + 1) = (as.length + 1 + 1) + (new_args.length - 1) := by omega
      rw [show new_args.length + (as.length + 1) - (as.length + (extra.length + 1) + 1)
          = new_args.length + (as.length + 1) - (as.length + 1 + 1 + extra.length) by omega]
      conv_lhs => rw [e]
      have : some a0 :: (List.map some as ++ none :: extra)
          = (some a0 :: (List.map some as ++ [none])) ++ extra := by simp
      rw [this]
      have hl : (some a0 :: (List.map some as ++ [none])).length = as.length + 1 + 1 := by simp
      rw [← hl, List.take_append]
      simp
      omega
    · simp only [List.length_append, List.length_take, List.length_replicate]
      omega
  have hmove : memmove (none :: (as.map some ++ none :: rest)) new_args.length 1 (a0 :: as).length
      = some ((none :: (as.map some ++ none :: rest)).take new_args.length
          ++ (as.map some ++ [none])) := by
    have hdrop : List.drop (new_args.length + (as.length + 1))
        (none :: (List.map some as ++ none :: rest)) = [] := by
      apply List.drop_eq_nil_of_le; simp; omega
    have htake : List.take (as.length + 1) (List.map some as ++ none :: rest)
        = List.map some as ++ [none] := by
      have : List.map some as ++ none :: rest = (List.map some as ++ [none]) ++ rest := by simp
      rw [this, List.take_append_of_le_length (by simp)]
      apply List.take_of_length_le; simp
    simp only [memmove, List.length_cons, List.length_append, List.length_map, List.drop_succ_cons,
      List.drop_zero, hdrop, htake, List.append_nil]
    rw [if_pos]
    constructor <;> omega
  have htl : ((none :: (as.map some ++ none :: rest)).take new_args.length).length
      = new_args.length := by
    simp; omega
  refine ⟨(none :: (as.map some ++ none :: rest)).take new_args.length
    ++ (as.map some ++ [none]), ?_, ?_, ?_⟩
  · simp only [List.length_append, htl, List.length_map, List.length_singleton]
  · rw [List.drop_append_of_le_length (by omega), List.drop_of_length_le (by omega)]
    simp
  · unfold substitute_argv0
    simp only [argv_count_terminated, halloc, if_true, hrest, hmove]

theorem substitute_argv0_cases (env : Env) (n : Nat) (a0 : Str) (as new_args : List Str)
    (extra : Argv) (hk : 1 ≤ new_args.length) :
    substitute_argv0 env n (some a0 :: (as.map some ++ none :: extra)) new_args
        = .ret 0 (n + 1 + new_args.length, argv_of (new_args ++ as))
      ∨ ∃ st, substitute_argv0 env n (some a0 :: (as.map some ++ none :: extra)) new_args
        = .ret (-ENOMEM) st := by
  by_cases ha : env.alloc_ok n = true
  · obtain ⟨moved, hlen, hdrop, hsub⟩ :=
      substitute_argv0_moved env n a0 as new_args extra hk ha
    rcases fill_new_args_cases env new_args (n + 1) moved 0 (by omega) with h | ⟨n1, a1, h⟩
    · left
      rw [hsub, h]
      simp only [List.take_zero, List.nil_append, Nat.zero_add, hdrop, argv_of, List.map_append,
        List.append_assoc]
    · right
      exact ⟨(n1, a1), by rw [hsub, h]⟩
  · right
    refine ⟨(n + 1, some a0 :: (as.map some ++ none :: extra)), ?_⟩
    show substitute_argv0 env n ((a0 :: as).map some ++ none :: extra) new_args = _
    unfold substitute_argv0
    simp only [argv_count_terminated, ha]
    rfl

theorem substitute_argv0_splice_aux (env : Env) (n : Nat) (a0 : Str) (as new_args : List Str)
    (extra : Argv) (hk : 1 ≤ new_args.length) (halloc : ∀ m, env.alloc_ok m = true) :
    substitute_argv0 env n (some a0 :: (as.map some ++ none :: extra)) new_args
      = .ret 0 (n + 1 + new_args.length, argv_of (new_args ++ as)) := by
  obtain ⟨moved, hlen, hdrop, hsub⟩ :=
    substitute_argv0_moved env n a0 as new_args extra hk (halloc n)
  rw [hsub, fill_new_args_ok env halloc new_args (n + 1) moved 0 (by omega)]
  simp only [List.take_zero, List.nil_append, Nat.zero_add, hdrop, argv_of, List.map_append,
    List.append_assoc]

theorem skip_leading_blanks (fail : Option Nat) (w0 : List Nat) (c : Nat) (rest : List Nat)
    (hw0 : ∀ b ∈ w0, blank b) (hc : ¬ blank c) :
    skip_leading fail (w0 ++ c :: rest) = .inr (c, rest) := by
  induction w0 with
  | nil => simp only [List.nil_append, skip_leading]; rw [if_neg hc]
  | cons b w ih =>
    have hb : blank b := hw0 b (List.mem_cons_self _ _)
    simp only [List.cons_append, skip_leading]
    rw [if_pos hb]
    exact ih (fun x hx => hw0 x (List.mem_cons_of_mem _ hx))

theorem slurp_interpreter_plain (fail : Option Nat) (l : List Nat) :
    ∀ (i : Nat) (buf : List Nat) (p x : Nat) (rest : List Nat),
      (∀ b ∈ p :: l, ¬ blank b ∧ ¬ eol b ∧ b ≠ 0) → i + l.length < PATH_MAX →
      buf.length = i → (1 < i → buf.getD (i - 1) 1 ≠ 0) →
      slurp_interpreter fail i buf p (l ++ x :: rest)
        = slurp_interpreter fail (i + 1 + l.length) (buf ++ p :: l) x rest := by
  induction l with
  | nil =>
    intro i buf p x rest h hlen hbuf hprev
    have hp := h p (List.mem_cons_self _ _)
    have hi : i < PATH_MAX := by simpa using hlen
    have hcond : ¬ (1 < i ∧ buf.getD (i - 1) 1 = 0) := fun hh => hprev hh.1 hh.2
    rw [List.nil_append, slurp_interpreter, if_pos hi]
    simp only [blank, eol] at hp
    rw [if_neg hp.1, if_neg hp.2.1, if_neg hcond]
    simp
  | cons q l ih =>
    intro i buf p x rest h hlen hbuf hprev
    have hp := h p (List.mem_cons_self _ _)
    have hi : i < PATH_MAX := by simp at hlen; omega
    have hcond : ¬ (1 < i ∧ buf.getD (i - 1) 1 = 0) := fun hh => hprev hh.1 hh.2
    rw [List.cons_append, slurp_interpreter, if_pos hi]
    simp only [blank, eol] at hp
    rw [if_neg hp.1, if_neg hp.2.1, if_neg hcond]
    rw [ih (i + 1) (buf ++ [p]) q x rest (fun b hb => h b (List.mem_cons_of_mem _ hb))
      (by simp at hlen; omega) (by simp [hbuf])
      (by intro _; simp only [Nat.add_sub_cancel]; rw [← hbuf]; simp [List.getD_append_right]; exact hp.2.2)]
    have e : i + 1 + 1 + l.length = i + 1 + (q :: l).length := by
      simp only [List.length_cons]; omega
    rw [e, List.append_assoc, List.singleton_append]

theorem slurp_interpreter_blanks (fail : Option Nat) (l : List Nat) :
    ∀ (i : Nat) (buf : List Nat) (w x : Nat) (rest : List Nat),
      (∀ b ∈ w :: l, blank b) → i + l.length < PATH_MAX →
      slurp_interpreter fail i buf w (l ++ x :: rest)
        = slurp_interpreter fail (i + 1 + l.length)
            (buf ++ List.replicate (1 + l.length) 0) x rest := by
  induction l with
  | nil =>
    intro i buf w x rest h hlen
    have hw : blank w := h w (List.mem_cons_self _ _)
    have hi : i < PATH_MAX := by simpa using hlen
    rw [List.nil_append, slurp_interpreter, if_pos hi, if_pos hw]
    simp
  | cons q l ih =>
    intro i buf w x rest h hlen
    have hw : blank w := h w (List.mem_cons_self _ _)
    have hi : i < PATH_MAX := by simp at hlen; omega
    rw [List.cons_append, slurp_interpreter, if_pos hi, if_pos hw]
    rw [ih (i + 1) (buf ++ [0]) q x rest (fun b hb => h b (List.mem_cons_of_mem _ hb))
      (by simp at hlen; omega)]
    have e : i + 1 + 1 + l.length = i + 1 + (q :: l).length := by
      simp only [List.length_cons]; omega
    have e2 : 1 + (q :: l).length = (1 + l.length) + 1 := by
      simp only [List.length_cons]; omega
    rw [e, e2, List.append_assoc, List.replicate_succ, List.singleton_append]

theorem slurp_argument_chars (interp : List Nat) (l : List Nat) :
    ∀ (i : Nat) (arg : List Nat) (c x : Nat) (rest : List Nat),
      (∀ b ∈ c :: l, ¬ eol b) → i + l.length < ARG_MAX →
      slurp_argument interp i arg c (l ++ x :: rest)
        = slurp_argument interp (i + 1 + l.length) (arg ++ c :: l) x rest := by
  induction l with
  | nil =>
    intro i arg c x rest h hlen
    have hc : ¬ eol c := h c (List.mem_cons_self _ _)
    have hi : i < ARG_MAX := by simpa using hlen
    rw [List.nil_append, slurp_argument, if_pos hi, if_neg hc]
    simp
  | cons q l ih =>
    intro i arg c x rest h hlen
    have hc : ¬ eol c := h c (List.mem_cons_self _ _)
    have hi : i < ARG_MAX := by simp at hlen; omega
    rw [List.cons_append, slurp_argument, if_pos hi, if_neg hc]
    rw [ih (i + 1) (arg ++ [c]) q x rest (fun b hb => h b (List.mem_cons_of_mem _ hb))
      (by simp at hlen; omega)]
    have e : i + 1 + 1 + l.length = i + 1 + (q :: l).length := by
      simp only [List.length_cons]; omega
    rw [e, List.append_assoc, List.singleton_append]

theorem cstr_append_zeros (s : List Nat) (k : Nat) (tl : List Nat) (hs : ∀ b ∈ s, b ≠ 0) :
    cstr (s ++ List.replicate (k + 1) 0 ++ tl) = s := by
  induction s with
  | nil => simp [cstr, List.replicate_succ]
  | cons b s ih =>
    have hb : b ≠ 0 := hs b (List.mem_cons_self _ _)
    simp only [cstr, List.cons_append, List.takeWhile_cons, ne_eq, hb, not_false_eq_true,
      decide_True, if_true, List.cons.injEq, true_and]
    exact ih (fun x hx => hs x (List.mem_cons_of_mem _ hx))

theorem getD_append_cons_length (l : List Nat) (z : Nat) (tl : List Nat) (d : Nat) :
    (l ++ z :: tl).getD l.length d = z := by
  induction l with
  | nil => rfl
  | cons a l ih => simpa using ih

theorem set_append_cons_length (l : List Nat) (z y : Nat) (tl : List Nat) :
    (l ++ z :: tl).set l.length y = l ++ y :: tl := by
  induction l with
  | nil => rfl
  | cons a l ih => simp [ih]

theorem strip_trailing_blanks (s : List Nat) (z : Nat) (hz : ¬ blank z) (w : List Nat) :
    ∀ tl : List Nat, (∀ b ∈ w, blank b) →
      strip_trailing (s ++ z :: (w ++ tl)) (s.length + w.length)
        = s ++ z :: (List.replicate w.length 0 ++ tl) := by
  induction w using List.reverseRecOn with
  | nil =>
    intro tl _
    simp only [List.nil_append, List.length_nil, Nat.add_zero, List.replicate_zero]
    cases hs : s.length with
    | zero => rfl
    | succ j =>
      rw [strip_trailing, ← hs, getD_append_cons_length, if_neg hz]
  | append_singleton w b ih =>
    intro tl hw
    have hb : blank b := hw b (by simp)
    have e : s.length + (w ++ [b]).length = (s ++ z :: w).length := by simp
    have e2 : s ++ z :: (w ++ [b] ++ tl) = (s ++ z :: w) ++ b :: tl := by simp
    rw [e, e2]
    cases hl : (s ++ z :: w).length with
    | zero => simp at hl
    | succ j =>
      rw [strip_trailing, ← hl, getD_append_cons_length, if_pos hb, set_append_cons_length]
      have hj : j = s.length + w.length := by simp at hl; omega
      have e3 : (s ++ z :: w) ++ 0 :: tl = s ++ z :: (w ++ 0 :: tl) := by simp
      rw [hj, e3, ih (0 :: tl) (fun x hx => hw x (by simp [hx]))]
      simp [List.replicate_succ']

theorem cstr_stripped (A w2 : List Nat) (hne : A ≠ [])
    (hA : ∀ b ∈ A, b ≠ 0) (hlast : ∀ b, A.getLast? = some b → ¬ blank b)
    (hw : ∀ b ∈ w2, blank b) :
    cstr (strip_trailing (A ++ w2 ++ [0]) (A.length + w2.length - 1)) = A := by
  obtain ⟨s, z, rfl⟩ : ∃ s z, A = s ++ [z] := by
    rcases List.eq_nil_or_concat A with h | ⟨s, z, h⟩
    · exact absurd h hne
    · exact ⟨s, z, by simpa using h⟩
  have hz : ¬ blank z := hlast z (by simp)
  have e : (s ++ [z]).length + w2.length - 1 = s.length + w2.length := by simp
  have e2 : s ++ [z] ++ w2 ++ [0] = s ++ z :: (w2 ++ [0]) := by simp
  rw [e, e2, strip_trailing_blanks s z hz w2 [0] hw]
  have e3 : s ++ z :: (List.replicate w2.length 0 ++ [0])
      = (s ++ [z]) ++ List.replicate (w2.length + 1) 0 ++ [] := by
    simp [List.replicate_succ']
  rw [e3]
  exact cstr_append_zeros (s ++ [z]) w2.length [] hA

theorem slurp_interpreter_goto (fail : Option Nat) (i : Nat) (buf : List Nat) (tmp : Nat)
    (rest : List Nat) (hi : i < PATH_MAX) (hb : ¬ blank tmp) (he : ¬ eol tmp)
    (hprev : 1 < i ∧ buf.getD (i - 1) 1 = 0) :
    slurp_interpreter fail i buf tmp rest = slurp_argument buf 0 [] tmp rest := by
  cases rest <;> rw [slurp_interpreter, if_pos hi, if_neg hb, if_neg he, if_pos hprev]

theorem slurp_interpreter_eol (fail : Option Nat) (i : Nat) (buf : List Nat) (tmp : Nat)
    (rest : List Nat) (hi : i < PATH_MAX) (he : eol tmp) :
    slurp_interpreter fail i buf tmp rest = ⟨1, buf ++ [0], []⟩ := by
  have hb : ¬ blank tmp := by
    intro h; simp only [blank, eol, SPACE, TAB, LF, CR] at h he; omega
  cases rest <;> rw [slurp_interpreter, if_pos hi, if_neg hb, if_pos he]

theorem slurp_argument_eol (interp : List Nat) (i : Nat) (arg : List Nat) (tmp : Nat)
    (rest : List Nat) (hi : i < ARG_MAX) (he : eol tmp) :
    slurp_argument interp i arg tmp rest
      = ⟨2, interp, strip_trailing (arg ++ [0]) (i - 1)⟩ := by
  cases rest <;> rw [slurp_argument, if_pos hi, if_pos he]

theorem read_shebang_argument (fd : OpenFile) (w0 P w1 A w2 : List Nat) (e : Nat) (rest : List Nat)
    (hdata : fd.data = [35, 33] ++ w0 ++ P ++ w1 ++ A ++ w2 ++ [e] ++ rest)
    (hw0 : ∀ b ∈ w0, blank b) (hw1 : ∀ b ∈ w1, blank b) (hw2 : ∀ b ∈ w2, blank b)
    (hw1ne : w1 ≠ []) (hPne : P ≠ []) (hP : ∀ b ∈ P, ¬ blank b ∧ ¬ eol b ∧ b ≠ 0)
    (hAne : A ≠ []) (hA : ∀ b ∈ A, ¬ eol b ∧ b ≠ 0)
    (hAhead : ∀ b, A.head? = some b → ¬ blank b)
    (he : eol e) (hplen : P.length + w1.length < PATH_MAX)
    (halen : A.length + w2.length < ARG_MAX) :
    read_shebang fd = ⟨2, P ++ List.replicate w1.length 0,
      strip_trailing (A ++ w2 ++ [0]) (A.length + w2.length - 1)⟩ := by
  obtain ⟨p, P1, rfl⟩ := List.exists_cons_of_ne_nil hPne
  obtain ⟨b, w, rfl⟩ := List.exists_cons_of_ne_nil hw1ne
  obtain ⟨a, A1, rfl⟩ := List.exists_cons_of_ne_nil hAne
  have hp := hP p (List.mem_cons_self _ _)
  have ha := hA a (List.mem_cons_self _ _)
  have hab : ¬ blank a := hAhead a rfl
  simp only [List.length_cons] at hplen halen
  have hd : fd.data = 35 :: 33 :: (w0 ++ p :: (P1 ++ b :: (w ++ a :: ((A1 ++ w2) ++ e :: rest)))) := by
    rw [hdata]; simp
  unfold read_shebang
  rw [hd]
  simp only [ne_eq, not_true_eq_false, or_self, if_false]
  rw [skip_leading_blanks fd.fail w0 p _ hw0 hp.1]
  simp only
  rw [slurp_interpreter_plain fd.fail P1 0 [] p b _ hP (by omega) rfl (by omega)]
  rw [slurp_interpreter_blanks fd.fail w (0 + 1 + P1.length) _ b a _ hw1 (by omega)]
  have hi : 0 + 1 + P1.length + 1 + w.length < PATH_MAX := by omega
  have hprev : 1 < 0 + 1 + P1.length + 1 + w.length ∧
      ([] ++ p :: P1 ++ List.replicate (1 + w.length) 0).getD
        (0 + 1 + P1.length + 1 + w.length - 1) 1 = 0 := by
    refine ⟨by omega, ?_⟩
    have e1 : [] ++ p :: P1 ++ List.replicate (1 + w.length) 0
        = (p :: P1 ++ List.replicate w.length 0) ++ 0 :: [] := by
      simp [Nat.add_comm 1, List.replicate_succ']
    have e2 : 0 + 1 + P1.length + 1 + w.length - 1
        = (p :: P1 ++ List.replicate w.length 0).length := by
      simp; omega
    rw [e1, e2, getD_append_cons_length]
  rw [slurp_interpreter_goto _ _ _ _ _ hi hab ha.1 hprev]
  rw [slurp_argument_chars _ (A1 ++ w2) 0 [] a e rest
    (by
      intro x hx
      rcases List.mem_cons.1 hx with h | h
      · rw [h]; exact ha.1
      · rcases List.mem_append.1 h with h | h
        · exact (hA x (List.mem_cons_of_mem _ h)).1
        · intro hx2
          have := hw2 x h
          simp only [blank, eol, SPACE, TAB, LF, CR] at this hx2
          omega)
    (by simp; omega)]
  have hi2 : 0 + 1 + (A1 ++ w2).length < ARG_MAX := by simp; omega
  rw [slurp_argument_eol _ _ _ _ _ hi2 he]
  have e3 : 0 + 1 + (A1 ++ w2).length - 1 = A1.length + 1 + w2.length - 1 := by simp
  rw [e3]
  simp [Nat.add_comm 1, List.replicate_succ']

theorem expand_shebang_not_script (env : Env) (n : Nat) (filename : Str) (argv : Argv)
    (st : Int) (host : Str) (fd : OpenFile) (sb : Shebang)
    (htr : env.translate_path filename = (st, host)) (hst : 0 ≤ st)
    (hopen : env.open_file host = .ok fd) (hsb : read_shebang fd = sb) (hs : sb.status ≤ 0) :
    expand_shebang env n filename argv = .ret sb.status (n, filename, argv) := by
  unfold expand_shebang
  rw [htr]
  simp only [not_lt.2 hst, if_false, hopen, hsb]
  rw [if_pos hs]

theorem expand_shebang_one (env : Env) (n : Nat) (filename : Str) (a0 : Str) (as : List Str)
    (extra : Argv) (st : Int) (host : Str) (fd : OpenFile) (interp arg : List Nat)
    (htr : env.translate_path filename = (st, host)) (hst : 0 ≤ st)
    (hopen : env.open_file host = .ok fd) (hsb : read_shebang fd = ⟨1, interp, arg⟩)
    (halloc : ∀ m, env.alloc_ok m = true) :
    expand_shebang env n filename (some a0 :: (as.map some ++ none :: extra))
      = .ret 1 (n + 3, cstr interp, argv_of (cstr interp :: filename :: as)) := by
  unfold expand_shebang
  rw [htr]
  simp only [not_lt.2 hst, if_false, hopen, hsb]
  rw [if_neg (by decide)]
  simp only [if_true, List.map_cons, List.cons_append,
    substitute_argv0_splice_aux env n a0 as [cstr interp, filename] extra (by simp) halloc]
  simp

theorem expand_shebang_two (env : Env) (n : Nat) (filename : Str) (a0 : Str) (as : List Str)
    (extra : Argv) (st : Int) (host : Str) (fd : OpenFile) (interp arg : List Nat)
    (htr : env.translate_path filename = (st, host)) (hst : 0 ≤ st)
    (hopen : env.open_file host = .ok fd) (hsb : read_shebang fd = ⟨2, interp, arg⟩)
    (halloc : ∀ m, env.alloc_ok m = true) :
    expand_shebang env n filename (some a0 :: (as.map some ++ none :: extra))
      = .ret 1 (n + 4, cstr interp, argv_of (cstr interp :: cstr arg :: filename :: as)) := by
  unfold expand_shebang
  rw [htr]
  simp only [not_lt.2 hst, if_false, hopen, hsb]
  rw [if_neg (by decide), if_neg (by decide)]
  simp only [if_true, List.map_cons, List.cons_append,
    substitute_argv0_splice_aux env n a0 as [cstr interp, cstr arg, filename] extra (by simp)
      halloc]
  simp

/-- C1: a script whose first line is `#!`, blanks, an interpreter path `P`, at
least one blank, an argument `A` (which may hold blanks inside), blanks and an
end of line makes `expand_shebang` return 1, turn a non-empty `argv` into
`[P, A, old guest path]` followed by the old entries from index 1 on, and
overwrite the guest path with the bytes of `P`.  The translation of the guest
path, the opening of the file and the allocations succeed. -/
theorem expand_shebang_with_argument (env : Env) (n : Nat) (filename a0 : Str) (as : List Str)
    (extra : Argv) (st : Int) (host : Str) (fd : OpenFile) (w0 P w1 A w2 : List Nat) (e : Nat)
    (rest : List Nat)
    (htr : env.translate_path filename = (st, host)) (hst : 0 ≤ st)
    (hopen : env.open_file host = .ok fd)
    (halloc : ∀ m, env.alloc_ok m = true)
    (hdata : fd.data = [35, 33] ++ w0 ++ P ++ w1 ++ A ++ w2 ++ [e] ++ rest)
    (hw0 : ∀ b ∈ w0, b = SPACE ∨ b = TAB) (hw1 : ∀ b ∈ w1, b = SPACE ∨ b = TAB)
    (hw2 : ∀ b ∈ w2, b = SPACE ∨ b = TAB) (hw1ne : w1 ≠ []) (hPne : P ≠ [])
    (hP : ∀ b ∈ P, b ≠ SPACE ∧ b ≠ TAB ∧ b ≠ LF ∧ b ≠ CR ∧ b ≠ 0)
    (hAne : A ≠ []) (hA : ∀ b ∈ A, b ≠ LF ∧ b ≠ CR ∧ b ≠ 0)
    (hAhead : ∀ b, A.head? = some b → b ≠ SPACE ∧ b ≠ TAB)
    (hAlast : ∀ b, A.getLast? = some b → b ≠ SPACE ∧ b ≠ TAB)
    (he : e = LF ∨ e = CR) (hplen : P.length + w1.length < PATH_MAX)
    (halen : A.length + w2.length < ARG_MAX) :
    expand_shebang env n filename (some a0 :: (as.map some ++ none :: extra))
      = .ret 1 (n + 4, P, argv_of (P :: A :: filename :: as)) := by
  have hsb := read_shebang_argument fd w0 P w1 A w2 e rest hdata hw0 hw1 hw2 hw1ne hPne
    (fun b hb => ⟨fun h => h.elim (hP b hb).1 (hP b hb).2.1,
      fun h => h.elim (hP b hb).2.2.1 (hP b hb).2.2.2.1, (hP b hb).2.2.2.2⟩)
    hAne (fun b hb => ⟨fun h => h.elim (hA b hb).1 (hA b hb).2.1, (hA b hb).2.2⟩)
    (fun b hb h => h.elim (hAhead b hb).1 (hAhead b hb).2) he hplen halen
  have h := expand_shebang_two env n filename a0 as extra st host fd _ _ htr hst hopen hsb halloc
  have hcP : cstr (P ++ List.replicate w1.length 0) = P := by
    obtain ⟨b, w, rfl⟩ := List.exists_cons_of_ne_nil hw1ne
    have := cstr_append_zeros P w.length [] (fun x hx => (hP x hx).2.2.2.2)
    simpa using this
  have hcA : cstr (strip_trailing (A ++ w2 ++ [0]) (A.length + w2.length - 1)) = A :=
    cstr_stripped A w2 hAne (fun b hb => (hA b hb).2.2)
      (fun b hb h => h.elim (hAlast b hb).1 (hAlast b hb).2) hw2
  rw [hcP, hcA] at h
  exact h

theorem expand_shebang_with_argument_witness :
    expand_shebang
        (demo_env [] [(bytes "/tmp/new_root/bin/foo", bytes "#!  /usr/bin/env   python3  \n")])
        0 (bytes "/bin/foo") (some (bytes "foo") :: ([].map some ++ none :: []))
      = .ret 1 (0 + 4, bytes "/usr/bin/env",
          argv_of (bytes "/usr/bin/env" :: bytes "python3" :: bytes "/bin/foo" :: [])) :=
  expand_shebang_with_argument
    (demo_env [] [(bytes "/tmp/new_root/bin/foo", bytes "#!  /usr/bin/env   python3  \n")])
    0 (bytes "/bin/foo") (bytes "foo") [] [] 0 (bytes "/tmp/new_root/bin/foo")
    ⟨bytes "#!  /usr/bin/env   python3  \n", none⟩
    (bytes "  ") (bytes "/usr/bin/env") (bytes "   ") (bytes "python3") (bytes "  ") 10 []
    rfl (by decide) (by rfl) (fun _ => rfl) (by decide) (by decide) (by decide) (by decide)
    (by decide) (by decide) (by decide) (by decide) (by decide) (by decide) (by decide)
    (by decide) (by decide) (by decide)

/-! ## Tracee memory -/

theorem word_mod_pos (W : Nat) : 0 < word_mod W := by
  unfold word_mod; positivity

theorem wsub_eq (W a b : Nat) (hb : b ≤ a) (ha : a < word_mod W) : wsub W a b = a - b := by
  unfold wsub
  have hbm : b % word_mod W = b := Nat.mod_eq_of_lt (by omega)
  rw [hbm]
  have e : a + word_mod W - b = (a - b) + word_mod W := by omega
  rw [e, Nat.add_mod_right]
  exact Nat.mod_eq_of_lt (by omega)

theorem wadd_eq (W a b : Nat) (h : a + b < word_mod W) : wadd W a b = a + b := by
  unfold wadd; exact Nat.mod_eq_of_lt h

theorem store_bytes_below (m : Nat → Nat) (a : Nat) (X Y : List Nat) :
    store_bytes (store_bytes m (a + X.length) Y) a X = store_bytes m a (X ++ Y) := by
  funext x
  unfold store_bytes
  by_cases h1 : a ≤ x
  · rw [if_pos h1, if_pos h1]
    by_cases h2 : x - a < X.length
    · rw [List.getD_eq_getElem _ _ h2, List.getD_append _ _ _ _ h2, List.getD_eq_getElem _ _ h2]
    · have h3 : X.length ≤ x - a := by omega
      rw [List.getD_eq_default _ _ h3, List.getD_append_right _ _ _ _ h3,
        if_pos (by omega)]
      congr 1
      omega
  · rw [if_neg h1, if_neg h1, if_neg (by omega)]

theorem store_bytes_above (m : Nat → Nat) (a : Nat) (X Y : List Nat) :
    store_bytes (store_bytes m a X) (a + X.length) Y = store_bytes m a (X ++ Y) := by
  funext x
  unfold store_bytes
  by_cases h1 : a ≤ x
  · by_cases h2 : x - a < X.length
    · rw [if_neg (by omega), if_pos h1, if_pos h1, List.getD_append _ _ _ _ h2]
    · have h3 : X.length ≤ x - a := by omega
      rw [if_pos (by omega), if_pos h1, if_pos h1, List.getD_eq_default _ _ h3,
        List.getD_append_right _ _ _ _ h3]
      congr 1
      omega
  · rw [if_neg (by omega), if_neg h1, if_neg h1]

theorem store_bytes_inside (m : Nat → Nat) (a : Nat) (I : List Nat) (j : Nat) (hj : j < I.length) :
    store_bytes m a I (a + j) = I.getD j 0 := by
  unfold store_bytes
  rw [if_pos (by omega), Nat.add_sub_cancel_left, List.getD_eq_getElem _ _ hj,
    List.getD_eq_getElem _ _ hj]

theorem store_bytes_outside (m : Nat → Nat) (a : Nat) (I : List Nat) (x : Nat)
    (hx : x < a ∨ a + I.length ≤ x) : store_bytes m a I x = m x := by
  unfold store_bytes
  by_cases h1 : a ≤ x
  · rw [if_pos h1, List.getD_eq_default _ _ (by omega)]
  · rw [if_neg h1]

theorem range_mapped_iff (t : Tracee) (a len : Nat) :
    range_mapped t a len = true ↔ ∀ x, a ≤ x → x < a + len → t.mapped x = true := by
  unfold range_mapped
  rw [List.all_eq_true]
  constructor
  · intro h x h1 h2
    have := h (x - a) (List.mem_range.2 (by omega))
    rwa [Nat.add_sub_cancel' h1] at this
  · intro h k hk
    exact h (a + k) (by omega) (by have := List.mem_range.1 hk; omega)

theorem word_bytes_length (v W : Nat) : (word_bytes v W).length = W := by
  induction W generalizing v with
  | zero => rfl
  | succ k ih => simp [word_bytes, ih]

theorem load_word_bytes (mem : Nat → Nat) (W : Nat) :
    ∀ (a v : Nat), (∀ k, k < W → mem (a + k) = (word_bytes v W).getD k 0) →
      load_word mem a W = v % 256 ^ W := by
  induction W with
  | zero => intro a v _; simp [load_word, Nat.mod_one]
  | succ W ih =>
    intro a v h
    have h0 : mem a = v % 256 := by simpa [word_bytes] using h 0 (by omega)
    have hrec : load_word mem (a + 1) W = (v / 256) % 256 ^ W := by
      apply ih
      intro k hk
      have := h (k + 1) (by omega)
      simpa [word_bytes, Nat.add_assoc, Nat.add_comm 1] using this
    rw [load_word, h0, hrec, Nat.mod_mod, pow_succ, Nat.mul_comm (256 ^ W) 256,
      Nat.mod_mul]

theorem store_bytes_nil (m : Nat → Nat) (a : Nat) : store_bytes m a [] = m := by
  funext x; simp [store_bytes]

theorem range_mapped_succ (t : Tracee) (a len : Nat) :
    range_mapped t a (len + 1) = (t.mapped a && range_mapped t (a + 1) len) := by
  rw [Bool.eq_iff_iff, Bool.and_eq_true, range_mapped_iff, range_mapped_iff]
  constructor
  · intro h
    exact ⟨h a (by omega) (by omega), fun x h1 h2 => h x (by omega) (by omega)⟩
  · rintro ⟨h0, h⟩ x h1 h2
    by_cases hx : x = a
    · rw [hx]; exact h0
    · exact h x (by omega) (by omega)

theorem copy_to_child_ok (bs : List Nat) : ∀ (t : Tracee) (a : Nat),
    range_mapped t a bs.length = true →
    copy_to_child t a bs = (0,
      { t with mem := store_bytes t.mem a bs,
               written := ((List.range bs.length).map (a + ·)).reverse ++ t.written }) := by
  induction bs with
  | nil => intro t a _; simp [copy_to_child, store_bytes_nil]
  | cons b bs ih =>
    intro t a h
    rw [List.length_cons, range_mapped_succ, Bool.and_eq_true] at h
    rw [copy_to_child, if_pos h.1, ih _ _ (by exact h.2)]
    have e1 : store_bytes (store_bytes t.mem a [b]) (a + 1) bs = store_bytes t.mem a (b :: bs) := by
      have := store_bytes_above t.mem a [b] bs
      simpa using this
    have e2 : (List.map (fun x => a + 1 + x) (List.range bs.length)).reverse ++ a :: t.written
        = (List.map (fun x => a + x) (List.range (bs.length + 1))).reverse ++ t.written := by
      rw [List.range_succ_eq_map]
      simp [Function.comp_def, Nat.add_assoc, Nat.add_comm 1]
    simp only [e1, List.length_cons]
    rw [e2]

theorem copy_to_child_status (bs : List Nat) : ∀ (t : Tracee) (a : Nat),
    (copy_to_child t a bs).1 < 0 ∨ range_mapped t a bs.length = true := by
  induction bs with
  | nil => intro t a; right; simp [range_mapped]
  | cons b bs ih =>
    intro t a
    by_cases h : t.mapped a = true
    · rw [copy_to_child, if_pos h, List.length_cons, range_mapped_succ, h]
      rcases ih { t with mem := store_bytes t.mem a [b], written := a :: t.written } (a + 1)
        with h1 | h1
      · left; exact h1
      · right; simpa [range_mapped] using h1
    · left
      rw [copy_to_child, if_neg h]
      show (-EFAULT : Int) < 0
      decide

/-! ## `set_argv` in closed form -/

theorem strings_size_cons (s : Str) (l : List Str) :
    strings_size (s :: l) = s.length + 1 + strings_size l := by
  simp [strings_size]

theorem strings_image_length (l : List Str) : (strings_image l).length = strings_size l := by
  induction l with
  | nil => rfl
  | cons s l ih => simp [strings_image, strings_size_cons, ih]; omega

theorem push_strings_ok (env : Env) (l : List Str) : ∀ (t : Tracee) (argp : Nat) (ca : List Nat),
    argp < word_mod env.W → strings_size l ≤ argp →
    (∀ x, argp - strings_size l ≤ x → x < argp → t.mapped x = true) →
    ∃ wr : List Nat,
      push_strings env l t argp ca
        = (0, { t with mem := store_bytes t.mem (argp - strings_size l) (strings_image l),
                       written := wr ++ t.written },
            argp - strings_size l, ca ++ string_addrs argp l)
      ∧ ∀ x ∈ wr, argp - strings_size l ≤ x ∧ x < argp := by
  induction l with
  | nil =>
    intro t argp ca _ _ _
    exact ⟨[], by simp [push_strings, strings_size, strings_image, string_addrs, store_bytes_nil],
      by simp⟩
  | cons s rest ih =>
    intro t argp ca hM hsz hmap
    rw [strings_size_cons] at hsz hmap
    have hw : wsub env.W argp (s.length + 1) = argp - (s.length + 1) :=
      wsub_eq _ _ _ (by omega) hM
    have hrm : range_mapped t (argp - (s.length + 1)) (s ++ [0]).length = true := by
      rw [range_mapped_iff]
      intro x h1 h2
      simp only [List.length_append, List.length_singleton] at h2
      exact hmap x (by omega) (by omega)
    obtain ⟨wr, hpush, hwr⟩ := ih
      { t with mem := store_bytes t.mem (argp - (s.length + 1)) (s ++ [0]),
               written := ((List.range (s ++ [0]).length).map
                 ((argp - (s.length + 1)) + ·)).reverse ++ t.written }
      (argp - (s.length + 1)) (ca ++ [argp - (s.length + 1)]) (by omega) (by omega)
      (fun x h1 h2 => hmap x (by omega) (by omega))
    refine ⟨wr ++ ((List.range (s ++ [0]).length).map ((argp - (s.length + 1)) + ·)).reverse,
      ?_, ?_⟩
    · rw [push_strings, hw, copy_to_child_ok _ _ _ hrm]
      simp only [lt_self_iff_false, if_false]
      rw [hpush]
      have hmem : store_bytes (store_bytes t.mem (argp - (s.length + 1)) (s ++ [0]))
          (argp - (s.length + 1) - strings_size rest) (strings_image rest)
          = store_bytes t.mem (argp - (s.length + 1 + strings_size rest))
              (strings_image (s :: rest)) := by
        have := store_bytes_below t.mem (argp - (s.length + 1) - strings_size rest)
          (strings_image rest) (s ++ [0])
        rw [strings_image_length] at this
        rw [show argp - (s.length + 1) - strings_size rest + strings_size rest
          = argp - (s.length + 1) by omega] at this
        rw [this, strings_image, Nat.sub_sub]
      simp only [hmem, strings_size_cons, string_addrs, List.append_assoc, List.singleton_append]
      rw [show argp - (s.length + 1) - strings_size rest
        = argp - (s.length + 1 + strings_size rest) by omega]
    · intro x hx
      rcases List.mem_append.1 hx with h | h
      · have := hwr x h
        rw [strings_size_cons]; omega
      · simp only [List.mem_reverse, List.mem_map, List.mem_range, List.length_append,
          List.length_singleton] at h
        obtain ⟨k, hk, rfl⟩ := h
        rw [strings_size_cons]; omega

theorem table_bytes_length (W : Nat) (vs : List Nat) :
    (vs.flatMap (word_bytes · W)).length = vs.length * W := by
  induction vs with
  | nil => simp
  | cons v vs ih =>
    simp only [List.flatMap_cons, List.length_append, word_bytes_length, ih, List.length_cons]
    ring

theorem push_pointers_ok (env : Env) (vs : List Nat) : ∀ (t : Tracee) (cv : Nat),
    cv < word_mod env.W → vs.length * env.W ≤ cv →
    (∀ x, cv - vs.length * env.W ≤ x → x < cv → t.mapped x = true) →
    ∃ wr : List Nat,
      push_pointers env vs t cv
        = (0, { t with mem := store_bytes t.mem (cv - vs.length * env.W)
                         (vs.reverse.flatMap (word_bytes · env.W)),
                       written := wr ++ t.written },
            cv - vs.length * env.W)
      ∧ ∀ x ∈ wr, cv - vs.length * env.W ≤ x ∧ x < cv := by
  induction vs with
  | nil =>
    intro t cv _ _ _
    exact ⟨[], by simp [push_pointers, store_bytes_nil], by simp⟩
  | cons v rest ih =>
    intro t cv hM hsz hmap
    have hlen : (v :: rest).length * env.W = rest.length * env.W + env.W := by
      simp only [List.length_cons]; ring
    rw [hlen] at hsz hmap
    have hw : wsub env.W cv env.W = cv - env.W := wsub_eq _ _ _ (by omega) hM
    have hrm : range_mapped t (cv - env.W) env.W = true := by
      rw [range_mapped_iff]
      intro x h1 h2
      exact hmap x (by omega) (by omega)
    obtain ⟨wr, hpush, hwr⟩ := ih
      { t with mem := store_bytes t.mem (cv - env.W) (word_bytes v env.W),
               written := ((List.range env.W).map ((cv - env.W) + ·)).reverse ++ t.written }
      (cv - env.W) (by omega) (by omega) (fun x h1 h2 => hmap x (by omega) (by omega))
    refine ⟨wr ++ ((List.range env.W).map ((cv - env.W) + ·)).reverse, ?_, ?_⟩
    · rw [push_pointers, hw]
      simp only [poke_data, hrm, if_true]
      rw [hpush]
      have hmem : store_bytes (store_bytes t.mem (cv - env.W) (word_bytes v env.W))
          (cv - env.W - rest.length * env.W) (rest.reverse.flatMap (word_bytes · env.W))
          = store_bytes t.mem (cv - (rest.length * env.W + env.W))
              ((v :: rest).reverse.flatMap (word_bytes · env.W)) := by
        have := store_bytes_below t.mem (cv - env.W - rest.length * env.W)
          (rest.reverse.flatMap (word_bytes · env.W)) (word_bytes v env.W)
        rw [table_bytes_length, List.length_reverse] at this
        rw [show cv - env.W - rest.length * env.W + rest.length * env.W = cv - env.W by omega]
          at this
        rw [this, Nat.sub_sub, Nat.add_comm env.W]
        simp
      simp only [hmem, hlen, List.append_assoc]
      rw [show cv - env.W - rest.length * env.W = cv - (rest.length * env.W + env.W) by omega]
    · intro x hx
      rw [hlen]
      rcases List.mem_append.1 hx with h | h
      · have := hwr x h
        omega
      · simp only [List.mem_reverse, List.mem_map, List.mem_range] at h
        obtain ⟨k, hk, rfl⟩ := h
        omega

theorem string_addrs_length (argp : Nat) (l : List Str) :
    (string_addrs argp l).length = l.length := by
  induction l generalizing argp with
  | nil => rfl
  | cons s l ih => simp [string_addrs, ih]

theorem argv_entries_terminated (l : List Str) (extra : Argv) :
    argv_entries (l.map some ++ none :: extra) = some l := by
  induction l with
  | nil => rfl
  | cons s l ih => simp [argv_entries, ih]

theorem set_argv_ok (env : Env) (n : Nat) (t : Tracee) (l : List Str) (extra : Argv)
    (halloc : env.alloc_ok n = true) (hpeek : t.peekuser_ok = true)
    (hpoke : t.pokeuser_ok = true) (hM : t.sp < word_mod env.W)
    (hsz : argv_size env.W l ≤ t.sp)
    (hmap : ∀ x, t.sp - argv_size env.W l ≤ x → x < t.sp → t.mapped x = true) :
    ∃ wr : List Nat,
      set_argv env n t (l.map some ++ none :: extra)
        = .ret (argv_size env.W l : Nat)
            (n + 1, { t with mem := store_bytes t.mem (t.sp - argv_size env.W l)
                               ((string_addrs t.sp l ++ [0]).flatMap (word_bytes · env.W)
                                 ++ strings_image l),
                             written := wr ++ t.written,
                             sysarg2 := t.sp - argv_size env.W l,
                             sp := t.sp - argv_size env.W l })
      ∧ ∀ x ∈ wr, t.sp - argv_size env.W l ≤ x ∧ x < t.sp := by
  unfold argv_size at *
  obtain ⟨wr1, h1, hwr1⟩ := push_strings_ok env l t t.sp [] hM (by omega)
    (fun x h1 h2 => hmap x (by omega) h2)
  obtain ⟨wr2, h2, hwr2⟩ := push_pointers_ok env (string_addrs t.sp l ++ [0]).reverse
    { t with mem := store_bytes t.mem (t.sp - strings_size l) (strings_image l),
             written := wr1 ++ t.written }
    (t.sp - strings_size l) (by omega)
    (by simp [string_addrs_length]; omega)
    (fun x h1 h2 => hmap x (by simp [string_addrs_length] at h1; omega) (by omega))
  refine ⟨wr2 ++ wr1, ?_, ?_⟩
  · unfold set_argv
    simp only [argv_entries_terminated, halloc, if_true, h1, List.nil_append, lt_self_iff_false,
      if_false, h2]
    rw [if_pos hpeek, if_pos hpoke]
    have hlen : (string_addrs t.sp l ++ [0]).reverse.length * env.W = (l.length + 1) * env.W := by
      simp [string_addrs_length]
    have hmem := store_bytes_below t.mem (t.sp - strings_size l - (l.length + 1) * env.W)
      ((string_addrs t.sp l ++ [0]).flatMap (word_bytes · env.W)) (strings_image l)
    rw [table_bytes_length] at hmem
    simp only [List.length_append, string_addrs_length, List.length_singleton] at hmem
    rw [show t.sp - strings_size l - (l.length + 1) * env.W + (l.length + 1) * env.W
      = t.sp - strings_size l by omega] at hmem
    simp only [hlen, List.reverse_reverse, hmem, List.append_assoc]
    rw [wsub_eq _ _ _ (by omega) hM]
    rw [show t.sp - strings_size l - (l.length + 1) * env.W
      = t.sp - (strings_size l + (l.length + 1) * env.W) by omega]
    rw [show t.sp - (t.sp - (strings_size l + (l.length + 1) * env.W))
      = strings_size l + (l.length + 1) * env.W by omega]
  · intro x hx
    rcases List.mem_append.1 hx with h | h
    · have := hwr2 x h
      simp [string_addrs_length] at this
      omega
    · have := hwr1 x h
      omega

theorem push_strings_mapped (env : Env) (l : List Str) : ∀ (t : Tracee) (argp : Nat) (ca : List Nat),
    argp < word_mod env.W → strings_size l ≤ argp →
    0 ≤ (push_strings env l t argp ca).1 →
    ∀ x, argp - strings_size l ≤ x → x < argp → t.mapped x = true := by
  induction l with
  | nil =>
    intro t argp ca _ _ _ x h1 h2
    simp [strings_size] at h1
    omega
  | cons s rest ih =>
    intro t argp ca hM hsz hst x h1 h2
    rw [strings_size_cons] at hsz h1
    have hw : wsub env.W argp (s.length + 1) = argp - (s.length + 1) :=
      wsub_eq _ _ _ (by omega) hM
    rw [push_strings, hw] at hst
    rcases copy_to_child_status (s ++ [0]) t (argp - (s.length + 1)) with hc | hc
    · exfalso
      have : (push_strings env (s :: rest) t argp ca).1 < 0 := by
        rw [push_strings, hw]
        cases hcc : copy_to_child t (argp - (s.length + 1)) (s ++ [0]) with
        | mk st t1 =>
          rw [hcc] at hc
          simp only at hc ⊢
          rw [if_pos hc]
          exact hc
      rw [push_strings, hw] at this
      omega
    · rw [copy_to_child_ok _ _ _ hc] at hst
      simp only [lt_self_iff_false, if_false] at hst
      by_cases hx : argp - (s.length + 1) ≤ x
      · rw [range_mapped_iff] at hc
        exact hc x hx (by simp only [List.length_append, List.length_singleton]; omega)
      · exact ih _ (argp - (s.length + 1)) _ (by omega) (by omega) hst x (by omega) (by omega)

theorem push_pointers_mapped (env : Env) (vs : List Nat) : ∀ (t : Tracee) (cv : Nat),
    cv < word_mod env.W → vs.length * env.W ≤ cv →
    0 ≤ (push_pointers env vs t cv).1 →
    ∀ x, cv - vs.length * env.W ≤ x → x < cv → t.mapped x = true := by
  induction vs with
  | nil =>
    intro t cv _ _ _ x h1 h2
    simp at h1
    omega
  | cons v rest ih =>
    intro t cv hM hsz hst x h1 h2
    have hlen : (v :: rest).length * env.W = rest.length * env.W + env.W := by
      simp only [List.length_cons]; ring
    rw [hlen] at hsz h1
    have hw : wsub env.W cv env.W = cv - env.W := wsub_eq _ _ _ (by omega) hM
    rw [push_pointers, hw] at hst
    by_cases hc : range_mapped t (cv - env.W) env.W = true
    · simp only [poke_data, hc, if_true] at hst
      by_cases hx : cv - env.W ≤ x
      · rw [range_mapped_iff] at hc
        exact hc x hx (by omega)
      · exact ih _ (cv - env.W) (by omega) (by omega) hst x (by omega) (by omega)
    · exfalso
      have hc2 : range_mapped t (cv - env.W) env.W = false := by simpa using hc
      simp only [poke_data, hc2, Bool.false_eq_true, if_false] at hst
      exact absurd hst (by decide)

theorem set_argv_success (env : Env) (n : Nat) (t : Tracee) (l : List Str) (extra : Argv)
    (status : Int) (n1 : Nat) (t1 : Tracee)
    (hM : t.sp < word_mod env.W) (hsz : argv_size env.W l ≤ t.sp)
    (h : set_argv env n t (l.map some ++ none :: extra) = .ret status (n1, t1))
    (hs : 0 ≤ status) :
    env.alloc_ok n = true ∧ t.peekuser_ok = true ∧ t.pokeuser_ok = true ∧
      ∀ x, t.sp - argv_size env.W l ≤ x → x < t.sp → t.mapped x = true := by
  unfold argv_size at *
  unfold set_argv at h
  simp only [argv_entries_terminated] at h
  by_cases ha : env.alloc_ok n = true
  swap
  · rw [if_neg ha] at h
    injection h with h _
    rw [← h] at hs
    exact absurd hs (by decide)
  rw [if_pos ha] at h
  by_cases hp : t.peekuser_ok = true
  swap
  · rw [if_neg hp] at h
    injection h with h _
    rw [← h] at hs
    exact absurd hs (by decide)
  rw [if_pos hp] at h
  have hstr : 0 ≤ (push_strings env l t t.sp []).1 := by
    by_contra hneg
    rw [not_le] at hneg
    cases hps : push_strings env l t t.sp [] with
    | mk st r =>
      obtain ⟨t2, argp, ca⟩ := r
      rw [hps] at h hneg
      simp only at h hneg
      rw [if_pos hneg] at h
      injection h with h _
      omega
  have hmap1 := push_strings_mapped env l t t.sp [] hM (by omega) hstr
  obtain ⟨wr1, h1, -⟩ := push_strings_ok env l t t.sp [] hM (by omega) hmap1
  rw [h1] at h
  simp only [lt_self_iff_false, if_false, List.nil_append] at h
  have hlen : (string_addrs t.sp l ++ [0]).reverse.length * env.W = (l.length + 1) * env.W := by
    simp [string_addrs_length]
  have hptr : 0 ≤ (push_pointers env (string_addrs t.sp l ++ [0]).reverse
      { t with mem := store_bytes t.mem (t.sp - strings_size l) (strings_image l),
               written := wr1 ++ t.written } (t.sp - strings_size l)).1 := by
    by_contra hneg
    rw [not_le] at hneg
    cases hpp : push_pointers env (string_addrs t.sp l ++ [0]).reverse
      { t with mem := store_bytes t.mem (t.sp - strings_size l) (strings_image l),
               written := wr1 ++ t.written } (t.sp - strings_size l) with
    | mk st r =>
      obtain ⟨t2, cv⟩ := r
      rw [hpp] at h hneg
      simp only at h hneg
      rw [if_pos hneg] at h
      injection h with h _
      omega
  have hmap2 := push_pointers_mapped env (string_addrs t.sp l ++ [0]).reverse
    { t with mem := store_bytes t.mem (t.sp - strings_size l) (strings_image l),
             written := wr1 ++ t.written } (t.sp - strings_size l)
    (by omega) (by rw [hlen]; omega) hptr
  rw [hlen] at hmap2
  obtain ⟨wr2, h2, -⟩ := push_pointers_ok env (string_addrs t.sp l ++ [0]).reverse
    { t with mem := store_bytes t.mem (t.sp - strings_size l) (strings_image l),
             written := wr1 ++ t.written } (t.sp - strings_size l)
    (by omega) (by rw [hlen]; omega) (by rw [hlen]; exact hmap2)
  rw [h2] at h
  simp only [lt_self_iff_false, if_false] at h
  by_cases hk : t.pokeuser_ok = true
  swap
  · rw [if_neg hk] at h
    injection h with h _
    rw [← h] at hs
    exact absurd hs (by decide)
  refine ⟨ha, hp, hk, ?_⟩
  intro x hx1 hx2
  by_cases hx : t.sp - strings_size l ≤ x
  · exact hmap1 x hx hx2
  · exact hmap2 x (by omega) (by omega)

/-! ## Reading a laid-out argument vector -/

theorem word_mod_eq (W : Nat) : word_mod W = 256 ^ W := by
  unfold word_mod; rw [pow_mul]; norm_num

theorem bytes_at_append (t : Tracee) (a : Nat) (X Y : List Nat) :
    bytes_at t a (X ++ Y) ↔ bytes_at t a X ∧ bytes_at t (a + X.length) Y := by
  unfold bytes_at
  constructor
  · intro h
    refine ⟨fun j hj => ?_, fun j hj => ?_⟩
    · have := h j (by simp; omega)
      rwa [List.getD_append _ _ _ _ hj] at this
    · have := h (X.length + j) (by simp; omega)
      rwa [List.getD_append_right _ _ _ _ (by omega), Nat.add_sub_cancel_left,
        ← Nat.add_assoc] at this
  · rintro ⟨h1, h2⟩ j hj
    by_cases hx : j < X.length
    · rw [List.getD_append _ _ _ _ hx]; exact h1 j hx
    · have := h2 (j - X.length) (by simp at hj; omega)
      rw [List.getD_append_right _ _ _ _ (by omega)]
      rwa [show a + X.length + (j - X.length) = a + j by omega] at this

theorem bytes_at_store (t : Tracee) (m : Nat → Nat) (a : Nat) (I : List Nat)
    (hmem : t.mem = store_bytes m a I)
    (hmap : ∀ x, a ≤ x → x < a + I.length → t.mapped x = true) : bytes_at t a I := by
  intro j hj
  exact ⟨by rw [hmem, store_bytes_inside _ _ _ _ hj], hmap _ (by omega) (by omega)⟩

theorem peek_data_of_bytes (W : Nat) (t : Tracee) (a v : Nat) (hv : v < 256 ^ W)
    (h : bytes_at t a (word_bytes v W)) : peek_data W t a = some v := by
  have hrm : range_mapped t a W = true := by
    rw [range_mapped_iff]
    intro x h1 h2
    have := (h (x - a) (by rw [word_bytes_length]; omega)).2
    rwa [Nat.add_sub_cancel' h1] at this
  have hl : load_word t.mem a W = v % 256 ^ W :=
    load_word_bytes t.mem W a v (fun k hk => (h k (by rw [word_bytes_length]; exact hk)).1)
  rw [peek_data, if_pos hrm, hl, Nat.mod_eq_of_lt hv]

theorem table_at_of_bytes (W : Nat) (t : Tracee) (vs : List Nat) : ∀ a : Nat,
    bytes_at t a (vs.flatMap (word_bytes · W)) → (∀ v ∈ vs, v < 256 ^ W) →
    table_at W t a vs := by
  induction vs with
  | nil => intro a _ _; trivial
  | cons v vs ih =>
    intro a h hv
    rw [List.flatMap_cons, bytes_at_append, word_bytes_length] at h
    exact ⟨peek_data_of_bytes W t a v (hv v (List.mem_cons_self _ _)) h.1,
      ih (a + W) h.2 (fun x hx => hv x (List.mem_cons_of_mem _ hx))⟩

theorem strings_at_of_image (t : Tracee) (l : List Str) : ∀ argp : Nat,
    strings_size l ≤ argp → bytes_at t (argp - strings_size l) (strings_image l) →
    List.Forall₂ (fun p s => bytes_at t p (s ++ [0])) (string_addrs argp l) l := by
  induction l with
  | nil => intro argp _ _; exact List.Forall₂.nil
  | cons s rest ih =>
    intro argp hsz h
    rw [strings_size_cons] at hsz h
    rw [strings_image, bytes_at_append, strings_image_length] at h
    rw [show argp - (s.length + 1 + strings_size rest) + strings_size rest
      = argp - (s.length + 1) by omega] at h
    rw [show argp - (s.length + 1 + strings_size rest)
      = argp - (s.length + 1) - strings_size rest by omega] at h
    exact List.Forall₂.cons h.2 (ih (argp - (s.length + 1)) (by omega) h.1)

theorem string_addrs_bounds (l : List Str) : ∀ argp : Nat, strings_size l ≤ argp →
    ∀ p ∈ string_addrs argp l, argp - strings_size l ≤ p ∧ p < argp := by
  induction l with
  | nil => intro argp _ p hp; simp [string_addrs] at hp
  | cons s rest ih =>
    intro argp hsz p hp
    rw [strings_size_cons] at hsz ⊢
    rcases List.mem_cons.1 hp with h | h
    · rw [h]; omega
    · have := ih (argp - (s.length + 1)) (by omega) p h
      omega

theorem get_child_string_of_bytes (t : Tracee) (s : Str) : ∀ (fuel p : Nat) (acc : List Nat),
    bytes_at t p (s ++ [0]) → (∀ b ∈ s, b ≠ 0) → s.length < fuel →
    get_child_string t fuel p acc = (((acc.length + s.length + 1 : Nat) : Int), acc ++ s) := by
  induction s with
  | nil =>
    intro fuel p acc h _ hf
    obtain ⟨f, rfl⟩ : ∃ f, fuel = f + 1 := ⟨fuel - 1, by simp at hf; omega⟩
    have h0 := h 0 (by simp)
    simp only [Nat.add_zero, List.nil_append, List.getD_cons_zero] at h0
    rw [get_child_string, if_pos h0.2, if_pos h0.1]
    simp
  | cons b s ih =>
    intro fuel p acc h hs hf
    obtain ⟨f, rfl⟩ : ∃ f, fuel = f + 1 := ⟨fuel - 1, by simp at hf; omega⟩
    have h0 := h 0 (by simp)
    simp only [Nat.add_zero, List.cons_append, List.getD_cons_zero] at h0
    have hb : b ≠ 0 := hs b (List.mem_cons_self _ _)
    rw [get_child_string, if_pos h0.2, if_neg (by rw [h0.1]; exact hb), h0.1]
    have hrest : bytes_at t (p + 1) (s ++ [0]) := by
      intro j hj
      have := h (j + 1) (by simp at hj ⊢; omega)
      simpa [Nat.add_assoc, Nat.add_comm 1] using this
    rw [ih f (p + 1) (acc ++ [b]) hrest (fun x hx => hs x (List.mem_cons_of_mem _ hx))
      (by simp at hf; omega)]
    simp
    omega

theorem cstr_of_nul_free (s : Str) (hs : ∀ b ∈ s, b ≠ 0) : cstr s = s := by
  unfold cstr
  rw [List.takeWhile_eq_self_iff]
  intro b hb
  simpa using hs b hb

theorem count_child_argv_table (env : Env) (t : Tracee) (base : Nat) (vs : List Nat) :
    ∀ (fuel i : Nat), table_at env.W t (base + i * env.W) (vs ++ [0]) →
      (∀ v ∈ vs, v ≠ 0) → base + (i + vs.length) * env.W < word_mod env.W →
      vs.length < fuel →
      count_child_argv env t base fuel i = some (.ok (i + vs.length)) := by
  induction vs with
  | nil =>
    intro fuel i h _ hM hf
    obtain ⟨f, rfl⟩ : ∃ f, fuel = f + 1 := ⟨fuel - 1, by simp at hf; omega⟩
    simp only [List.nil_append, table_at] at h
    rw [count_child_argv, wadd_eq _ _ _ (by simpa using hM), h.1]
    simp
  | cons v vs ih =>
    intro fuel i h hv hM hf
    obtain ⟨f, rfl⟩ : ∃ f, fuel = f + 1 := ⟨fuel - 1, by simp at hf; omega⟩
    simp only [List.cons_append, table_at] at h
    have hlt : base + i * env.W < word_mod env.W := by
      have : i * env.W ≤ (i + (v :: vs).length) * env.W :=
        Nat.mul_le_mul_right _ (by omega)
      omega
    rw [count_child_argv, wadd_eq _ _ _ hlt, h.1]
    simp only [hv v (List.mem_cons_self _ _), if_false]
    have e : base + i * env.W + env.W = base + (i + 1) * env.W := by ring
    rw [ih f (i + 1) (by rw [← e]; exact h.2) (fun x hx => hv x (List.mem_cons_of_mem _ hx))
      (by
        have : i + 1 + vs.length = i + (v :: vs).length := by simp; omega
        rw [this]; exact hM)
      (by simp at hf; omega)]
    simp only [List.length_cons]
    congr 2
    omega

theorem set_append_replicate (done : List Str) (k : Nat) (x : Ptr) :
    (done.map some ++ List.replicate (k + 1) none).set done.length x
      = done.map some ++ x :: List.replicate k none := by
  rw [List.set_append_right _ _ (by simp)]
  simp [List.replicate_succ]

theorem slurp_child_argv_table (env : Env) (t : Tracee) (base : Nat)
    (halloc : ∀ m, env.alloc_ok m = true) (l : List Str) :
    ∀ (ptrs : List Nat) (n : Nat) (done : List Str),
      table_at env.W t (base + done.length * env.W) ptrs →
      List.Forall₂ (fun p s => bytes_at t p (s ++ [0])) ptrs l →
      (∀ p ∈ ptrs, p ≠ 0) → (∀ s ∈ l, ∀ b ∈ s, b ≠ 0) →
      (∀ s ∈ l, s.length + 1 < ARG_MAX) →
      base + (done.length + l.length) * env.W < word_mod env.W →
      slurp_child_argv env t base l.length done.length n
          (done.map some ++ List.replicate (l.length + 1) none)
        = .ret 0 (n + l.length, argv_of (done ++ l)) := by
  induction l with
  | nil =>
    intro ptrs n done _ _ _ _ _ _
    simp [slurp_child_argv, argv_of]
  | cons s rest ih =>
    intro ptrs n done htab hstr hnz hnul hlen hM
    cases hstr with
    | cons hp hrest =>
      rename_i p ptrs1
      simp only [table_at] at htab
      have hlt : base + done.length * env.W < word_mod env.W := by
        have : done.length * env.W ≤ (done.length + (s :: rest).length) * env.W :=
          Nat.mul_le_mul_right _ (by omega)
        omega
      have hs := hlen s (List.mem_cons_self _ _)
      have hgs := get_child_string_of_bytes t s ARG_MAX p [] hp
        (hnul s (List.mem_cons_self _ _)) (by omega)
      simp only [List.length_cons]
      rw [slurp_child_argv, wadd_eq _ _ _ hlt, htab.1]
      simp only [hnz p (List.mem_cons_self _ _), if_false, hgs, List.length_nil, Nat.zero_add,
        List.nil_append]
      rw [if_neg (by omega), if_neg (by
        rw [ge_iff_le, not_le]
        have : ((s.length + 1 : Nat) : Int) < (ARG_MAX : Nat) := by exact_mod_cast hs
        simpa using this), if_pos (halloc n),
        cstr_of_nul_free s (hnul s (List.mem_cons_self _ _)), set_append_replicate]
      have e : base + done.length * env.W + env.W = base + (done ++ [s]).length * env.W := by
        simp; ring
      have e2 : List.map some done ++ some s :: List.replicate (rest.length + 1) none
          = List.map some (done ++ [s]) ++ List.replicate (rest.length + 1) none := by simp
      have e3 : done.length + 1 = (done ++ [s]).length := by simp
      rw [e2, e3, ih ptrs1 (n + 1) (done ++ [s]) (by rw [← e]; exact htab.2) hrest
        (fun x hx => hnz x (List.mem_cons_of_mem _ hx))
        (fun x hx => hnul x (List.mem_cons_of_mem _ hx))
        (fun x hx => hlen x (List.mem_cons_of_mem _ hx))
        (by
          have : (done ++ [s]).length + rest.length = done.length + (s :: rest).length := by
            simp; omega
          rw [this]; exact hM)]
      simp [Nat.add_assoc, Nat.add_comm 1]

theorem table_at_append_left (W : Nat) (t : Tracee) (vs ws : List Nat) : ∀ a : Nat,
    table_at W t a (vs ++ ws) → table_at W t a vs := by
  induction vs with
  | nil => intro a _; trivial
  | cons v vs ih => intro a h; exact ⟨h.1, ih (a + W) h.2⟩

theorem table_at_congr (W : Nat) (t u : Tracee) (hmem : u.mem = t.mem)
    (hmap : u.mapped = t.mapped) (vs : List Nat) : ∀ a : Nat,
    table_at W t a vs → table_at W u a vs := by
  induction vs with
  | nil => intro a _; trivial
  | cons v vs ih =>
    intro a h
    refine ⟨?_, ih (a + W) h.2⟩
    rw [← h.1]
    simp only [peek_data, range_mapped, hmem, hmap]

theorem bytes_at_congr (t u : Tracee) (hmem : u.mem = t.mem) (hmap : u.mapped = t.mapped)
    (a : Nat) (bs : List Nat) (h : bytes_at t a bs) : bytes_at u a bs := by
  intro j hj
  rw [hmem, hmap]
  exact h j hj

theorem set_replicate_self {α : Type} (k i : Nat) (x : α) :
    (List.replicate k x).set i x = List.replicate k x := by
  induction k generalizing i with
  | zero => simp
  | succ k ih =>
    cases i with
    | zero => simp [List.replicate_succ]
    | succ j => simp [List.replicate_succ, ih]

/-- Reading back a laid-out argument vector: when the table at `sysarg2` holds
non-null pointers `ptrs` and a null word, and each pointer addresses the
matching string of `l` with its terminator, `get_argv` returns `l`. -/
theorem get_argv_of_layout (env : Env) (t : Tracee) (fuel n : Nat) (ptrs : List Nat)
    (l : List Str) (htab : table_at env.W t t.sysarg2 (ptrs ++ [0]))
    (hstr : List.Forall₂ (fun p s => bytes_at t p (s ++ [0])) ptrs l)
    (hnz : ∀ p ∈ ptrs, p ≠ 0) (hnul : ∀ s ∈ l, ∀ b ∈ s, b ≠ 0)
    (hlen : ∀ s ∈ l, s.length + 1 < ARG_MAX)
    (hM : t.sysarg2 + l.length * env.W < word_mod env.W)
    (hfuel : l.length < fuel) (halloc : ∀ m, env.alloc_ok m = true) :
    get_argv env fuel n t = some (.ret 0 (n + 1 + l.length, argv_of l)) := by
  have hl : ptrs.length = l.length := hstr.length_eq
  have hcount := count_child_argv_table env t t.sysarg2 ptrs fuel 0
    (by simpa using htab) hnz (by simpa [hl] using hM) (by omega)
  have hslurp := slurp_child_argv_table env t t.sysarg2 halloc l ptrs (n + 1) []
    (by simpa using table_at_append_left env.W t ptrs [0] _ htab) hstr hnz hnul hlen
    (by simpa using hM)
  unfold get_argv
  rw [hcount]
  simp only [halloc, if_true, Nat.zero_add, hl, set_replicate_self]
  simp only [List.map_nil, List.nil_append, List.length_nil] at hslurp
  rw [hslurp]

/-- The layout `set_argv` leaves when nothing fails and nothing wraps. -/
theorem set_argv_layout (env : Env) (n : Nat) (t : Tracee) (l : List Str) (extra : Argv)
    (hW : 0 < env.W) (halloc : env.alloc_ok n = true) (hpeek : t.peekuser_ok = true)
    (hpoke : t.pokeuser_ok = true) (hM : t.sp < word_mod env.W)
    (hsz : argv_size env.W l ≤ t.sp)
    (hmap : ∀ x, t.sp - argv_size env.W l ≤ x → x < t.sp → t.mapped x = true) :
    ∃ t1 : Tracee,
      set_argv env n t (l.map some ++ none :: extra) = .ret (argv_size env.W l : Nat) (n + 1, t1)
      ∧ t1.sysarg2 = t.sp - argv_size env.W l ∧ t1.sp = t.sp - argv_size env.W l
      ∧ t1.sysarg1 = t.sysarg1 ∧ t1.mapped = t.mapped
      ∧ (∀ x, x < t.sp - argv_size env.W l ∨ t.sp ≤ x → t1.mem x = t.mem x)
      ∧ table_at env.W t1 t1.sysarg2 (string_addrs t.sp l ++ [0])
      ∧ List.Forall₂ (fun p s => bytes_at t1 p (s ++ [0])) (string_addrs t.sp l) l
      ∧ (∀ p ∈ string_addrs t.sp l, p ≠ 0 ∧ p < t.sp) := by
  obtain ⟨wr, hset, -⟩ := set_argv_ok env n t l extra halloc hpeek hpoke hM hsz hmap
  have hA : argv_size env.W l = strings_size l + (l.length + 1) * env.W := rfl
  refine ⟨_, hset, rfl, rfl, rfl, rfl, ?_, ?_, ?_, ?_⟩
  · intro x hx
    apply store_bytes_outside
    simp only [List.length_append, table_bytes_length, string_addrs_length,
      List.length_singleton, strings_image_length]
    rcases hx with h | h
    · left; exact h
    · right; omega
  all_goals
    have hb : bytes_at
        { t with mem := store_bytes t.mem (t.sp - argv_size env.W l)
                   ((string_addrs t.sp l ++ [0]).flatMap (word_bytes · env.W) ++ strings_image l),
                 written := wr ++ t.written,
                 sysarg2 := t.sp - argv_size env.W l,
                 sp := t.sp - argv_size env.W l }
        (t.sp - argv_size env.W l)
        ((string_addrs t.sp l ++ [0]).flatMap (word_bytes · env.W) ++ strings_image l) := by
      apply bytes_at_store _ t.mem _ _ rfl
      intro x h1 h2
      apply hmap x h1
      simp only [List.length_append, table_bytes_length, string_addrs_length,
        List.length_singleton, strings_image_length] at h2
      omega
    rw [bytes_at_append, table_bytes_length] at hb
    simp only [List.length_append, string_addrs_length, List.length_singleton] at hb
    have hbound := string_addrs_bounds l t.sp (by omega)
  · apply table_at_of_bytes _ _ _ _ hb.1
    intro v hv
    rw [← word_mod_eq]
    rcases List.mem_append.1 hv with h | h
    · have := hbound v h; omega
    · simp only [List.mem_singleton] at h
      rw [h]; omega
  · have := strings_at_of_image _ l t.sp (by omega)
      (by
        have h2 := hb.2
        rwa [show t.sp - argv_size env.W l + (l.length + 1) * env.W
          = t.sp - strings_size l by omega] at h2)
    exact this
  · intro p hp
    have := hbound p hp
    have hpos : 0 < (l.length + 1) * env.W := Nat.mul_pos (by omega) hW
    omega

/-! ## The claims on `substitute_argv0`, `set_argv` and `get_argv` -/

/-- C3: `substitute_argv0` is a head splice.  For a NULL-terminated array
holding the entries `a0, a1, ..., an` (whatever follows the `NULL` slot in the
allocation) and at least one new string, when every allocation succeeds the
function returns 0 and the array holds the new strings followed by
`a1, ..., an` and a `NULL` slot. -/
theorem substitute_argv0_head_splice (env : Env) (n : Nat) (a0 : Str) (as new_args : List Str)
    (extra : Argv) (hk : 1 ≤ new_args.length) (halloc : ∀ m, env.alloc_ok m = true) :
    substitute_argv0 env n ((a0 :: as).map some ++ none :: extra) new_args
      = .ret 0 (n + 1 + new_args.length, argv_of (new_args ++ as)) :=
  substitute_argv0_splice_aux env n a0 as new_args extra hk halloc

theorem substitute_argv0_head_splice_witness :
    substitute_argv0 (demo_env [] []) 0
        (([bytes "script.sh", bytes "arg1", bytes "arg2"]).map some ++ none :: [])
        [bytes "/bin/sh", bytes "/bin/script.sh"]
      = .ret 0 (0 + 1 + 2, argv_of ([bytes "/bin/sh", bytes "/bin/script.sh"]
          ++ [bytes "arg1", bytes "arg2"])) :=
  substitute_argv0_head_splice (demo_env [] []) 0 (bytes "script.sh")
    [bytes "arg1", bytes "arg2"] [bytes "/bin/sh", bytes "/bin/script.sh"] []
    (by decide) (fun _ => rfl)

/-- C6: stack consumption of `set_argv`.  When the allocation, the register
accesses and the writes below the stack pointer succeed, no subtraction wraps
and the sum of the string sizes (terminators included) plus
`(N + 1) * sizeof(word_t)` does not exceed `INT_MAX`, so that the `int`
returned holds it, `set_argv` returns that sum; the value is positive and both
the second system-call argument and the stack pointer end that many bytes below
the previous stack pointer. -/
theorem set_argv_stack_consumption (env : Env) (n : Nat) (t : Tracee) (l : List Str)
    (extra : Argv) (hW : 0 < env.W) (halloc : env.alloc_ok n = true)
    (hpeek : t.peekuser_ok = true) (hpoke : t.pokeuser_ok = true)
    (hM : t.sp < word_mod env.W) (hsz : argv_size env.W l ≤ t.sp)
    (hmap : ∀ x, t.sp - argv_size env.W l ≤ x → x < t.sp → t.mapped x = true)
    (hint : (l.map fun s => s.length + 1).sum + (l.length + 1) * env.W ≤ INT_MAX) :
    ∃ t1 : Tracee,
      set_argv env n t (l.map some ++ none :: extra)
        = .ret (((l.map fun s => s.length + 1).sum + (l.length + 1) * env.W : Nat) : Int)
            (n + 1, t1)
      ∧ 0 < (l.map fun s => s.length + 1).sum + (l.length + 1) * env.W
      ∧ (l.map fun s => s.length + 1).sum + (l.length + 1) * env.W ≤ INT_MAX
      ∧ t1.sysarg2 = t.sp - ((l.map fun s => s.length + 1).sum + (l.length + 1) * env.W)
      ∧ t1.sp = t.sp - ((l.map fun s => s.length + 1).sum + (l.length + 1) * env.W)
      ∧ t1.sp < t.sp := by
  obtain ⟨t1, hset, h2, hsp, -⟩ :=
    set_argv_layout env n t l extra hW halloc hpeek hpoke hM hsz hmap
  have hA : argv_size env.W l = (l.map fun s => s.length + 1).sum + (l.length + 1) * env.W := rfl
  have hpos : 0 < (l.length + 1) * env.W := Nat.mul_pos (by omega) hW
  rw [hA] at hset h2 hsp hsz
  exact ⟨t1, hset, by omega, hint, h2, hsp, by omega⟩

theorem set_argv_stack_consumption_witness :
    ∃ t1 : Tracee,
      set_argv (demo_env [] []) 0 (demo_tracee (bytes "/bin/foo.sh") [bytes "foo.sh", bytes "a"])
          ([bytes "/bin/sh", bytes "/bin/foo.sh", bytes "a"].map some ++ none :: [])
        = .ret (((([bytes "/bin/sh", bytes "/bin/foo.sh", bytes "a"].map
            fun s => s.length + 1).sum + (3 + 1) * 8 : Nat)) : Int) (0 + 1, t1)
      ∧ 0 < ([bytes "/bin/sh", bytes "/bin/foo.sh", bytes "a"].map fun s => s.length + 1).sum
          + (3 + 1) * 8
      ∧ ([bytes "/bin/sh", bytes "/bin/foo.sh", bytes "a"].map fun s => s.length + 1).sum
          + (3 + 1) * 8 ≤ INT_MAX
      ∧ t1.sysarg2 = 65536 - (([bytes "/bin/sh", bytes "/bin/foo.sh", bytes "a"].map
          fun s => s.length + 1).sum + (3 + 1) * 8)
      ∧ t1.sp = 65536 - (([bytes "/bin/sh", bytes "/bin/foo.sh", bytes "a"].map
          fun s => s.length + 1).sum + (3 + 1) * 8)
      ∧ t1.sp < 65536 :=
  set_argv_stack_consumption (demo_env [] []) 0
    (demo_tracee (bytes "/bin/foo.sh") [bytes "foo.sh", bytes "a"])
    [bytes "/bin/sh", bytes "/bin/foo.sh", bytes "a"] [] (by decide) rfl rfl rfl
    (by decide) (by decide) (fun _ _ _ => rfl) (by decide)

/-- C5: materialisation round trip.  For NUL-free strings shorter than
`ARG_MAX - 1` and a stack pointer large enough that nothing wraps, after
`set_argv` succeeds the words from the second system-call argument on are
non-null addresses followed by a null word, each address holds the matching
string followed by NUL, and `get_argv` on the resulting tracee returns the
same argument vector (its own allocations succeeding). -/
theorem set_argv_get_argv_round_trip (env : Env) (n : Nat) (t : Tracee) (l : List Str)
    (extra : Argv) (status : Int) (n1 : Nat) (t1 : Tracee) (fuel : Nat) (hW : 0 < env.W)
    (hnul : ∀ s ∈ l, ∀ b ∈ s, b ≠ 0) (hlen : ∀ s ∈ l, s.length < ARG_MAX - 1)
    (hM : t.sp < word_mod env.W) (hsz : argv_size env.W l ≤ t.sp)
    (hset : set_argv env n t (l.map some ++ none :: extra) = .ret status (n1, t1))
    (hs : 0 ≤ status) (halloc : ∀ m, env.alloc_ok m = true) (hfuel : l.length < fuel) :
    ∃ ptrs : List Nat, ptrs.length = l.length
      ∧ table_at env.W t1 t1.sysarg2 (ptrs ++ [0])
      ∧ (∀ p ∈ ptrs, p ≠ 0)
      ∧ List.Forall₂ (fun p s => bytes_at t1 p (s ++ [0])) ptrs l
      ∧ get_argv env fuel n1 t1 = some (.ret 0 (n1 + 1 + l.length, argv_of l)) := by
  obtain ⟨ha, hpeek, hpoke, hmap⟩ := set_argv_success env n t l extra status n1 t1 hM hsz hset hs
  obtain ⟨t2, hset2, h2, -, -, -, -, htab, hstr, hnz⟩ :=
    set_argv_layout env n t l extra hW ha hpeek hpoke hM hsz hmap
  rw [hset] at hset2
  injection hset2 with _ hst
  injection hst with hn ht
  subst hn ht
  have hA : argv_size env.W l = strings_size l + (l.length + 1) * env.W := rfl
  refine ⟨string_addrs t.sp l, string_addrs_length _ _, htab, fun p hp => (hnz p hp).1, hstr, ?_⟩
  have hlt : t1.sysarg2 + l.length * env.W < word_mod env.W := by
    rw [h2]
    have : (l.length + 1) * env.W = l.length * env.W + env.W := by ring
    omega
  exact get_argv_of_layout env t1 fuel _ (string_addrs t.sp l) l htab hstr
    (fun p hp => (hnz p hp).1) hnul
    (fun s hs => by have := hlen s hs; unfold ARG_MAX at this ⊢; omega) hlt hfuel halloc

theorem set_argv_get_argv_round_trip_witness :
    get_argv (demo_env [] []) 5 1
        (Outcome.state (0, demo_tracee [] [])
          (set_argv (demo_env [] []) 0 (demo_tracee (bytes "/bin/foo.sh") [])
            ([bytes "/bin/sh", bytes "/bin/foo.sh", bytes "a"].map some ++ none :: []))).2
      = some (.ret 0 (1 + 1 + 3, argv_of [bytes "/bin/sh", bytes "/bin/foo.sh", bytes "a"])) :=
  (set_argv_get_argv_round_trip (demo_env [] []) 0 (demo_tracee (bytes "/bin/foo.sh") [])
    [bytes "/bin/sh", bytes "/bin/foo.sh", bytes "a"] [] 54 1
    (Outcome.state (0, demo_tracee [] [])
      (set_argv (demo_env [] []) 0 (demo_tracee (bytes "/bin/foo.sh") [])
        ([bytes "/bin/sh", bytes "/bin/foo.sh", bytes "a"].map some ++ none :: []))).2
    5 (by decide) (by decide) (by decide) (by decide) (by decide) (by rfl) (by decide)
    (fun _ => rfl) (by decide)).elim fun _ h => h.2.2.2.2

/-! ## `translate_execve` step by step -/

theorem read_shebang_no_argument (fd : OpenFile) (w0 P w1 : List Nat) (e : Nat) (rest : List Nat)
    (hdata : fd.data = [35, 33] ++ w0 ++ P ++ w1 ++ [e] ++ rest)
    (hw0 : ∀ b ∈ w0, blank b) (hw1 : ∀ b ∈ w1, blank b) (hPne : P ≠ [])
    (hP : ∀ b ∈ P, ¬ blank b ∧ ¬ eol b ∧ b ≠ 0) (he : eol e)
    (hplen : P.length + w1.length < PATH_MAX) :
    read_shebang fd = ⟨1, P ++ List.replicate (w1.length + 1) 0, []⟩ := by
  obtain ⟨p, P1, rfl⟩ := List.exists_cons_of_ne_nil hPne
  have hp := hP p (List.mem_cons_self _ _)
  simp only [List.length_cons] at hplen
  unfold read_shebang
  cases w1 with
  | nil =>
    have hd : fd.data = 35 :: 33 :: (w0 ++ p :: (P1 ++ e :: rest)) := by rw [hdata]; simp
    rw [hd]
    simp only [ne_eq, not_true_eq_false, or_self, if_false]
    rw [skip_leading_blanks fd.fail w0 p _ hw0 hp.1]
    simp only
    rw [slurp_interpreter_plain fd.fail P1 0 [] p e _ hP (by simp at hplen; omega) rfl (by omega)]
    rw [slurp_interpreter_eol _ _ _ _ _ (by simp at hplen; omega) he]
    simp
  | cons b w =>
    have hd : fd.data = 35 :: 33 :: (w0 ++ p :: (P1 ++ b :: (w ++ e :: rest))) := by
      rw [hdata]; simp
    simp only [List.length_cons] at hplen
    rw [hd]
    simp only [ne_eq, not_true_eq_false, or_self, if_false]
    rw [skip_leading_blanks fd.fail w0 p _ hw0 hp.1]
    simp only
    rw [slurp_interpreter_plain fd.fail P1 0 [] p b _ hP (by omega) rfl (by omega)]
    rw [slurp_interpreter_blanks fd.fail w (0 + 1 + P1.length) _ b e _ hw1 (by omega)]
    rw [slurp_interpreter_eol _ _ _ _ _ (by omega) he]
    simp [Nat.add_comm 1, List.replicate_succ']

theorem read_shebang_not_script (fd : OpenFile) (hnot : fd.data.take 2 ≠ [35, 33])
    (hfail : fd.data = [] → fd.fail = none) : read_shebang fd = ⟨0, fd.data.take 2, []⟩ := by
  unfold read_shebang
  cases hd : fd.data with
  | nil => simp [hfail hd, read_end]
  | cons c0 tl =>
    cases tl with
    | nil => simp
    | cons c1 rest =>
      rw [hd] at hnot
      simp only [List.take_succ_cons, List.take_zero, ne_eq, List.cons.injEq, and_true,
        not_and] at hnot
      have : c0 ≠ 35 ∨ c1 ≠ 33 := by
        by_cases h : c0 = 35
        · right; exact hnot h
        · left; exact h
      simp only [ne_eq] at this
      simp [this]

theorem shebang_loop_continue (env : Env) (fuel : Nat) (nb : Int) (n : Nat) (path : Str)
    (argv : Argv) (n1 : Nat) (path1 : Str) (argv1 : Argv)
    (h : expand_shebang env n path argv = .ret 1 (n1, path1, argv1)) :
    shebang_loop env (fuel + 1) nb n path argv = shebang_loop env fuel (nb + 1) n1 path1 argv1 := by
  rw [shebang_loop, h]
  simp

theorem shebang_loop_stop (env : Env) (fuel : Nat) (nb : Int) (n : Nat) (path : Str)
    (argv : Argv) (status : Int) (st : Nat × Str × Argv) (hs : status ≤ 0)
    (h : expand_shebang env n path argv = .ret status st) :
    shebang_loop env (fuel + 1) nb n path argv = some (.ret status (nb + 1, st)) := by
  obtain ⟨n1, path1, argv1⟩ := st
  rw [shebang_loop, h]
  simp only [gt_iff_lt, not_lt.2 hs, if_false]

theorem translate_execve_of_loop (env : Env) (fuel n : Nat) (t : Tracee) (n1 : Nat) (argv : Argv)
    (status nb : Int) (n2 : Nat) (path1 : Str) (argv1 : Argv)
    (hgs : 0 ≤ env.get_sysarg_path_status t.sysarg1)
    (hargv : get_argv env fuel n t = some (.ret 0 (n1, argv)))
    (hloop : shebang_loop env fuel (-1) n1 t.sysarg1 argv
      = some (.ret status (nb, n2, path1, argv1))) :
    translate_execve env fuel n t = some (translate_finish env nb status n2 path1 argv1 t) := by
  unfold translate_execve get_sysarg_path
  simp only [not_lt.2 hgs, if_false, hargv, lt_self_iff_false, hloop]

theorem load_word_congr (m1 m2 : Nat → Nat) (W : Nat) : ∀ a : Nat,
    (∀ x, a ≤ x → x < a + W → m2 x = m1 x) → load_word m2 a W = load_word m1 a W := by
  induction W with
  | zero => intro a _; rfl
  | succ W ih =>
    intro a h
    rw [load_word, load_word, h a (le_refl _) (by omega),
      ih (a + 1) (fun x h1 h2 => h x (by omega) (by omega))]

theorem table_at_frame (W : Nat) (t u : Tracee) (lo : Nat)
    (hmem : ∀ x, lo ≤ x → u.mem x = t.mem x) (hmap : u.mapped = t.mapped) (vs : List Nat) :
    ∀ a : Nat, lo ≤ a → table_at W t a vs → table_at W u a vs := by
  induction vs with
  | nil => intro a _ _; trivial
  | cons v vs ih =>
    intro a ha h
    refine ⟨?_, ih (a + W) (by omega) h.2⟩
    rw [← h.1]
    simp only [peek_data, range_mapped, hmap]
    rw [load_word_congr t.mem u.mem W a (fun x h1 _ => hmem x (by omega))]

theorem bytes_at_frame (t u : Tracee) (lo : Nat) (hmem : ∀ x, lo ≤ x → u.mem x = t.mem x)
    (hmap : u.mapped = t.mapped) (a : Nat) (bs : List Nat) (ha : lo ≤ a)
    (h : bytes_at t a bs) : bytes_at u a bs := by
  intro j hj
  rw [hmem (a + j) (by omega), hmap]
  exact h j hj

theorem forall₂_imp_mem {α β : Type} {R S : α → β → Prop} {l1 : List α} {l2 : List β}
    (h : List.Forall₂ R l1 l2) :
    (∀ a b, a ∈ l1 → R a b → S a b) → List.Forall₂ S l1 l2 := by
  induction h with
  | nil => intro _; exact List.Forall₂.nil
  | cons hab _ ih =>
    intro himp
    exact List.Forall₂.cons (himp _ _ (List.mem_cons_self _ _) hab)
      (ih fun a b ha => himp a b (List.mem_cons_of_mem _ ha))

theorem set_sysarg_path_ok (env : Env) (t : Tracee) (path : Str)
    (hset : 0 ≤ env.set_sysarg_path_status path) :
    (set_sysarg_path env t path).1 = env.set_sysarg_path_status path
      ∧ (set_sysarg_path env t path).2.sysarg1 = path
      ∧ (set_sysarg_path env t path).2.sysarg2 = t.sysarg2
      ∧ (set_sysarg_path env t path).2.mapped = t.mapped
      ∧ (set_sysarg_path env t path).2.sp = t.sp - scratch_size t path
      ∧ writes_within t (set_sysarg_path env t path).2 (t.sp - scratch_size t path) t.sp := by
  have hk : scratch_size t path ≤ t.sp := Nat.min_le_right _ _
  unfold set_sysarg_path
  rw [if_neg (not_lt.2 hset)]
  refine ⟨rfl, rfl, rfl, rfl, rfl, ⟨_, rfl, fun x hx => ?_⟩, fun x hx => ?_⟩
  · rw [List.mem_reverse, List.mem_map] at hx
    obtain ⟨k, hk2, rfl⟩ := hx
    have := List.mem_range.1 hk2
    omega
  · apply store_bytes_outside
    have hlen : ((path ++ [0]).take (scratch_size t path)).length ≤ scratch_size t path := by
      rw [List.length_take]; exact Nat.min_le_left _ _
    omega

theorem translate_commit_ok (env : Env) (nb : Int) (n : Nat) (path2 : Str) (l : List Str)
    (extra : Argv) (t : Tracee) (hchg : nb ≠ 0 ∨ env.runner ≠ [])
    (hW : 0 < env.W) (halloc : env.alloc_ok n = true) (hpeek : t.peekuser_ok = true)
    (hpoke : t.pokeuser_ok = true) (hM : t.sp < word_mod env.W)
    (hsz : argv_size env.W l ≤ t.sp)
    (hmap : ∀ x, t.sp - argv_size env.W l ≤ x → x < t.sp → t.mapped x = true)
    (hset : 0 ≤ env.set_sysarg_path_status path2) :
    ∃ t2 : Tracee,
      translate_commit env nb n path2 (l.map some ++ none :: extra) t
        = .ret ((argv_size env.W l : Nat) + env.set_sysarg_path_status path2) (n + 1, t2)
      ∧ t2.sysarg1 = path2
      ∧ t2.sysarg2 = t.sp - argv_size env.W l ∧ t2.sp ≤ t.sp - argv_size env.W l
      ∧ (∀ x, t.sp ≤ x → t2.mem x = t.mem x)
      ∧ table_at env.W t2 t2.sysarg2 (string_addrs t.sp l ++ [0])
      ∧ List.Forall₂ (fun p s => bytes_at t2 p (s ++ [0])) (string_addrs t.sp l) l
      ∧ (∀ p ∈ string_addrs t.sp l, p ≠ 0 ∧ p < t.sp) := by
  obtain ⟨t1, hs, h2, hsp, -, -, hframe, htab, hstr, hnz⟩ :=
    set_argv_layout env n t l extra hW halloc hpeek hpoke hM hsz hmap
  have hA : argv_size env.W l = strings_size l + (l.length + 1) * env.W := rfl
  obtain ⟨hst, hp1, hp2, hpm, hpsp, hw⟩ := set_sysarg_path_ok env t1 path2 hset
  have hmem : ∀ x, t1.sp ≤ x → (set_sysarg_path env t1 path2).2.mem x = t1.mem x :=
    fun x hx => hw.2 x (Or.inr hx)
  refine ⟨(set_sysarg_path env t1 path2).2, ?_, hp1, by rw [hp2, h2], by rw [hpsp, hsp]; omega,
    ?_, ?_, ?_, hnz⟩
  · unfold translate_commit
    rw [if_pos hchg, hs]
    have hnn : ¬ ((argv_size env.W l : Nat) : Int) < 0 := by omega
    simp only [hnn, if_false]
    cases hres : set_sysarg_path env t1 path2 with
    | mk st t2 =>
      rw [hres] at hst
      simp only at hst ⊢
      rw [hst]
      simp only [translate_end, argv_entries_terminated, not_lt.2 hset, if_false]
  · intro x hx
    rw [hmem x (by rw [hsp]; omega), hframe x (Or.inr hx)]
  · rw [hp2]
    exact table_at_frame env.W t1 _ t1.sp hmem hpm _ _ (by rw [h2, hsp]) htab
  · refine forall₂_imp_mem hstr fun p s hp h => ?_
    have hb := string_addrs_bounds l t.sp (by omega) p hp
    exact bytes_at_frame t1 _ t1.sp hmem hpm p _ (by rw [hsp]; omega) h

theorem translate_finish_no_runner (env : Env) (nb : Int) (n : Nat) (path : Str) (argv : Argv)
    (t : Tracee) (st : Int) (path2 : Str) (hrunner : env.runner = [])
    (htr : env.translate_path path = (st, path2)) (hst : 0 ≤ st) :
    translate_finish env nb 0 n path argv t = translate_commit env nb n path2 argv t := by
  unfold translate_finish
  rw [htr]
  simp [not_lt.2 hst, hrunner]

theorem get_argv_fuel_pos (env : Env) (fuel n : Nat) (t : Tracee) (r : Outcome (Nat × Argv))
    (h : get_argv env fuel n t = some r) : ∃ f, fuel = f + 1 := by
  cases fuel with
  | zero => simp [get_argv, count_child_argv] at h
  | succ f => exact ⟨f, rfl⟩

theorem translate_execve_plain (env : Env) (fuel n : Nat) (t : Tracee) (n1 : Nat)
    (l : List Str) (st : Int) (host : Str) (fd : OpenFile)
    (hrunner : env.runner = [])
    (hgs : 0 ≤ env.get_sysarg_path_status t.sysarg1)
    (hargv : get_argv env fuel n t = some (.ret 0 (n1, argv_of l)))
    (htr : env.translate_path t.sysarg1 = (st, host)) (hst : 0 ≤ st)
    (hopen : env.open_file host = .ok fd)
    (hsb : (read_shebang fd).status = 0)
    (hset : env.set_sysarg_path_status host = 0) :
    translate_execve env fuel n t = some (.ret 0 (n1, (set_sysarg_path env t host).2)) := by
  obtain ⟨f, rfl⟩ := get_argv_fuel_pos env fuel n t _ hargv
  have hexp := expand_shebang_not_script env n1 t.sysarg1 (argv_of l) st host fd _ htr hst hopen
    rfl (le_of_eq hsb)
  rw [hsb] at hexp
  have hloop := shebang_loop_stop env f (-1) n1 t.sysarg1 (argv_of l) 0 _ (le_refl _) hexp
  rw [translate_execve_of_loop env (f + 1) n t n1 (argv_of l) 0 (-1 + 1) n1 t.sysarg1 (argv_of l)
    hgs hargv hloop]
  rw [translate_finish_no_runner env _ n1 t.sysarg1 (argv_of l) t st host hrunner htr hst]
  unfold translate_commit
  rw [if_neg (by simp [hrunner])]
  have hst := (set_sysarg_path_ok env t host (le_of_eq hset.symm)).1
  cases hres : set_sysarg_path env t host with
  | mk status t2 =>
    rw [hres, hset] at hst
    simp only at hst ⊢
    rw [hst]
    simp [translate_end, argv_of, argv_entries_terminated]

theorem translate_execve_failed_expansion (env : Env) (fuel n : Nat) (t : Tracee) (n1 : Nat)
    (l : List Str) (st : Int) (host : Str) (fd : OpenFile)
    (hgs : 0 ≤ env.get_sysarg_path_status t.sysarg1)
    (hargv : get_argv env fuel n t = some (.ret 0 (n1, argv_of l)))
    (htr : env.translate_path t.sysarg1 = (st, host)) (hst : 0 ≤ st)
    (hopen : env.open_file host = .ok fd)
    (hsb : (read_shebang fd).status < 0) :
    translate_execve env fuel n t = some (.ret (read_shebang fd).status (n1, t)) := by
  obtain ⟨f, rfl⟩ := get_argv_fuel_pos env fuel n t _ hargv
  have hexp := expand_shebang_not_script env n1 t.sysarg1 (argv_of l) st host fd _ htr hst hopen
    rfl (le_of_lt hsb)
  have hloop := shebang_loop_stop env f (-1) n1 t.sysarg1 (argv_of l) _ _ (le_of_lt hsb) hexp
  rw [translate_execve_of_loop env (f + 1) n t n1 (argv_of l) _ (-1 + 1) n1 t.sysarg1 (argv_of l)
    hgs hargv hloop]
  unfold translate_finish
  rw [if_pos hsb]
  simp [translate_end, argv_of, argv_entries_terminated, hsb]

theorem slurp_argument_eof (interp : List Nat) (l : List Nat) :
    ∀ (i : Nat) (arg : List Nat) (c : Nat),
      (∀ b ∈ c :: l, ¬ eol b) → i + l.length < ARG_MAX →
      (slurp_argument interp i arg c l).status = 0 := by
  induction l with
  | nil =>
    intro i arg c h hlen
    have hc : ¬ eol c := h c (List.mem_cons_self _ _)
    rw [slurp_argument, if_pos (by simpa using hlen), if_neg hc]
  | cons q l ih =>
    intro i arg c h hlen
    have hc : ¬ eol c := h c (List.mem_cons_self _ _)
    rw [slurp_argument, if_pos (by simp at hlen; omega), if_neg hc]
    exact ih (i + 1) _ q (fun b hb => h b (List.mem_cons_of_mem _ hb)) (by simp at hlen; omega)

theorem read_shebang_too_long (fd : OpenFile) (body : List Nat)
    (hdata : fd.data = [35, 33] ++ body) (hlen : PATH_MAX < body.length)
    (hbody : ∀ b ∈ body, ¬ blank b ∧ ¬ eol b ∧ b ≠ 0) :
    (read_shebang fd).status = -ENAMETOOLONG := by
  obtain ⟨p, tl, rfl⟩ : ∃ p tl, body = p :: tl := by
    cases body with
    | nil => simp at hlen
    | cons p tl => exact ⟨p, tl, rfl⟩
  simp only [List.length_cons] at hlen
  have hsplit : tl = tl.take (PATH_MAX - 1) ++ tl.drop (PATH_MAX - 1) :=
    (List.take_append_drop _ _).symm
  obtain ⟨x, rest, hx⟩ : ∃ x rest, tl.drop (PATH_MAX - 1) = x :: rest := by
    cases h : tl.drop (PATH_MAX - 1) with
    | nil =>
      have := congrArg List.length h
      simp only [List.length_drop, List.length_nil] at this
      unfold PATH_MAX at this hlen
      omega
    | cons x rest => exact ⟨x, rest, rfl⟩
  rw [hx] at hsplit
  have htake : (tl.take (PATH_MAX - 1)).length = PATH_MAX - 1 := by
    rw [List.length_take]; unfold PATH_MAX at hlen ⊢; omega
  have hp := hbody p (List.mem_cons_self _ _)
  unfold read_shebang
  have hd : fd.data = 35 :: 33 :: ([] ++ p :: (tl.take (PATH_MAX - 1) ++ x :: rest)) := by
    rw [hdata, ← hsplit]; rfl
  rw [hd]
  simp only [ne_eq, not_true_eq_false, or_self, if_false]
  rw [skip_leading_blanks fd.fail [] p _ (by simp) hp.1]
  simp only
  rw [slurp_interpreter_plain fd.fail (tl.take (PATH_MAX - 1)) 0 [] p x rest
    (by
      intro b hb
      rcases List.mem_cons.1 hb with h | h
      · rw [h]; exact hp
      · exact hbody b (List.mem_cons_of_mem _ (List.mem_of_mem_take h)))
    (by rw [htake]; unfold PATH_MAX; omega) rfl (by omega)]
  rw [htake]
  have hi : ¬ (0 + 1 + (PATH_MAX - 1) < PATH_MAX) := by unfold PATH_MAX; omega
  cases rest <;> rw [slurp_interpreter, if_neg hi]

theorem read_shebang_blank_in_long_line :
    (read_shebang ⟨blank_in_long_line, none⟩).status = 0 := by
  unfold read_shebang
  have hd : (⟨blank_in_long_line, none⟩ : OpenFile).data
      = 35 :: 33 :: ([] ++ 97 :: ([] ++ 32 :: ([] ++ 98 :: List.replicate 4997 99))) := rfl
  rw [hd]
  simp only [ne_eq, not_true_eq_false, or_self, if_false]
  rw [skip_leading_blanks none [] 97 _ (by simp) (by decide)]
  simp only
  rw [slurp_interpreter_plain none [] 0 [] 97 32 _ (by decide) (by decide) rfl (by omega)]
  rw [slurp_interpreter_blanks none [] _ _ 32 98 _ (by decide) (by decide)]
  rw [slurp_interpreter_goto none _ _ 98 _ (by decide) (by decide) (by decide) (by decide)]
  apply slurp_argument_eof
  · intro b hb
    rcases List.mem_cons.1 hb with h | h
    · rw [h]; decide
    · rw [List.eq_of_mem_replicate h]; decide
  · rw [List.length_replicate]; decide

/-- C9, as stated, fails: a script made of `#!` and 5000 bytes none of which is
a newline or a carriage return, but with a blank followed by another byte among
them, is parsed up to the end of file in the argument loop; `expand_shebang`
then reports "not a script" and `translate_execve` returns 0 and rewrites the
first system-call argument. -/
theorem translate_execve_shebang_too_long_counterexample :
    blank_in_long_line.take 2 = [35, 33]
    ∧ (blank_in_long_line.drop 2).length = 5000
    ∧ (∀ b ∈ blank_in_long_line.drop 2, b ≠ LF ∧ b ≠ CR)
    ∧ translate_execve (demo_env [] [(bytes "/tmp/new_root/bin/long", blank_in_long_line)]) 3 0
        (demo_tracee (bytes "/bin/long") [bytes "long"])
      = some (.ret 0 (2, (set_sysarg_path
          (demo_env [] [(bytes "/tmp/new_root/bin/long", blank_in_long_line)])
          (demo_tracee (bytes "/bin/long") [bytes "long"]) (bytes "/tmp/new_root/bin/long")).2))
    ∧ (0 : Int) ≠ -ENAMETOOLONG := by
  refine ⟨rfl, ?_, ?_, ?_, by decide⟩
  · show (List.replicate 4997 99).length + 3 = 5000
    rw [List.length_replicate]
  · intro b hb
    have hb2 : b ∈ 97 :: 32 :: 98 :: List.replicate 4997 99 := hb
    simp only [List.mem_cons] at hb2
    rcases hb2 with h | h | h | h
    · rw [h]; decide
    · rw [h]; decide
    · rw [h]; decide
    · rw [List.eq_of_mem_replicate h]; decide
  · exact translate_execve_plain _ 3 0 _ 2 [bytes "long"] 0 (bytes "/tmp/new_root/bin/long")
      ⟨blank_in_long_line, none⟩ rfl (by decide) (by decide) rfl (by decide) (by rfl)
      read_shebang_blank_in_long_line rfl

/-- C9, amended: a script made of `#!` and 5000 bytes none of which is a
newline, a carriage return, a space, a tab or NUL makes `translate_execve`
return `-ENAMETOOLONG` and leave the tracee as it was: no write to its memory,
and the first and second system-call arguments and the stack pointer are
unchanged. -/
theorem translate_execve_shebang_too_long (env : Env) (fuel n : Nat) (t : Tracee) (n1 : Nat)
    (l : List Str) (st : Int) (host : Str) (fd : OpenFile) (body : List Nat)
    (hgs : 0 ≤ env.get_sysarg_path_status t.sysarg1)
    (hargv : get_argv env fuel n t = some (.ret 0 (n1, argv_of l)))
    (htr : env.translate_path t.sysarg1 = (st, host)) (hst : 0 ≤ st)
    (hopen : env.open_file host = .ok fd)
    (hdata : fd.data = [35, 33] ++ body) (hlen : body.length = 5000)
    (hbody : ∀ b ∈ body, b ≠ LF ∧ b ≠ CR ∧ b ≠ SPACE ∧ b ≠ TAB ∧ b ≠ 0) :
    translate_execve env fuel n t = some (.ret (-ENAMETOOLONG) (n1, t)) := by
  have hsb := read_shebang_too_long fd body hdata (by rw [hlen]; decide)
    (fun b hb => ⟨fun h => h.elim (hbody b hb).2.2.1 (hbody b hb).2.2.2.1,
      fun h => h.elim (hbody b hb).1 (hbody b hb).2.1, (hbody b hb).2.2.2.2⟩)
  have := translate_execve_failed_expansion env fuel n t n1 l st host fd hgs hargv htr hst hopen
    (by rw [hsb]; decide)
  rw [hsb] at this
  exact this

theorem translate_execve_shebang_too_long_witness :
    translate_execve (demo_env [] [(bytes "/tmp/new_root/bin/long", long_line)]) 3 0
        (demo_tracee (bytes "/bin/long") [bytes "long"])
      = some (.ret (-ENAMETOOLONG) (2, demo_tracee (bytes "/bin/long") [bytes "long"])) :=
  translate_execve_shebang_too_long (demo_env [] [(bytes "/tmp/new_root/bin/long", long_line)])
    3 0 (demo_tracee (bytes "/bin/long") [bytes "long"]) 2 [bytes "long"] 0
    (bytes "/tmp/new_root/bin/long") ⟨long_line, none⟩ (List.replicate 5000 97)
    (by decide) (by decide) rfl (by decide) (by rfl) rfl (List.length_replicate _ _)
    (fun b hb => by rw [List.eq_of_mem_replicate hb]; decide)

/-- C8, as stated, fails: in the scenario `translate_execve` succeeds and the
first system-call argument names the host translation of `/c`, but the argument
vector read back from the tracee is `/c, arg, /b, /a, x`, not
`/c, arg, /b, x`: the guest path `/a` of the first iteration stays in it. -/
theorem translate_execve_nested_counterexample :
    translate_execve nested_env 4 0 nested_tracee
        = some (.ret 63 (11, final_tracee nested_tracee
            (translate_execve nested_env 4 0 nested_tracee)))
    ∧ (final_tracee nested_tracee (translate_execve nested_env 4 0 nested_tracee)).sysarg1
        = bytes "/tmp/new_root/c"
    ∧ get_argv nested_env 7 11
          (final_tracee nested_tracee (translate_execve nested_env 4 0 nested_tracee))
        = some (.ret 0 (17, argv_of [bytes "/c", bytes "arg", bytes "/b", bytes "/a", bytes "x"]))
    ∧ argv_of [bytes "/c", bytes "arg", bytes "/b", bytes "/a", bytes "x"]
        ≠ argv_of [bytes "/c", bytes "arg", bytes "/b", bytes "x"] := by
  refine ⟨by rfl, by decide, by decide, by decide⟩

/-- C8, amended: in the nested scenario (`/a` begins with `#!/b` and a newline,
`/b` with `#!/c arg` and a newline, `/c` does not begin with `#!`, no runner,
guest path `/a`, argument vector `a, x`), when translations, opens,
allocations, register accesses and writes succeed and nothing wraps,
`translate_execve` succeeds, the first system-call argument names the host
translation of `/c`, and the argument vector read back from the tracee is
exactly `/c, arg, /b, /a, x`. -/
theorem translate_execve_nested_shebangs (env : Env) (fuel fuel2 n : Nat) (t : Tracee)
    (n1 : Nat) (stA stB stC : Int) (hostA hostB hostC : Str) (fdA fdB fdC : OpenFile)
    (restA restB : List Nat)
    (hW : 0 < env.W) (hrunner : env.runner = []) (halloc : ∀ m, env.alloc_ok m = true)
    (hpath : t.sysarg1 = bytes "/a")
    (hgs : 0 ≤ env.get_sysarg_path_status t.sysarg1)
    (hargv : get_argv env fuel n t = some (.ret 0 (n1, argv_of [bytes "a", bytes "x"])))
    (htrA : env.translate_path (bytes "/a") = (stA, hostA)) (hstA : 0 ≤ stA)
    (hopenA : env.open_file hostA = .ok fdA) (hdataA : fdA.data = bytes "#!/b\n" ++ restA)
    (htrB : env.translate_path (bytes "/b") = (stB, hostB)) (hstB : 0 ≤ stB)
    (hopenB : env.open_file hostB = .ok fdB) (hdataB : fdB.data = bytes "#!/c arg\n" ++ restB)
    (htrC : env.translate_path (bytes "/c") = (stC, hostC)) (hstC : 0 ≤ stC)
    (hopenC : env.open_file hostC = .ok fdC)
    (hnotC : fdC.data.take 2 ≠ [35, 33]) (hfailC : fdC.data = [] → fdC.fail = none)
    (hpeek : t.peekuser_ok = true) (hpoke : t.pokeuser_ok = true)
    (hM : t.sp < word_mod env.W)
    (hsz : argv_size env.W [bytes "/c", bytes "arg", bytes "/b", bytes "/a", bytes "x"] ≤ t.sp)
    (hmap : ∀ x,
      t.sp - argv_size env.W [bytes "/c", bytes "arg", bytes "/b", bytes "/a", bytes "x"] ≤ x →
      x < t.sp → t.mapped x = true)
    (hset : 0 ≤ env.set_sysarg_path_status hostC)
    (hfuel : 3 ≤ fuel) (hfuel2 : 5 < fuel2) :
    ∃ (status : Int) (n2 : Nat) (t2 : Tracee),
      translate_execve env fuel n t = some (.ret status (n2, t2)) ∧ 0 ≤ status
      ∧ t2.sysarg1 = hostC
      ∧ get_argv env fuel2 n2 t2
          = some (.ret 0 (n2 + 1 + 5,
              argv_of [bytes "/c", bytes "arg", bytes "/b", bytes "/a", bytes "x"])) := by
  obtain ⟨f, rfl⟩ : ∃ f, fuel = f + 3 := ⟨fuel - 3, by omega⟩
  have hsbA := read_shebang_no_argument fdA [] (bytes "/b") [] LF restA
    (by rw [hdataA]; rfl) (by simp) (by simp) (by decide) (by decide) (Or.inl rfl) (by decide)
  have hsbB := read_shebang_argument fdB [] (bytes "/c") (bytes " ") (bytes "arg") [] LF restB
    (by rw [hdataB]; rfl) (by simp) (by decide) (by simp) (by decide) (by decide) (by decide)
    (by decide) (by decide) (by decide) (Or.inl rfl) (by decide) (by decide)
  have hexp1 := expand_shebang_one env n1 (bytes "/a") (bytes "a") [bytes "x"] [] stA hostA fdA
    _ _ htrA hstA hopenA hsbA halloc
  have hexp2 := expand_shebang_two env (n1 + 3) (bytes "/b") (bytes "/b")
    [bytes "/a", bytes "x"] [] stB hostB fdB _ _ htrB hstB hopenB hsbB halloc
  have hc1 : cstr (bytes "/b" ++ List.replicate (([] : List Nat).length + 1) 0) = bytes "/b" := by
    decide
  have hc2 : cstr (bytes "/c" ++ List.replicate (bytes " ").length 0) = bytes "/c" := by decide
  have hc3 : cstr (strip_trailing (bytes "arg" ++ [] ++ [0]) ((bytes "arg").length
      + ([] : List Nat).length - 1)) = bytes "arg" := by decide
  rw [hc1] at hexp1
  rw [hc2, hc3] at hexp2
  have hexp3 := expand_shebang_not_script env (n1 + 3 + 4) (bytes "/c")
    (argv_of [bytes "/c", bytes "arg", bytes "/b", bytes "/a", bytes "x"]) stC hostC fdC _
    htrC hstC hopenC (read_shebang_not_script fdC hnotC hfailC) (le_refl _)
  have hloop : shebang_loop env (f + 3) (-1) n1 t.sysarg1 (argv_of [bytes "a", bytes "x"])
      = some (.ret 0 (-1 + 1 + 1 + 1, n1 + 3 + 4, bytes "/c",
          argv_of [bytes "/c", bytes "arg", bytes "/b", bytes "/a", bytes "x"])) := by
    rw [hpath, shebang_loop_continue env (f + 2) (-1) n1 (bytes "/a") _ _ _ _
      (by simpa [argv_of] using hexp1)]
    rw [shebang_loop_continue env (f + 1) (-1 + 1) (n1 + 3) (bytes "/b") _ _ _ _
      (by simpa [argv_of] using hexp2)]
    exact shebang_loop_stop env f (-1 + 1 + 1) (n1 + 3 + 4) (bytes "/c") _ 0 _ (le_refl _) hexp3
  obtain ⟨t2, hcommit, hs1, hs2, -, -, htab, hstr, hnz⟩ :=
    translate_commit_ok env (-1 + 1 + 1 + 1) (n1 + 3 + 4) hostC
      [bytes "/c", bytes "arg", bytes "/b", bytes "/a", bytes "x"] [] t
      (Or.inl (by decide)) hW (halloc _) hpeek hpoke hM hsz hmap hset
  refine ⟨(argv_size env.W [bytes "/c", bytes "arg", bytes "/b", bytes "/a", bytes "x"] : Nat)
      + env.set_sysarg_path_status hostC, n1 + 3 + 4 + 1, t2, ?_, by omega, hs1, ?_⟩
  · rw [translate_execve_of_loop env (f + 3) n t n1 _ 0 _ _ _ _ hgs hargv hloop,
      translate_finish_no_runner env _ _ (bytes "/c") _ t stC hostC hrunner htrC hstC]
    exact congrArg some hcommit
  · have hA : argv_size env.W [bytes "/c", bytes "arg", bytes "/b", bytes "/a", bytes "x"]
        = strings_size [bytes "/c", bytes "arg", bytes "/b", bytes "/a", bytes "x"]
          + (5 + 1) * env.W := rfl
    have hlt : t2.sysarg2
        + [bytes "/c", bytes "arg", bytes "/b", bytes "/a", bytes "x"].length * env.W
        < word_mod env.W := by
      rw [hs2]
      have : (5 + 1) * env.W = 5 * env.W + env.W := by ring
      simp only [List.length_cons, List.length_nil]
      omega
    exact get_argv_of_layout env t2 fuel2 (n1 + 3 + 4 + 1) _ _ htab hstr
      (fun p hp => (hnz p hp).1) (by decide) (by decide) hlt (by simpa using hfuel2) halloc

theorem translate_execve_nested_shebangs_witness :
    ∃ (status : Int) (n2 : Nat) (t2 : Tracee),
      translate_execve nested_env 4 0 nested_tracee = some (.ret status (n2, t2)) ∧ 0 ≤ status
      ∧ t2.sysarg1 = bytes "/tmp/new_root/c"
      ∧ get_argv nested_env 7 n2 t2
          = some (.ret 0 (n2 + 1 + 5,
              argv_of [bytes "/c", bytes "arg", bytes "/b", bytes "/a", bytes "x"])) :=
  translate_execve_nested_shebangs nested_env 4 7 0 nested_tracee 3 0 0 0
    (bytes "/tmp/new_root/a") (bytes "/tmp/new_root/b") (bytes "/tmp/new_root/c")
    ⟨bytes "#!/b\n", none⟩ ⟨bytes "#!/c arg\n", none⟩ ⟨bytes "\x7fELF", none⟩ [] []
    (by decide) rfl (fun _ => rfl) rfl (by decide) (by decide) rfl (by decide) (by rfl)
    (by decide) rfl (by decide) (by rfl) (by decide) rfl (by decide) (by rfl) (by decide)
    (by decide) rfl rfl (by decide) (by decide) (fun _ _ _ => rfl) (by decide) (by decide)
    (by decide)

/-! ## Termination of the shebang loop -/

theorem read_end_nonpos (fail : Option Nat) : read_end fail ≤ 0 := by
  cases fail with
  | none => simp [read_end]
  | some e => simp [read_end]

theorem slurp_argument_status (interp : List Nat) (rest : List Nat) :
    ∀ (i : Nat) (arg : List Nat) (tmp : Nat),
      (slurp_argument interp i arg tmp rest).status = 0
        ∨ (slurp_argument interp i arg tmp rest).status = 1
        ∨ (slurp_argument interp i arg tmp rest).status = 2 := by
  induction rest with
  | nil =>
    intro i arg tmp
    rw [slurp_argument]
    split_ifs <;> simp
  | cons b r ih =>
    intro i arg tmp
    rw [slurp_argument]
    split_ifs
    · simp
    · exact ih _ _ _
    · simp

theorem slurp_interpreter_status (fail : Option Nat) (rest : List Nat) :
    ∀ (i : Nat) (buf : List Nat) (tmp : Nat),
      (slurp_interpreter fail i buf tmp rest).status ≤ 0
        ∨ (slurp_interpreter fail i buf tmp rest).status = 1
        ∨ (slurp_interpreter fail i buf tmp rest).status = 2 := by
  induction rest with
  | nil =>
    intro i buf tmp
    rw [slurp_interpreter]
    split_ifs
    · left; exact read_end_nonpos fail
    · right; left; rfl
    · rcases slurp_argument_status buf [] 0 [] tmp with h | h | h
      · left; rw [h]
      · right; left; exact h
      · right; right; exact h
    · left; exact read_end_nonpos fail
    · left; show (-ENAMETOOLONG : Int) ≤ 0; decide
  | cons b r ih =>
    intro i buf tmp
    rw [slurp_interpreter]
    split_ifs
    · exact ih _ _ _
    · right; left; rfl
    · rcases slurp_argument_status buf (b :: r) 0 [] tmp with h | h | h
      · left; rw [h]
      · right; left; exact h
      · right; right; exact h
    · exact ih _ _ _
    · left; show (-ENAMETOOLONG : Int) ≤ 0; decide

theorem skip_leading_tail (fail : Option Nat) (l : List Nat) :
    (∃ s, skip_leading fail l = .inl s ∧ s ≤ 0)
      ∨ ∃ tmp r, skip_leading fail l = .inr (tmp, r) := by
  induction l with
  | nil => left; exact ⟨_, rfl, read_end_nonpos fail⟩
  | cons b r ih =>
    rw [skip_leading]
    split_ifs
    · exact ih
    · right; exact ⟨b, r, rfl⟩

theorem read_shebang_status (fd : OpenFile) :
    (read_shebang fd).status ≤ 0 ∨ (read_shebang fd).status = 1
      ∨ (read_shebang fd).status = 2 := by
  unfold read_shebang
  cases fd.data with
  | nil => left; exact read_end_nonpos fd.fail
  | cons c0 tl =>
    cases tl with
    | nil => left; simp
    | cons c1 rest =>
      simp only
      split_ifs
      · left; simp
      · rcases skip_leading_tail fd.fail rest with ⟨s, h, hs⟩ | ⟨tmp, r, h⟩
        · rw [h]; left; exact hs
        · rw [h]; exact slurp_interpreter_status fd.fail r 0 [] tmp

theorem expand_shebang_cases (env : Env) (n : Nat) (filename a0 : Str) (as : List Str)
    (extra : Argv) :
    (∃ status st, expand_shebang env n filename (some a0 :: (as.map some ++ none :: extra))
        = .ret status st ∧ status ≤ 0)
      ∨ ∃ (n1 : Nat) (p1 c0 : Str) (cs : List Str),
          expand_shebang env n filename (some a0 :: (as.map some ++ none :: extra))
          = .ret 1 (n1, p1, some c0 :: (cs.map some ++ none :: []))
        ∧ shebang_interpreter env filename = some p1 := by
  unfold expand_shebang shebang_interpreter
  cases htr : env.translate_path filename with
  | mk status path =>
    simp only
    by_cases hst : status < 0
    · left; exact ⟨status, _, by rw [if_pos hst], le_of_lt hst⟩
    · rw [if_neg hst, if_neg hst]
      cases hopen : env.open_file path with
      | error e => left; exact ⟨_, _, rfl, by simp⟩
      | ok fd =>
        simp only
        cases hsb : read_shebang fd with
        | mk s interp arg =>
          have hstat := read_shebang_status fd
          rw [hsb] at hstat
          simp only at hstat ⊢
          by_cases hs : s ≤ 0
          · left; exact ⟨s, _, by rw [if_pos hs], hs⟩
          · rw [if_neg hs, if_neg hs]
            rcases hstat with h | h | h
            · exact absurd h hs
            · subst h
              simp only [if_true]
              rcases substitute_argv0_cases env n a0 as [cstr interp, filename] extra
                (by simp) with h1 | ⟨st, h1⟩
              · right
                refine ⟨n + 1 + 2, cstr interp, cstr interp, filename :: as, ?_, rfl⟩
                rw [h1]
                simp [argv_of]
              · left
                obtain ⟨n1, a1⟩ := st
                refine ⟨-ENOMEM, (n1, filename, a1), ?_, by decide⟩
                rw [h1]
                simp [ENOMEM]
            · subst h
              rw [if_neg (by decide)]
              simp only [if_true]
              rcases substitute_argv0_cases env n a0 as [cstr interp, cstr arg, filename] extra
                (by simp) with h1 | ⟨st, h1⟩
              · right
                refine ⟨n + 1 + 3, cstr interp, cstr interp, cstr arg :: filename :: as, ?_, rfl⟩
                rw [h1]
                simp [argv_of]
              · left
                obtain ⟨n1, a1⟩ := st
                refine ⟨-ENOMEM, (n1, filename, a1), ?_, by decide⟩
                rw [h1]
                simp [ENOMEM]

theorem shebang_loop_ranked (env : Env) (rank : Str → Nat)
    (hrank : ∀ p q, shebang_interpreter env p = some q → rank q < rank p) :
    ∀ (fuel : Nat) (nb : Int) (n : Nat) (path a0 : Str) (as : List Str) (extra : Argv),
      rank path < fuel →
      ∃ (status : Int) (st : Int × Nat × Str × Argv),
        shebang_loop env fuel nb n path (some a0 :: (as.map some ++ none :: extra))
          = some (.ret status st)
        ∧ status ≤ 0 ∧ st.1 ≤ nb + (rank path + 1 : Nat) := by
  intro fuel
  induction fuel with
  | zero => intro nb n path a0 as extra h; omega
  | succ f ih =>
    intro nb n path a0 as extra h
    rcases expand_shebang_cases env n path a0 as extra with
      ⟨status, st, hexp, hs⟩ | ⟨n1, p1, c0, cs, hexp, hint⟩
    · refine ⟨status, (nb + 1, st), shebang_loop_stop env f nb n path _ status st hs hexp, hs, ?_⟩
      show nb + 1 ≤ nb + ((rank path + 1 : Nat) : Int)
      omega
    · have hlt := hrank path p1 hint
      obtain ⟨status, st, hloop, hs, hnb⟩ := ih (nb + 1) n1 p1 c0 cs [] (by omega)
      refine ⟨status, st, ?_, hs, ?_⟩
      · rw [shebang_loop_continue env f nb n path _ n1 p1 _ hexp]
        exact hloop
      · omega

theorem shebang_loop_self (fuel : Nat) : ∀ (nb : Int) (n : Nat) (a0 : Str) (as : List Str),
    shebang_loop loop_env fuel nb n (bytes "/a") (some a0 :: (as.map some ++ none :: []))
      = none := by
  induction fuel with
  | zero => intro nb n a0 as; rfl
  | succ f ih =>
    intro nb n a0 as
    have hexp := expand_shebang_one loop_env n (bytes "/a") a0 as [] 0 (bytes "/tmp/new_root/a")
      ⟨bytes "#!/a\n", none⟩ (bytes "/a" ++ [0]) [] rfl (by decide) (by rfl) (by decide)
      (fun _ => rfl)
    have hc : cstr (bytes "/a" ++ [0]) = bytes "/a" := by decide
    rw [hc] at hexp
    rw [shebang_loop_continue loop_env f nb n (bytes "/a") _ _ _ _ hexp]
    exact ih (nb + 1) (n + 3) (bytes "/a") (bytes "/a" :: as)

/-- C10, as stated, fails: with the single script `/a` beginning with `#!/a`
and a newline, and allocations that succeed, every call of `expand_shebang`
returns 1, so the loop reaches no call returning a value `<= 0`, whatever the
number of iterations allowed. -/
theorem shebang_loop_terminates_counterexample :
    ¬ ∃ (fuel : Nat) (r : Outcome (Int × Nat × Str × Argv)),
      shebang_loop loop_env fuel (-1) 0 (bytes "/a") (argv_of [bytes "a"]) = some r := by
  rintro ⟨fuel, r, h⟩
  have := shebang_loop_self fuel (-1) 0 (bytes "a") []
  rw [show argv_of [bytes "a"] = some (bytes "a") :: (([] : List Str).map some ++ none :: [])
    from rfl, this] at h
  cases h

/-- C10, amended: when the scripts of the filesystem do not form a cycle, that
is when a rank on guest paths decreases from every script to its interpreter,
then for every guest path and every non-empty argument vector the loop of
`translate_execve` reaches a call of `expand_shebang` returning a value `<= 0`
after at most `rank path + 1` iterations. -/
theorem shebang_loop_terminates (env : Env) (rank : Str → Nat) (fuel : Nat) (nb : Int)
    (n : Nat) (path a0 : Str) (as : List Str) (extra : Argv)
    (hrank : ∀ p q, shebang_interpreter env p = some q → rank q < rank p)
    (hfuel : rank path < fuel) :
    ∃ (status : Int) (st : Int × Nat × Str × Argv),
      shebang_loop env fuel nb n path (some a0 :: (as.map some ++ none :: extra))
        = some (.ret status st)
      ∧ status ≤ 0 ∧ st.1 ≤ nb + (rank path + 1 : Nat) :=
  shebang_loop_ranked env rank hrank fuel nb n path a0 as extra hfuel

theorem chain_rank_decreases (p q : Str) (h : shebang_interpreter chain_env p = some q) :
    chain_rank q < chain_rank p := by
  by_cases hp : p = bytes "/a"
  · subst hp
    have hq : shebang_interpreter chain_env (bytes "/a") = some (bytes "/b") := by decide
    rw [hq] at h
    injection h with h
    subst h
    decide
  · exfalso
    simp [shebang_interpreter, chain_env, hp] at h

theorem shebang_loop_terminates_witness :
    ∃ (status : Int) (st : Int × Nat × Str × Argv),
      shebang_loop chain_env 2 (-1) 0 (bytes "/a")
          (some (bytes "a") :: ([bytes "x"].map some ++ none :: []))
        = some (.ret status st)
      ∧ status ≤ 0 ∧ st.1 ≤ -1 + (chain_rank (bytes "/a") + 1 : Nat) :=
  shebang_loop_terminates chain_env chain_rank 2 (-1) 0 (bytes "/a") (bytes "a") [bytes "x"] []
    chain_rank_decreases (by decide)

/-! ## The access checks of the runner path -/

theorem translate_finish_access (env : Env) (nb : Int) (n : Nat) (path : Str) (l : List Str)
    (t : Tracee) (st : Int) (path2 : Str) (hrunner : env.runner ≠ [])
    (htr : env.translate_path path = (st, path2)) (hst : 0 ≤ st) :
    (env.access path2 F_OK < 0 →
      translate_finish env nb 0 n path (argv_of l) t = .ret (-ENOENT) (n, t))
    ∧ (0 ≤ env.access path2 F_OK →
        (env.access path2 R_OK < 0 ∨ env.access path2 X_OK < 0) →
        translate_finish env nb 0 n path (argv_of l) t = .ret (-EACCES) (n, t)) := by
  have hend : ∀ e : Int, e < 0 → translate_end e 0 n (argv_of l) t = .ret e (n, t) := by
    intro e he
    simp [translate_end, argv_of, argv_entries_terminated, he]
  refine ⟨fun hF => ?_, fun hF hRX => ?_⟩
  · unfold translate_finish
    rw [htr]
    simp only [lt_self_iff_false, if_false, not_lt.2 hst, hrunner, ne_eq, not_false_eq_true,
      if_true, hF]
    exact hend _ (by decide)
  · unfold translate_finish
    rw [htr]
    simp only [lt_self_iff_false, if_false, not_lt.2 hst, hrunner, ne_eq, not_false_eq_true,
      if_true, not_lt.2 hF]
    by_cases hR : env.access path2 R_OK < 0
    · rw [if_pos hR]; exact hend _ (by decide)
    · rw [if_neg hR]
      have hX : env.access path2 X_OK < 0 := hRX.resolve_left hR
      rw [if_pos hX]; exact hend _ (by decide)

/-- C11: runner access checks.  With a runner configured, when the shebang loop
ended with status 0 and the final guest path translates to the host path `H`,
`translate_execve` returns `-ENOENT` if `access(H, F_OK)` fails, and `-EACCES`
if that check passes and `access(H, R_OK)` or `access(H, X_OK)` fails; in both
cases the tracee it leaves is the initial one: `set_argv` and `set_sysarg_path`
were not run, so memory, the log of writes, both system-call arguments and the
stack pointer are unchanged. -/
theorem translate_execve_runner_access (env : Env) (fuel n : Nat) (t : Tracee) (n1 : Nat)
    (argv : Argv) (nb : Int) (n2 : Nat) (G : Str) (l : List Str) (st : Int) (H : Str)
    (hrunner : env.runner ≠ [])
    (hgs : 0 ≤ env.get_sysarg_path_status t.sysarg1)
    (hargv : get_argv env fuel n t = some (.ret 0 (n1, argv)))
    (hloop : shebang_loop env fuel (-1) n1 t.sysarg1 argv
      = some (.ret 0 (nb, n2, G, argv_of l)))
    (htr : env.translate_path G = (st, H)) (hst : 0 ≤ st) :
    (env.access H F_OK < 0 →
      translate_execve env fuel n t = some (.ret (-ENOENT) (n2, t)))
    ∧ (0 ≤ env.access H F_OK → (env.access H R_OK < 0 ∨ env.access H X_OK < 0) →
        translate_execve env fuel n t = some (.ret (-EACCES) (n2, t))) := by
  have h := translate_finish_access env nb n2 G l t st H hrunner htr hst
  rw [translate_execve_of_loop env fuel n t n1 argv 0 nb n2 G (argv_of l) hgs hargv hloop]
  exact ⟨fun hF => congrArg some (h.1 hF), fun hF hRX => congrArg some (h.2 hF hRX)⟩

theorem translate_execve_runner_access_witness :
    translate_execve noexec_env 3 0 (demo_tracee (bytes "/bin/foo") [bytes "foo"])
      = some (.ret (-EACCES) (2, demo_tracee (bytes "/bin/foo") [bytes "foo"])) :=
  (translate_execve_runner_access noexec_env 3 0 (demo_tracee (bytes "/bin/foo") [bytes "foo"])
    2 (argv_of [bytes "foo"]) 0 2 (bytes "/bin/foo") [bytes "foo"] 0
    (bytes "/tmp/new_root/bin/foo") (by decide) (by decide) (by decide) (by rfl) rfl
    (by decide)).2 (by decide) (Or.inr (by decide))

/-! ## End of file inside the first line -/

theorem slurp_interpreter_eof (rest : List Nat) :
    ∀ (i : Nat) (buf : List Nat) (tmp : Nat),
      (∀ b ∈ tmp :: rest, ¬ eol b) → i + rest.length < PATH_MAX →
      (slurp_interpreter none i buf tmp rest).status = 0 := by
  induction rest with
  | nil =>
    intro i buf tmp h hlen
    have ht : ¬ eol tmp := h tmp (List.mem_cons_self _ _)
    rw [slurp_interpreter, if_pos (by simpa using hlen)]
    split_ifs
    · rfl
    · exact slurp_argument_eof buf [] 0 [] tmp h (by decide)
    · rfl
  | cons b r ih =>
    intro i buf tmp h hlen
    have ht : ¬ eol tmp := h tmp (List.mem_cons_self _ _)
    simp only [List.length_cons] at hlen
    rw [slurp_interpreter, if_pos (by omega)]
    split_ifs
    · exact ih (i + 1) _ b (fun x hx => h x (List.mem_cons_of_mem _ hx)) (by omega)
    · exact slurp_argument_eof buf (b :: r) 0 [] tmp h
        (by simp only [List.length_cons]; unfold PATH_MAX at hlen; unfold ARG_MAX; omega)
    · exact ih (i + 1) _ b (fun x hx => h x (List.mem_cons_of_mem _ hx)) (by omega)

theorem read_shebang_eof (fd : OpenFile) (body : List Nat)
    (hdata : fd.data = [35, 33] ++ body) (hfail : fd.fail = none)
    (hbody : ∀ b ∈ body, ¬ eol b) (hlen : body.length < PATH_MAX) :
    (read_shebang fd).status = 0 := by
  unfold read_shebang
  have hd : fd.data = 35 :: 33 :: body := by rw [hdata]; rfl
  rw [hd, hfail]
  simp only [ne_eq, not_true_eq_false, or_self, if_false]
  clear hd hdata
  induction body with
  | nil => rfl
  | cons b r ih =>
    simp only [List.length_cons] at hlen
    rw [skip_leading]
    split_ifs
    · exact ih (fun x hx => hbody x (List.mem_cons_of_mem _ hx)) (by omega)
    · exact slurp_interpreter_eof r 0 [] b hbody (by omega)

/-- C14: lenient short read.  A file that begins with `#!` and whose remaining
bytes, fewer than `PATH_MAX`, hold no newline and no carriage return before
the end of file makes `expand_shebang` return 0 ("not a script") and leave the
argument vector and the guest path as they were, whatever the bytes are. -/
theorem expand_shebang_short_read (env : Env) (n : Nat) (filename : Str) (argv : Argv)
    (st : Int) (host : Str) (fd : OpenFile) (body : List Nat)
    (htr : env.translate_path filename = (st, host)) (hst : 0 ≤ st)
    (hopen : env.open_file host = .ok fd)
    (hdata : fd.data = [35, 33] ++ body) (hfail : fd.fail = none)
    (hbody : ∀ b ∈ body, b ≠ LF ∧ b ≠ CR) (hlen : body.length < PATH_MAX) :
    expand_shebang env n filename argv = .ret 0 (n, filename, argv) := by
  have hs := read_shebang_eof fd body hdata hfail
    (fun b hb h => h.elim (hbody b hb).1 (hbody b hb).2) hlen
  have := expand_shebang_not_script env n filename argv st host fd _ htr hst hopen rfl
    (le_of_eq hs)
  rw [hs] at this
  exact this

theorem expand_shebang_short_read_witness :
    expand_shebang (demo_env [] [(bytes "/tmp/new_root/bin/foo", bytes "#! /bin/sh -x")]) 0
        (bytes "/bin/foo") (argv_of [bytes "foo"])
      = .ret 0 (0, bytes "/bin/foo", argv_of [bytes "foo"]) :=
  expand_shebang_short_read (demo_env [] [(bytes "/tmp/new_root/bin/foo", bytes "#! /bin/sh -x")])
    0 (bytes "/bin/foo") (argv_of [bytes "foo"]) 0 (bytes "/tmp/new_root/bin/foo")
    ⟨bytes "#! /bin/sh -x", none⟩ (bytes " /bin/sh -x") rfl (by decide) (by rfl) (by decide) rfl
    (by decide) (by decide)

/-! ## The limits `PATH_MAX` and `ARG_MAX` of the parser -/

theorem read_shebang_path_max (fd : OpenFile) (P : List Nat) (x : Nat) (rest : List Nat)
    (hdata : fd.data = [35, 33] ++ P ++ x :: rest) (hlen : P.length = PATH_MAX)
    (hP : ∀ b ∈ P, ¬ blank b ∧ ¬ eol b ∧ b ≠ 0) :
    (read_shebang fd).status = -ENAMETOOLONG := by
  obtain ⟨p, P1, rfl⟩ : ∃ p P1, P = p :: P1 := by
    cases P with
    | nil => simp [PATH_MAX] at hlen
    | cons p P1 => exact ⟨p, P1, rfl⟩
  simp only [List.length_cons] at hlen
  have hp := hP p (List.mem_cons_self _ _)
  unfold read_shebang
  have hd : fd.data = 35 :: 33 :: ([] ++ p :: (P1 ++ x :: rest)) := by rw [hdata]; simp
  rw [hd]
  simp only [ne_eq, not_true_eq_false, or_self, if_false]
  rw [skip_leading_blanks fd.fail [] p _ (by simp) hp.1]
  simp only
  rw [slurp_interpreter_plain fd.fail P1 0 [] p x rest hP (by omega) rfl (by omega)]
  have hi : ¬ (0 + 1 + P1.length < PATH_MAX) := by omega
  cases rest <;> rw [slurp_interpreter, if_neg hi]

/-- C15: exact interpreter length limit.  For a path `P` without space, tab,
newline, carriage return or NUL, a file `#!`, `P`, newline is accepted when
`P` has `PATH_MAX - 1` bytes (`expand_shebang` returns 1, the guest path
becomes `P` and a non-empty argument vector gets `P` and the old guest path in
front), and is rejected with `-ENAMETOOLONG`, the argument vector and the
guest path staying as they were, when `P` has `PATH_MAX` bytes. -/
theorem expand_shebang_length_limit (env : Env) (n : Nat) (filename a0 : Str) (as : List Str)
    (extra argv : Argv) (st : Int) (host : Str) (fd : OpenFile) (P rest : List Nat)
    (htr : env.translate_path filename = (st, host)) (hst : 0 ≤ st)
    (hopen : env.open_file host = .ok fd) (halloc : ∀ m, env.alloc_ok m = true)
    (hdata : fd.data = [35, 33] ++ P ++ [LF] ++ rest)
    (hP : ∀ b ∈ P, b ≠ SPACE ∧ b ≠ TAB ∧ b ≠ LF ∧ b ≠ CR ∧ b ≠ 0) :
    (P.length = PATH_MAX - 1 →
      expand_shebang env n filename (some a0 :: (as.map some ++ none :: extra))
        = .ret 1 (n + 3, P, argv_of (P :: filename :: as)))
    ∧ (P.length = PATH_MAX →
        expand_shebang env n filename argv = .ret (-ENAMETOOLONG) (n, filename, argv)) := by
  have hP2 : ∀ b ∈ P, ¬ blank b ∧ ¬ eol b ∧ b ≠ 0 := fun b hb =>
    ⟨fun h => h.elim (hP b hb).1 (hP b hb).2.1,
      fun h => h.elim (hP b hb).2.2.1 (hP b hb).2.2.2.1, (hP b hb).2.2.2.2⟩
  refine ⟨fun hlen => ?_, fun hlen => ?_⟩
  · have hne : P ≠ [] := by
      intro h; rw [h] at hlen; simp [PATH_MAX] at hlen
    have hsb := read_shebang_no_argument fd [] P [] LF rest (by simpa using hdata)
      (by simp) (by simp) hne hP2 (Or.inl rfl) (by simp [hlen, PATH_MAX])
    have h := expand_shebang_one env n filename a0 as extra st host fd _ _ htr hst hopen hsb
      halloc
    have hc : cstr (P ++ List.replicate (([] : List Nat).length + 1) 0) = P := by
      have := cstr_append_zeros P 0 [] (fun x hx => (hP x hx).2.2.2.2)
      simpa using this
    rw [hc] at h
    exact h
  · have hs := read_shebang_path_max fd P LF rest (by simpa using hdata) hlen hP2
    have := expand_shebang_not_script env n filename argv st host fd _ htr hst hopen rfl
      (by rw [hs]; decide)
    rw [hs] at this
    exact this

theorem expand_shebang_length_limit_witness :
    expand_shebang (demo_env [] [(bytes "/tmp/new_root/bin/foo", [35, 33] ++ longest_path ++ [LF])])
        0 (bytes "/bin/foo") (some (bytes "foo") :: ([bytes "x"].map some ++ none :: []))
      = .ret 1 (0 + 3, longest_path, argv_of (longest_path :: bytes "/bin/foo" :: [bytes "x"]))
    ∧ expand_shebang
        (demo_env [] [(bytes "/tmp/new_root/bin/foo", [35, 33] ++ (97 :: longest_path) ++ [LF])])
        0 (bytes "/bin/foo") (argv_of [bytes "foo", bytes "x"])
      = .ret (-ENAMETOOLONG) (0, bytes "/bin/foo", argv_of [bytes "foo", bytes "x"]) :=
  ⟨(expand_shebang_length_limit
      (demo_env [] [(bytes "/tmp/new_root/bin/foo", [35, 33] ++ longest_path ++ [LF])])
      0 (bytes "/bin/foo") (bytes "foo") [bytes "x"] [] [] 0 (bytes "/tmp/new_root/bin/foo")
      ⟨[35, 33] ++ longest_path ++ [LF], none⟩ longest_path [] rfl (by decide) (by rfl)
      (fun _ => rfl) (by simp)
      (fun b hb => by rw [List.eq_of_mem_replicate hb]; decide)).1
      (List.length_replicate _ _),
    (expand_shebang_length_limit
      (demo_env [] [(bytes "/tmp/new_root/bin/foo", [35, 33] ++ (97 :: longest_path) ++ [LF])])
      0 (bytes "/bin/foo") (bytes "foo") [bytes "x"] [] (argv_of [bytes "foo", bytes "x"]) 0
      (bytes "/tmp/new_root/bin/foo")
      ⟨[35, 33] ++ (97 :: longest_path) ++ [LF], none⟩ (97 :: longest_path) [] rfl (by decide)
      (by rfl) (fun _ => rfl) (by simp)
      (fun b hb => by
        rcases List.mem_cons.1 hb with h | h
        · rw [h]; decide
        · rw [List.eq_of_mem_replicate h]; decide)).2
      (by rw [List.length_cons, longest_path, List.length_replicate]; rfl)⟩

theorem read_shebang_long_argument (fd : OpenFile) (P A : List Nat) (x : Nat) (rest : List Nat)
    (hdata : fd.data = [35, 33] ++ P ++ [SPACE] ++ A ++ x :: rest)
    (hPne : P ≠ []) (hP : ∀ b ∈ P, ¬ blank b ∧ ¬ eol b ∧ b ≠ 0)
    (hplen : P.length < PATH_MAX - 1)
    (hA : ∀ b ∈ A, ¬ eol b) (hAlen : A.length = ARG_MAX)
    (hAhead : ∀ b, A.head? = some b → ¬ blank b) :
    read_shebang fd = ⟨1, P ++ [0], A.set 0 0⟩ := by
  obtain ⟨p, P1, rfl⟩ := List.exists_cons_of_ne_nil hPne
  obtain ⟨a, A1, rfl⟩ : ∃ a A1, A = a :: A1 := by
    cases A with
    | nil => simp [ARG_MAX] at hAlen
    | cons a A1 => exact ⟨a, A1, rfl⟩
  have hp := hP p (List.mem_cons_self _ _)
  have ha := hA a (List.mem_cons_self _ _)
  have hab : ¬ blank a := hAhead a rfl
  simp only [List.length_cons] at hplen hAlen
  have hd : fd.data = 35 :: 33 :: ([] ++ p :: (P1 ++ SPACE :: ([] ++ a :: (A1 ++ x :: rest)))) := by
    rw [hdata]; simp
  unfold read_shebang
  rw [hd]
  simp only [ne_eq, not_true_eq_false, or_self, if_false]
  rw [skip_leading_blanks fd.fail [] p _ (by simp) hp.1]
  simp only
  have hPM : PATH_MAX = 4096 := rfl
  rw [slurp_interpreter_plain fd.fail P1 0 [] p SPACE _ hP (by omega) rfl (by omega)]
  rw [slurp_interpreter_blanks fd.fail [] (0 + 1 + P1.length) _ SPACE a _
    (by intro b hb; rw [List.mem_singleton.1 hb]; exact Or.inl rfl) (by simp; omega)]
  have hi : 0 + 1 + P1.length + 1 + ([] : List Nat).length < PATH_MAX := by simp; omega
  have hprev : 1 < 0 + 1 + P1.length + 1 + ([] : List Nat).length ∧
      ([] ++ p :: P1 ++ List.replicate (1 + ([] : List Nat).length) 0).getD
        (0 + 1 + P1.length + 1 + ([] : List Nat).length - 1) 1 = 0 := by
    refine ⟨by omega, ?_⟩
    have e1 : [] ++ p :: P1 ++ List.replicate (1 + ([] : List Nat).length) 0
        = (p :: P1) ++ 0 :: [] := by
      simp
    have e2 : 0 + 1 + P1.length + 1 + ([] : List Nat).length - 1 = (p :: P1).length := by
      simp only [List.length_cons, List.length_nil]; omega
    rw [e1, e2, getD_append_cons_length]
  rw [slurp_interpreter_goto _ _ _ _ _ hi hab ha hprev]
  rw [slurp_argument_chars _ A1 0 [] a x rest hA (by omega)]
  have hi2 : ¬ (0 + 1 + A1.length < ARG_MAX) := by omega
  have hres : ∀ interp, slurp_argument interp (0 + 1 + A1.length) ([] ++ a :: A1) x rest
      = ⟨1, interp, ([] ++ a :: A1).set 0 0⟩ := by
    intro interp
    cases rest <;> rw [slurp_argument, if_neg hi2]
  rw [hres]
  simp

/-- C16: over-long argument is dropped.  For a file `#!`, `P`, a space, `A`,
`rest`, where the interpreter path `P` is non-empty, shorter than
`PATH_MAX - 1` and free of space, tab, newline, carriage return and NUL, `A`
has exactly `ARG_MAX` bytes, none a newline or a carriage return, the first
one not a space or a tab, and `rest` is non-empty, `expand_shebang` returns 1,
sets the guest path to `P` and rewrites a non-empty argument vector
`[a0, a1, ..., an]` to `[P, old guest path, a1, ..., an]`: the result for a
script without argument, with no entry derived from `A`. -/
theorem expand_shebang_long_argument (env : Env) (n : Nat) (filename a0 : Str) (as : List Str)
    (extra : Argv) (st : Int) (host : Str) (fd : OpenFile) (P A rest : List Nat)
    (htr : env.translate_path filename = (st, host)) (hst : 0 ≤ st)
    (hopen : env.open_file host = .ok fd) (halloc : ∀ m, env.alloc_ok m = true)
    (hdata : fd.data = [35, 33] ++ P ++ [SPACE] ++ A ++ rest)
    (hPne : P ≠ []) (hplen : P.length < PATH_MAX - 1)
    (hP : ∀ b ∈ P, b ≠ SPACE ∧ b ≠ TAB ∧ b ≠ LF ∧ b ≠ CR ∧ b ≠ 0)
    (hAlen : A.length = ARG_MAX) (hA : ∀ b ∈ A, b ≠ LF ∧ b ≠ CR)
    (hAhead : ∀ b, A.head? = some b → b ≠ SPACE ∧ b ≠ TAB)
    (hrest : rest ≠ []) :
    expand_shebang env n filename (some a0 :: (as.map some ++ none :: extra))
      = .ret 1 (n + 3, P, argv_of (P :: filename :: as)) := by
  obtain ⟨x, r, rfl⟩ := List.exists_cons_of_ne_nil hrest
  have hP2 : ∀ b ∈ P, ¬ blank b ∧ ¬ eol b ∧ b ≠ 0 := fun b hb =>
    ⟨fun h => h.elim (hP b hb).1 (hP b hb).2.1,
      fun h => h.elim (hP b hb).2.2.1 (hP b hb).2.2.2.1, (hP b hb).2.2.2.2⟩
  have hsb := read_shebang_long_argument fd P A x r hdata hPne hP2 hplen
    (fun b hb h => h.elim (hA b hb).1 (hA b hb).2) hAlen
    (fun b hb h => h.elim (hAhead b hb).1 (hAhead b hb).2)
  have h := expand_shebang_one env n filename a0 as extra st host fd _ _ htr hst hopen hsb
    halloc
  have hc : cstr (P ++ [0]) = P := by
    have := cstr_append_zeros P 0 [] (fun x hx => (hP x hx).2.2.2.2)
    simpa using this
  rw [hc] at h
  exact h

theorem expand_shebang_long_argument_witness :
    expand_shebang
        (demo_env [] [(bytes "/tmp/new_root/bin/foo",
          [35, 33] ++ bytes "/bin/sh" ++ [SPACE] ++ long_argument ++ [LF])])
        0 (bytes "/bin/foo") (some (bytes "foo") :: ([bytes "x"].map some ++ none :: []))
      = .ret 1 (0 + 3, bytes "/bin/sh", argv_of (bytes "/bin/sh" :: bytes "/bin/foo" :: [bytes "x"])) :=
  expand_shebang_long_argument
    (demo_env [] [(bytes "/tmp/new_root/bin/foo",
      [35, 33] ++ bytes "/bin/sh" ++ [SPACE] ++ long_argument ++ [LF])])
    0 (bytes "/bin/foo") (bytes "foo") [bytes "x"] [] 0 (bytes "/tmp/new_root/bin/foo")
    ⟨[35, 33] ++ bytes "/bin/sh" ++ [SPACE] ++ long_argument ++ [LF], none⟩
    (bytes "/bin/sh") long_argument [LF] rfl (by decide) (by rfl) (fun _ => rfl) rfl
    (by decide) (by decide) (by decide)
    (by rw [long_argument, List.length_cons, List.length_replicate]; rfl)
    (fun b hb => by
      rcases List.mem_cons.1 hb with h | h
      · rw [h]; decide
      · rw [List.eq_of_mem_replicate h]; decide)
    (fun b hb => by
      have h97 : some 97 = some b := hb
      rw [← Option.some.inj h97]; decide)
    (by simp)

/-! ## Alignment of the pointer table -/

theorem aligned_base_iff (W sp S N i : Nat) (hsp : sp % W = 0) (hsz : S + (N + 1) * W ≤ sp) :
    (sp - (S + (N + 1) * W) + i * W) % W = 0 ↔ S % W = 0 := by
  have hdsp : W ∣ sp := Nat.dvd_of_mod_eq_zero hsp
  have hdt : W ∣ (N + 1) * W := Dvd.intro_left _ rfl
  have hdi : W ∣ i * W := Dvd.intro_left _ rfl
  constructor
  · intro h
    have h1 : W ∣ sp - (S + (N + 1) * W) + i * W := Nat.dvd_of_mod_eq_zero h
    have h2 : W ∣ sp - (S + (N + 1) * W) := (Nat.dvd_add_left hdi).1 h1
    have h3 : W ∣ sp - (sp - (S + (N + 1) * W)) := Nat.dvd_sub' hdsp h2
    have h4 : sp - (sp - (S + (N + 1) * W)) = S + (N + 1) * W := by omega
    rw [h4] at h3
    exact Nat.mod_eq_zero_of_dvd ((Nat.dvd_add_left hdt).1 h3)
  · intro h
    have h1 : W ∣ S := Nat.dvd_of_mod_eq_zero h
    have h2 : W ∣ S + (N + 1) * W := (Nat.dvd_add_left hdt).2 h1
    have h3 : W ∣ sp - (S + (N + 1) * W) := Nat.dvd_sub' hdsp h2
    exact Nat.mod_eq_zero_of_dvd ((Nat.dvd_add_left hdi).2 h3)

/-- C12, as stated, fails: with 8-byte words, the stack pointer 65536 (a
multiple of 8) and the argument vector `a`, `set_argv` succeeds, copies the two
bytes of the string to 65534 and pokes the two words of the pointer table at
65518 and 65526, neither a multiple of 8; 65518 is the new argv base and the
new stack pointer. -/
theorem set_argv_alignment_counterexample :
    (demo_tracee (bytes "/bin/foo") [bytes "a"]).sp % (demo_env [] []).W = 0
    ∧ set_argv (demo_env [] []) 0 (demo_tracee (bytes "/bin/foo") [bytes "a"])
          (argv_of [bytes "a"])
        = .ret 18 (1, (Outcome.state (0, demo_tracee [] [])
            (set_argv (demo_env [] []) 0 (demo_tracee (bytes "/bin/foo") [bytes "a"])
              (argv_of [bytes "a"]))).2)
    ∧ (Outcome.state (0, demo_tracee [] [])
        (set_argv (demo_env [] []) 0 (demo_tracee (bytes "/bin/foo") [bytes "a"])
          (argv_of [bytes "a"]))).2.sysarg2 = 65518
    ∧ (Outcome.state (0, demo_tracee [] [])
        (set_argv (demo_env [] []) 0 (demo_tracee (bytes "/bin/foo") [bytes "a"])
          (argv_of [bytes "a"]))).2.sp = 65518
    ∧ (Outcome.state (0, demo_tracee [] [])
        (set_argv (demo_env [] []) 0 (demo_tracee (bytes "/bin/foo") [bytes "a"])
          (argv_of [bytes "a"]))).2.written.take 16
        = [65525, 65524, 65523, 65522, 65521, 65520, 65519, 65518,
           65533, 65532, 65531, 65530, 65529, 65528, 65527, 65526]
    ∧ 65518 % (demo_env [] []).W = 6 ∧ 65526 % (demo_env [] []).W = 6 := by
  refine ⟨by decide, by rfl, by rfl, by rfl, by rfl, by decide, by decide⟩

/-- C12, amended: when the previous stack pointer is a multiple of the word
size, `set_argv` succeeds and nothing wraps, the pointer table of the `N + 1`
words read back from the new argv base lies at the addresses
`base + i * W`, and each of these addresses, the base written to the second
system-call argument and to the stack pointer among them, is a multiple of the
word size exactly when the strings with their terminators take a multiple of
the word size; strings are packed unaligned and nothing pads them. -/
theorem set_argv_alignment (env : Env) (n : Nat) (t : Tracee) (l : List Str) (extra : Argv)
    (hW : 0 < env.W) (halloc : env.alloc_ok n = true) (hpeek : t.peekuser_ok = true)
    (hpoke : t.pokeuser_ok = true) (hM : t.sp < word_mod env.W)
    (hsz : argv_size env.W l ≤ t.sp)
    (hmap : ∀ x, t.sp - argv_size env.W l ≤ x → x < t.sp → t.mapped x = true)
    (halign : t.sp % env.W = 0) :
    ∃ t1 : Tracee,
      set_argv env n t (l.map some ++ none :: extra) = .ret (argv_size env.W l : Nat) (n + 1, t1)
      ∧ t1.sp = t1.sysarg2
      ∧ table_at env.W t1 t1.sysarg2 (string_addrs t.sp l ++ [0])
      ∧ ∀ i, i ≤ l.length →
          ((t1.sysarg2 + i * env.W) % env.W = 0 ↔ (l.map fun s => s.length + 1).sum % env.W = 0) := by
  obtain ⟨t1, hset, h2, hsp, -, -, -, htab, -⟩ :=
    set_argv_layout env n t l extra hW halloc hpeek hpoke hM hsz hmap
  refine ⟨t1, hset, by rw [hsp, h2], htab, fun i _ => ?_⟩
  rw [h2]
  exact aligned_base_iff env.W t.sp _ l.length i halign hsz

theorem set_argv_alignment_witness :
    ∃ t1 : Tracee,
      set_argv (demo_env [] []) 0 (demo_tracee (bytes "/bin/foo") [bytes "foo", bytes "bar"])
          ([bytes "foo", bytes "bar"].map some ++ none :: [])
        = .ret (argv_size 8 [bytes "foo", bytes "bar"] : Nat) (0 + 1, t1)
      ∧ t1.sp = t1.sysarg2
      ∧ table_at 8 t1 t1.sysarg2 (string_addrs 65536 [bytes "foo", bytes "bar"] ++ [0])
      ∧ ∀ i, i ≤ 2 →
          ((t1.sysarg2 + i * 8) % 8 = 0
            ↔ ([bytes "foo", bytes "bar"].map fun s => s.length + 1).sum % 8 = 0) :=
  set_argv_alignment (demo_env [] []) 0 (demo_tracee (bytes "/bin/foo") [bytes "foo", bytes "bar"])
    [bytes "foo", bytes "bar"] [] (by decide) rfl rfl rfl (by decide) (by decide)
    (fun _ _ _ => rfl) (by decide)

/-! ## Allocation failures and the empty argument vector -/

/-- C13: with the argument vector `a0, a1` and the new strings `x, y`, when
the reallocation succeeds and the allocation of the first new entry fails,
`substitute_argv0` returns `-ENOMEM` and leaves the slots `NULL, a1, a1, NULL`:
the release loop of `translate_execve`, which frees the entries before the
first `NULL` slot, frees no entry, so the old entry `a1` is never released. -/
theorem substitute_argv0_failed_calloc :
    one_alloc_env.alloc_ok 0 = true ∧ one_alloc_env.alloc_ok 1 = false
    ∧ substitute_argv0 one_alloc_env 0 (argv_of [bytes "a0", bytes "a1"]) [bytes "x", bytes "y"]
        = .ret (-ENOMEM) (2, [none, some (bytes "a1"), some (bytes "a1"), none])
    ∧ argv_entries [none, some (bytes "a1"), some (bytes "a1"), none] = some [] := by
  refine ⟨rfl, rfl, by decide, by decide⟩

/-- C17: for the array holding only the terminating `NULL`, a successful
`substitute_argv0` with two new strings reallocates two slots and fills both:
no `NULL` slot follows the new entries, a scan for it leaves the allocation,
and `translate_execve` on a script called with such an argument vector has
undefined behaviour. -/
theorem substitute_argv0_empty_argv :
    substitute_argv0 (demo_env [] []) 1 [none] [bytes "/bin/sh", bytes "/bin/foo.sh"]
        = .ret 0 (4, [some (bytes "/bin/sh"), some (bytes "/bin/foo.sh")])
    ∧ argv_count [some (bytes "/bin/sh"), some (bytes "/bin/foo.sh")] = none
    ∧ get_argv script_env 3 0 (demo_tracee (bytes "/bin/foo.sh") []) = some (.ret 0 (1, [none]))
    ∧ translate_execve script_env 3 0 (demo_tracee (bytes "/bin/foo.sh") []) = some .undefined := by
  refine ⟨by decide, by decide, by decide, by rfl⟩

/-- C18: with a runner configured, the binary `/bin/foo` passing the access
checks and the reallocation of the runner splice failing, `substitute_argv0`
returns `-ENOMEM` and leaves the argument vector `foo` as it was, yet
`translate_execve` goes on: `set_argv` lays that vector out in the tracee (20
bytes), `set_sysarg_path` makes the first system-call argument the runner (18
more bytes for its path), and the value returned is the size 20 of the new
vector, not `-ENOMEM`. -/
theorem translate_execve_failed_runner_splice :
    substitute_argv0 splice_fails_env 2 (argv_of [bytes "foo"])
        [splice_fails_env.runner, bytes "/bin/foo"]
      = .ret (-ENOMEM) (3, argv_of [bytes "foo"])
    ∧ translate_execve splice_fails_env 3 0 (demo_tracee (bytes "/bin/foo") [bytes "foo"])
      = some (.ret 20 (4, final_tracee (demo_tracee (bytes "/bin/foo") [bytes "foo"])
          (translate_execve splice_fails_env 3 0 (demo_tracee (bytes "/bin/foo") [bytes "foo"]))))
    ∧ (final_tracee (demo_tracee (bytes "/bin/foo") [bytes "foo"])
        (translate_execve splice_fails_env 3 0
          (demo_tracee (bytes "/bin/foo") [bytes "foo"]))).sysarg1 = bytes "/usr/bin/qemu-arm"
    ∧ (final_tracee (demo_tracee (bytes "/bin/foo") [bytes "foo"])
        (translate_execve splice_fails_env 3 0
          (demo_tracee (bytes "/bin/foo") [bytes "foo"]))).sysarg2 = 65516
    ∧ (final_tracee (demo_tracee (bytes "/bin/foo") [bytes "foo"])
        (translate_execve splice_fails_env 3 0
          (demo_tracee (bytes "/bin/foo") [bytes "foo"]))).written.length = 20 + 18
    ∧ get_argv (demo_env [] []) 3 0
        (final_tracee (demo_tracee (bytes "/bin/foo") [bytes "foo"])
          (translate_execve splice_fails_env 3 0 (demo_tracee (bytes "/bin/foo") [bytes "foo"])))
      = some (.ret 0 (2, argv_of [bytes "foo"]))
    ∧ (20 : Int) ≠ -ENOMEM := by
  refine ⟨by decide, by rfl, by decide, by decide, by decide, by decide, by decide⟩

/-! ## Invariant of the shebang loop -/

theorem expand_shebang_step (env : Env) (n : Nat) (filename a0 : Str) (as : List Str)
    (extra : Argv) :
    (∃ status st, expand_shebang env n filename (some a0 :: (as.map some ++ none :: extra))
        = .ret status st ∧ status ≤ 0)
      ∨ ∃ (n1 : Nat) (p1 : Str) (mid : List Str),
          expand_shebang env n filename (some a0 :: (as.map some ++ none :: extra))
          = .ret 1 (n1, p1, argv_of (p1 :: (mid ++ filename :: as)))
        ∧ mid.length ≤ 1 := by
  unfold expand_shebang
  cases htr : env.translate_path filename with
  | mk status path =>
    simp only
    by_cases hst : status < 0
    · left; exact ⟨status, _, by rw [if_pos hst], le_of_lt hst⟩
    · rw [if_neg hst]
      cases hopen : env.open_file path with
      | error e => left; exact ⟨_, _, rfl, by simp⟩
      | ok fd =>
        simp only
        cases hsb : read_shebang fd with
        | mk s interp arg =>
          have hstat := read_shebang_status fd
          rw [hsb] at hstat
          simp only at hstat ⊢
          by_cases hs : s ≤ 0
          · left; exact ⟨s, _, by rw [if_pos hs], hs⟩
          · rw [if_neg hs]
            rcases hstat with h | h | h
            · exact absurd h hs
            · subst h
              simp only [if_true]
              rcases substitute_argv0_cases env n a0 as [cstr interp, filename] extra
                (by simp) with h1 | ⟨st, h1⟩
              · right
                refine ⟨n + 1 + 2, cstr interp, [], ?_, by simp⟩
                rw [h1]
                simp [argv_of]
              · left
                obtain ⟨n1, a1⟩ := st
                refine ⟨-ENOMEM, (n1, filename, a1), ?_, by decide⟩
                rw [h1]
                simp [ENOMEM]
            · subst h
              rw [if_neg (by decide)]
              simp only [if_true]
              rcases substitute_argv0_cases env n a0 as [cstr interp, cstr arg, filename] extra
                (by simp) with h1 | ⟨st, h1⟩
              · right
                refine ⟨n + 1 + 3, cstr interp, [cstr arg], ?_, by simp⟩
                rw [h1]
                simp [argv_of]
              · left
                obtain ⟨n1, a1⟩ := st
                refine ⟨-ENOMEM, (n1, filename, a1), ?_, by decide⟩
                rw [h1]
                simp [ENOMEM]

theorem expand_times_succ (env : Env) (d n : Nat) (path a0 : Str) (as : List Str) (extra : Argv)
    (r : Nat × Str × Argv)
    (h : expand_times env (d + 1) n path (some a0 :: (as.map some ++ none :: extra)) = some r) :
    ∃ (n1 : Nat) (p1 : Str) (mid : List Str), mid.length ≤ 1
      ∧ expand_shebang env n path (some a0 :: (as.map some ++ none :: extra))
          = .ret 1 (n1, p1, argv_of (p1 :: (mid ++ path :: as)))
      ∧ expand_times env d n1 p1 (argv_of (p1 :: (mid ++ path :: as))) = some r := by
  rw [expand_times] at h
  rcases expand_shebang_step env n path a0 as extra with
    ⟨status, st, hexp, hs⟩ | ⟨n1, p1, mid, hexp, hmid⟩
  · obtain ⟨n1, p1, a1⟩ := st
    rw [hexp] at h
    simp only [gt_iff_lt, not_lt.2 hs, if_false] at h
    cases h
  · rw [hexp] at h
    simp only [gt_iff_lt, zero_lt_one, if_true] at h
    exact ⟨n1, p1, mid, hmid, hexp, h⟩

theorem expand_times_shape (env : Env) :
    ∀ (d n : Nat) (path a0 : Str) (as : List Str) (extra : Argv) (n2 : Nat) (path2 : Str)
      (argv2 : Argv),
      expand_times env (d + 1) n path (some a0 :: (as.map some ++ none :: extra))
        = some (n2, path2, argv2) →
      ∃ mid : List Str, argv2 = argv_of (path2 :: (mid ++ path :: as))
        ∧ d ≤ mid.length ∧ mid.length ≤ 2 * d + 1 := by
  intro d
  induction d with
  | zero =>
    intro n path a0 as extra n2 path2 argv2 h
    obtain ⟨n1, p1, mid, hmid, -, h2⟩ := expand_times_succ env 0 n path a0 as extra _ h
    rw [expand_times] at h2
    cases h2
    exact ⟨mid, rfl, by omega, by omega⟩
  | succ d ih =>
    intro n path a0 as extra n2 path2 argv2 h
    obtain ⟨n1, p1, mid, hmid, -, h2⟩ := expand_times_succ env (d + 1) n path a0 as extra _ h
    have h3 : expand_times env (d + 1) n1 p1
        (some p1 :: ((mid ++ path :: as).map some ++ none :: [])) = some (n2, path2, argv2) := h2
    obtain ⟨mid2, hargv, hlo, hhi⟩ := ih n1 p1 p1 (mid ++ path :: as) [] n2 path2 argv2 h3
    refine ⟨mid2 ++ p1 :: mid, ?_, ?_, ?_⟩
    · rw [hargv]; simp
    · simp only [List.length_append, List.length_cons]; omega
    · simp only [List.length_append, List.length_cons]; omega

theorem shebang_loop_prefix (env : Env) :
    ∀ (d n : Nat) (path : Str) (argv : Argv) (r : Nat × Str × Argv),
      expand_times env d n path argv = some r →
      ∀ (fuel : Nat) (nb : Int),
        shebang_loop env (d + fuel) nb n path argv = shebang_loop env fuel (nb + d) r.1 r.2.1 r.2.2 := by
  intro d
  induction d with
  | zero =>
    intro n path argv r h fuel nb
    rw [expand_times] at h
    cases h
    simp
  | succ d ih =>
    intro n path argv r h fuel nb
    rw [expand_times] at h
    cases hexp : expand_shebang env n path argv with
    | undefined => rw [hexp] at h; cases h
    | ret status st =>
      obtain ⟨n1, p1, a1⟩ := st
      rw [hexp] at h
      simp only at h
      by_cases hs : status > 0
      · rw [if_pos hs] at h
        have e : d + 1 + fuel = (d + fuel) + 1 := by omega
        rw [e, shebang_loop, hexp]
        simp only [hs, if_true]
        rw [ih n1 p1 a1 r h fuel (nb + 1)]
        congr 1
        push_cast
        ring
      · rw [if_neg hs] at h; cases h

/-- C19: loop invariant of shebang expansion.  For a non-empty argument vector
`a0, a1, ..., an` and `d >= 1` calls of `expand_shebang` by the loop of
`translate_execve` that each returned a value `> 0`, the array is then
NULL-terminated, its first entry is the current guest path (the interpreter
read last), its last `n + 1` entries are the initial guest path and
`a1, ..., an` in that order, and it has at least `n + 1 + d` and at most
`n + 1 + 2 d` entries; the loop goes on from that state with `nb_shebang`
increased by `d`. -/
theorem shebang_loop_invariant (env : Env) (d n : Nat) (path a0 : Str) (as : List Str)
    (extra : Argv) (n2 : Nat) (path2 : Str) (argv2 : Argv) (hd : 1 ≤ d)
    (h : expand_times env d n path (some a0 :: (as.map some ++ none :: extra))
      = some (n2, path2, argv2)) :
    (∃ mid : List Str, argv2 = argv_of (path2 :: (mid ++ path :: as))
      ∧ as.length + 1 + d ≤ (path2 :: (mid ++ path :: as)).length
      ∧ (path2 :: (mid ++ path :: as)).length ≤ as.length + 1 + 2 * d)
    ∧ ∀ (fuel : Nat) (nb : Int),
        shebang_loop env (d + fuel) nb n path (some a0 :: (as.map some ++ none :: extra))
          = shebang_loop env fuel (nb + d) n2 path2 argv2 := by
  obtain ⟨k, rfl⟩ : ∃ k, d = k + 1 := ⟨d - 1, by omega⟩
  obtain ⟨mid, hargv, hlo, hhi⟩ := expand_times_shape env k n path a0 as extra n2 path2 argv2 h
  refine ⟨⟨mid, hargv, ?_, ?_⟩, fun fuel nb => shebang_loop_prefix env _ n path _ _ h fuel nb⟩
  · simp only [List.length_append, List.length_cons]; omega
  · simp only [List.length_append, List.length_cons]; omega

theorem shebang_loop_invariant_witness :
    (∃ mid : List Str,
      argv_of [bytes "/c", bytes "arg", bytes "/b", bytes "/a", bytes "x"]
        = argv_of (bytes "/c" :: (mid ++ bytes "/a" :: [bytes "x"]))
      ∧ [bytes "x"].length + 1 + 2 ≤ (bytes "/c" :: (mid ++ bytes "/a" :: [bytes "x"])).length
      ∧ (bytes "/c" :: (mid ++ bytes "/a" :: [bytes "x"])).length ≤ [bytes "x"].length + 1 + 2 * 2)
    ∧ ∀ (fuel : Nat) (nb : Int),
        shebang_loop nested_env (2 + fuel) nb 0 (bytes "/a")
            (some (bytes "a") :: ([bytes "x"].map some ++ none :: []))
          = shebang_loop nested_env fuel (nb + (2 : Nat)) 7 (bytes "/c")
              (argv_of [bytes "/c", bytes "arg", bytes "/b", bytes "/a", bytes "x"]) :=
  shebang_loop_invariant nested_env 2 0 (bytes "/a") (bytes "a") [bytes "x"] [] 7 (bytes "/c")
    (argv_of [bytes "/c", bytes "arg", bytes "/b", bytes "/a", bytes "x"]) (by decide) (by decide)

/-! ## Frame of `set_argv` -/

theorem writes_within_refl (t : Tracee) (lo hi : Nat) : writes_within t t lo hi :=
  ⟨⟨[], rfl, fun _ h => by cases h⟩, fun _ _ => rfl⟩

theorem writes_within_trans (t t1 t2 : Tracee) (lo hi : Nat)
    (h1 : writes_within t t1 lo hi) (h2 : writes_within t1 t2 lo hi) :
    writes_within t t2 lo hi := by
  obtain ⟨⟨w1, e1, b1⟩, m1⟩ := h1
  obtain ⟨⟨w2, e2, b2⟩, m2⟩ := h2
  refine ⟨⟨w2 ++ w1, by rw [e2, e1, List.append_assoc], ?_⟩, fun x hx => ?_⟩
  · intro x hx
    rcases List.mem_append.1 hx with h | h
    · exact b2 x h
    · exact b1 x h
  · rw [m2 x hx, m1 x hx]

theorem writes_within_mono (t t1 : Tracee) (lo hi lo2 hi2 : Nat) (hlo : lo2 ≤ lo) (hhi : hi ≤ hi2)
    (h : writes_within t t1 lo hi) : writes_within t t1 lo2 hi2 := by
  obtain ⟨⟨w, e, b⟩, m⟩ := h
  refine ⟨⟨w, e, fun x hx => ?_⟩, fun x hx => m x (by omega)⟩
  have := b x hx
  omega

theorem copy_to_child_frame (bs : List Nat) : ∀ (t : Tracee) (a : Nat),
    writes_within t (copy_to_child t a bs).2 a (a + bs.length) := by
  induction bs with
  | nil => intro t a; exact writes_within_refl t _ _
  | cons b bs ih =>
    intro t a
    rw [copy_to_child]
    by_cases h : t.mapped a = true
    · rw [if_pos h]
      have h1 : writes_within t
          { t with mem := store_bytes t.mem a [b], written := a :: t.written }
          a (a + (b :: bs).length) := by
        refine ⟨⟨[a], rfl, fun x hx => ?_⟩, fun x hx => ?_⟩
        · rw [List.mem_singleton.1 hx]
          simp only [List.length_cons]; omega
        · apply store_bytes_outside
          simp only [List.length_cons, List.length_singleton, List.length_nil] at hx ⊢
          omega
      have h2 := ih { t with mem := store_bytes t.mem a [b], written := a :: t.written } (a + 1)
      exact writes_within_trans _ _ _ _ _ h1
        (writes_within_mono _ _ _ _ _ _ (by omega) (by simp only [List.length_cons]; omega) h2)
    · rw [if_neg h]
      exact writes_within_refl t _ _

theorem push_strings_frame (env : Env) (l : List Str) :
    ∀ (t : Tracee) (argp : Nat) (ca : List Nat),
      argp < word_mod env.W → strings_size l ≤ argp →
      writes_within t (push_strings env l t argp ca).2.1 (argp - strings_size l) argp := by
  induction l with
  | nil => intro t argp ca _ _; exact writes_within_refl t _ _
  | cons s rest ih =>
    intro t argp ca hM hsz
    rw [strings_size_cons] at hsz ⊢
    have hw : wsub env.W argp (s.length + 1) = argp - (s.length + 1) :=
      wsub_eq env.W argp (s.length + 1) (by omega) hM
    have h1 := copy_to_child_frame (s ++ [0]) t (argp - (s.length + 1))
    have hlen : argp - (s.length + 1) + (s ++ [0]).length = argp := by
      simp only [List.length_append, List.length_singleton]; omega
    rw [hlen] at h1
    rw [push_strings, hw]
    cases hc : copy_to_child t (argp - (s.length + 1)) (s ++ [0]) with
    | mk st t1 =>
      rw [hc] at h1
      simp only at h1 ⊢
      by_cases hs : st < 0
      · rw [if_pos hs]
        exact writes_within_mono _ _ _ _ _ _ (by omega) (le_refl _) h1
      · rw [if_neg hs]
        have h2 := ih t1 (argp - (s.length + 1)) (ca ++ [argp - (s.length + 1)]) (by omega)
          (by omega)
        have e : argp - (s.length + 1) - strings_size rest
            = argp - (s.length + 1 + strings_size rest) := by omega
        rw [e] at h2
        exact writes_within_trans _ _ _ _ _
          (writes_within_mono _ _ _ _ _ _ (by omega) (le_refl _) h1)
          (writes_within_mono _ _ _ _ _ _ (le_refl _) (by omega) h2)

theorem push_pointers_frame (env : Env) (vs : List Nat) : ∀ (t : Tracee) (cv : Nat),
    cv < word_mod env.W → vs.length * env.W ≤ cv →
    writes_within t (push_pointers env vs t cv).2.1 (cv - vs.length * env.W) cv := by
  induction vs with
  | nil => intro t cv _ _; exact writes_within_refl t _ _
  | cons v rest ih =>
    intro t cv hM hsz
    have hlen : (v :: rest).length * env.W = rest.length * env.W + env.W := by
      simp only [List.length_cons]; ring
    rw [hlen] at hsz ⊢
    have hw : wsub env.W cv env.W = cv - env.W := wsub_eq env.W cv env.W (by omega) hM
    rw [push_pointers, hw]
    unfold poke_data
    by_cases hmap : range_mapped t (cv - env.W) env.W = true
    · rw [if_pos hmap]
      simp only
      have h1 : writes_within t
          { t with mem := store_bytes t.mem (cv - env.W) (word_bytes v env.W),
                   written := ((List.range env.W).map (cv - env.W + ·)).reverse ++ t.written }
          (cv - env.W) cv := by
        refine ⟨⟨_, rfl, fun x hx => ?_⟩, fun x hx => ?_⟩
        · rw [List.mem_reverse, List.mem_map] at hx
          obtain ⟨k, hk, rfl⟩ := hx
          have := List.mem_range.1 hk
          omega
        · apply store_bytes_outside
          rw [word_bytes_length]
          omega
      have h2 := ih
        { t with mem := store_bytes t.mem (cv - env.W) (word_bytes v env.W),
                 written := ((List.range env.W).map (cv - env.W + ·)).reverse ++ t.written }
        (cv - env.W) (by omega) (by omega)
      have e : cv - env.W - rest.length * env.W = cv - (rest.length * env.W + env.W) := by omega
      rw [e] at h2
      exact writes_within_trans _ _ _ _ _
        (writes_within_mono _ _ _ _ _ _ (by omega) (le_refl _) h1)
        (writes_within_mono _ _ _ _ _ _ (le_refl _) (by omega) h2)
    · rw [if_neg hmap]
      exact writes_within_refl t _ _

theorem set_argv_phases (env : Env) (n : Nat) (t : Tracee) (l : List Str) (extra : Argv)
    (hM : t.sp < word_mod env.W) (hsz : argv_size env.W l ≤ t.sp) :
    ∃ (status : Int) (n1 : Nat) (t1 ts : Tracee),
      set_argv env n t (l.map some ++ none :: extra) = .ret status (n1, t1)
      ∧ writes_within t ts (t.sp - strings_size l) t.sp
      ∧ writes_within ts t1 (t.sp - argv_size env.W l) (t.sp - strings_size l)
      ∧ (0 ≤ status → t1.sysarg2 = t.sp - argv_size env.W l
          ∧ t1.sp = t.sp - argv_size env.W l) := by
  have hA : argv_size env.W l = strings_size l + (l.length + 1) * env.W := rfl
  have hneg : ∀ e : Int, e < 0 → ∀ P : Prop, 0 ≤ e → P := fun e he P h => absurd h (not_le.2 he)
  unfold set_argv
  simp only [argv_entries_terminated]
  by_cases ha : env.alloc_ok n = true
  swap
  · rw [if_neg ha]
    exact ⟨_, _, t, t, rfl, writes_within_refl _ _ _, writes_within_refl _ _ _,
      hneg _ (by decide) _⟩
  rw [if_pos ha]
  by_cases hp : t.peekuser_ok = true
  swap
  · rw [if_neg hp]
    exact ⟨_, _, t, t, rfl, writes_within_refl _ _ _, writes_within_refl _ _ _,
      hneg _ (by decide) _⟩
  rw [if_pos hp]
  have hf1 := push_strings_frame env l t t.sp [] hM (by omega)
  have hm1 := push_strings_mapped env l t t.sp [] hM (by omega)
  cases hps : push_strings env l t t.sp [] with
  | mk st r =>
    obtain ⟨ts, argp, ca⟩ := r
    rw [hps] at hf1 hm1
    simp only at hf1 hm1 ⊢
    by_cases hs : st < 0
    · rw [if_pos hs]
      exact ⟨_, _, ts, ts, rfl, hf1, writes_within_refl _ _ _, hneg _ hs _⟩
    rw [if_neg hs]
    obtain ⟨wr, hok, -⟩ := push_strings_ok env l t t.sp [] hM (by omega) (hm1 (not_lt.1 hs))
    rw [hps] at hok
    have hargp : argp = t.sp - strings_size l := by
      have := congrArg (fun x => x.2.2.1) hok
      exact this
    have hca : ca = [] ++ string_addrs t.sp l := by
      have := congrArg (fun x => x.2.2.2) hok
      exact this
    have hlen : (ca ++ [0]).reverse.length * env.W = (l.length + 1) * env.W := by
      rw [hca]; simp [string_addrs_length]
    have hf2 := push_pointers_frame env (ca ++ [0]).reverse ts argp (by omega) (by omega)
    have hm2 := push_pointers_mapped env (ca ++ [0]).reverse ts argp (by omega) (by omega)
    rw [hlen, hargp] at hf2
    have e : t.sp - strings_size l - (l.length + 1) * env.W = t.sp - argv_size env.W l := by
      omega
    rw [e] at hf2
    cases hpp : push_pointers env (ca ++ [0]).reverse ts argp with
    | mk st2 r2 =>
      obtain ⟨t2, cv⟩ := r2
      rw [← hargp, hpp] at hf2
      rw [hpp] at hm2
      simp only at hf2 hm2 ⊢
      rw [hargp] at hf2
      by_cases hs2 : st2 < 0
      · rw [if_pos hs2]
        exact ⟨_, _, t2, ts, rfl, hf1, hf2, hneg _ hs2 _⟩
      rw [if_neg hs2]
      obtain ⟨wr2, hok2, -⟩ := push_pointers_ok env (ca ++ [0]).reverse ts argp (by omega)
        (by omega) (hm2 (not_lt.1 hs2))
      rw [hpp] at hok2
      have hcv : cv = argp - (ca ++ [0]).reverse.length * env.W := by
        have := congrArg (fun x => x.2.2) hok2
        exact this
      rw [hlen, hargp, e] at hcv
      by_cases hk : t2.pokeuser_ok = true
      · rw [if_pos hk]
        exact ⟨_, _, { t2 with sysarg2 := cv, sp := cv }, ts, rfl, hf1, hf2, fun _ => ⟨hcv, hcv⟩⟩
      · rw [if_neg hk]
        exact ⟨_, _, { t2 with sysarg2 := cv }, ts, rfl, hf1, hf2, hneg _ (by decide) _⟩

/-- C20: `set_argv` writes only below the old stack pointer.  When no
subtraction wraps (the stack pointer `previous_sp` is a word and is at least
the size of the strings and of the pointer table), `set_argv` returns, on
success or with an error, and the bytes it wrote are string bytes at
addresses from `previous_sp - sum (strlen + 1)` up to `previous_sp`, excluded,
followed by pointer-table bytes at addresses from the final argv base
`new_sp = previous_sp - sum (strlen + 1) - (N + 1) * W` up to the first string
byte, so the two regions do not overlap; every byte at an address below
`new_sp` or at or above `previous_sp` is unchanged, also when `set_argv` fails
part-way; on success the second system-call argument and the stack pointer are
`new_sp`. -/
theorem set_argv_frame (env : Env) (n : Nat) (t : Tracee) (l : List Str) (extra : Argv)
    (hM : t.sp < word_mod env.W) (hsz : argv_size env.W l ≤ t.sp) :
    ∃ (status : Int) (n1 : Nat) (t1 : Tracee),
      set_argv env n t (l.map some ++ none :: extra) = .ret status (n1, t1)
      ∧ (∃ wr_ptr wr_str : List Nat, t1.written = wr_ptr ++ wr_str ++ t.written
          ∧ (∀ x ∈ wr_str, t.sp - strings_size l ≤ x ∧ x < t.sp)
          ∧ (∀ x ∈ wr_ptr, t.sp - argv_size env.W l ≤ x ∧ x < t.sp - strings_size l))
      ∧ (∀ x, x < t.sp - argv_size env.W l ∨ t.sp ≤ x → t1.mem x = t.mem x)
      ∧ (0 ≤ status → t1.sysarg2 = t.sp - argv_size env.W l
          ∧ t1.sp = t.sp - argv_size env.W l) := by
  obtain ⟨status, n1, t1, ts, hset, ⟨⟨w1, e1, b1⟩, m1⟩, ⟨⟨w2, e2, b2⟩, m2⟩, hok⟩ :=
    set_argv_phases env n t l extra hM hsz
  have hA : argv_size env.W l = strings_size l + (l.length + 1) * env.W := rfl
  refine ⟨status, n1, t1, hset, ⟨w2, w1, by rw [e2, e1, List.append_assoc], b1, b2⟩, ?_, hok⟩
  intro x hx
  rw [m2 x (by omega), m1 x (by omega)]

theorem set_argv_frame_witness :
    ∃ (status : Int) (n1 : Nat) (t1 : Tracee),
      set_argv (demo_env [] []) 0 (hole_tracee (bytes "/bin/foo") [bytes "foo"])
          ([bytes "foo"].map some ++ none :: []) = .ret status (n1, t1)
      ∧ (∃ wr_ptr wr_str : List Nat,
          t1.written = wr_ptr ++ wr_str ++ (hole_tracee (bytes "/bin/foo") [bytes "foo"]).written
          ∧ (∀ x ∈ wr_str, 65536 - strings_size [bytes "foo"] ≤ x ∧ x < 65536)
          ∧ (∀ x ∈ wr_ptr, 65536 - argv_size 8 [bytes "foo"] ≤ x
              ∧ x < 65536 - strings_size [bytes "foo"]))
      ∧ (∀ x, x < 65536 - argv_size 8 [bytes "foo"] ∨ 65536 ≤ x →
          t1.mem x = (hole_tracee (bytes "/bin/foo") [bytes "foo"]).mem x)
      ∧ (0 ≤ status → t1.sysarg2 = 65536 - argv_size 8 [bytes "foo"]
          ∧ t1.sp = 65536 - argv_size 8 [bytes "foo"]) :=
  set_argv_frame (demo_env [] []) 0 (hole_tracee (bytes "/bin/foo") [bytes "foo"]) [bytes "foo"]
    [] (by decide) (by decide)

end Execve
